import Mathlib

/-!
UKV on RocksDB: a verification development

A shallow embedding of `src/engine_rocksdb.cpp` (the blob engine, the scan,
the collection catalogue and the transactions) and of the members of
`include/ukv/cpp/db.hpp` that sit on them (`context_t`, `database_t`),
together with the properties the specification states about them.

Conventions of the embedding.

* Machine integers are `Nat`/`Int`: a key (`ukv_key_t`) is an `Int`, a collection
  identifier (`ukv_collection_t`), a length or offset (`ukv_length_t`) and a size
  (`ukv_size_t`) are `Nat`s; a narrowing conversion of the source is an explicit
  `% 2 ^ w`.
* A pointer to an immutable object is the object together with its address;
  the null pointer is address `0` or `none`.
* An output array is the list of the cells the code wrote, in index order; a
  cell the code never wrote is absent from the list.
* RocksDB is the environment.  Its column families are kept as lists of
  entries in comparator order, and a table of injected failures lets any
  single key answer with a failing status.
-/

namespace ukv

/-! ## Constants and plain types -/

/-- One byte. -/
abbrev byte_t := Fin 256

/-- A `rocksdb::Slice`: the bytes it addresses. -/
abbrev slice_t := List byte_t

/-- The identifier of the main collection (source line 41). -/
def ukv_collection_main_k : Nat := 0

/-- The length of a missing value, `numeric_limits<ukv_length_t>::max()` (source line 42). -/
def ukv_length_missing_k : Nat := 2 ^ 32 - 1

/-- The reserved key, `numeric_limits<ukv_key_t>::max()` (source line 43). -/
def ukv_key_unknown_k : Int := 2 ^ 63 - 1

/-- The name RocksDB gives to its default column family, `rocksdb::kDefaultColumnFamilyName`. -/
def kDefaultColumnFamilyName : String := "default"

/-- The predicate of a key that fits the signed 64-bit range. -/
def is_i64 (k : Int) : Prop := -(2 ^ 63) ≤ k ∧ k < 2 ^ 63

instance (k : Int) : Decidable (is_i64 k) := by
  unfold is_i64; infer_instance

/-! ## Keys as slices and the comparator -/

/-- The unsigned 64-bit pattern of a key (two's complement). -/
def key_bits (key : Int) : Nat := (key % 2 ^ 64).toNat

/-- The byte number `i` of a 64-bit pattern, little-endian. -/
def byte_of (u : Nat) (i : Nat) : byte_t := ⟨(u / 256 ^ i) % 256, Nat.mod_lt _ (by decide)⟩

/-- Source `to_slice(ukv_key_t const&)` (lines 83-85): the eight bytes of the key as
they lie in memory on a little-endian host. -/
def to_slice (key : Int) : slice_t :=
  let u := key_bits key
  [byte_of u 0, byte_of u 1, byte_of u 2, byte_of u 3,
   byte_of u 4, byte_of u 5, byte_of u 6, byte_of u 7]

/-- The unsigned little-endian value of a run of bytes. -/
def le_value : List byte_t → Nat
  | [] => 0
  | b :: rest => b.val + 256 * le_value rest

/-- Source `*reinterpret_cast<ukv_key_t const*>(s.data())`: the first eight bytes of
the slice read as a signed 64-bit integer. -/
def as_key (s : slice_t) : Int :=
  let u := le_value (s.take 8)
  if u < 2 ^ 63 then (u : Int) else (u : Int) - 2 ^ 64

/-- Source `key_comparator_t::Compare` (lines 57-63). -/
def key_comparator_t.Compare (a b : slice_t) : Int :=
  let ai := as_key a
  let bi := as_key b
  if ai = bi then 0
  else if ai < bi then -1 else 1

/-! ## The status channel -/

/-- The error kinds the engine hands to `return_error_if_m` (their declarations are in a
header that is not among the sources). -/
inductive ukv_error_code_t
  | uninitialized_state_k
  | args_wrong_k
  | args_combo_k
  | error_unknown_k
deriving DecidableEq, Repr

/-- The content of a non-empty error slot: the diagnostic, and the kind when the slot
was written by `return_error_if_m` (no kind when `export_error` wrote it). -/
structure ukv_failure_t where
  message : String
  code : Option ukv_error_code_t
deriving DecidableEq, Repr

/-- The error slot `ukv_error_t`; `none` is the empty slot. -/
abbrev ukv_error_t := Option ukv_failure_t

/-- Modelled from the spec: the macro `return_error_if_m` of the helper headers, which are
not among the sources ("every call takes a pointer to an error slot that is set to a
non-empty diagnostic string on failure"). This is the slot it leaves when its condition
does not hold. -/
def raise_error (code : ukv_error_code_t) (message : String) : ukv_error_t :=
  some { message := message, code := some code }

/-- The codes of `rocksdb::Status`. -/
inductive rocks_status_t
  | kOk
  | kNotFound
  | kCorruption
  | kNotSupported
  | kInvalidArgument
  | kIOError
  | kMergeInProgress
  | kIncomplete
  | kShutdownInProgress
  | kTimedOut
  | kAborted
  | kBusy
  | kExpired
  | kTryAgain
  | kCompactionTooLarge
  | kColumnFamilyDropped
deriving DecidableEq, Repr

/-- The test `Status::ok()`. -/
def rocks_status_t.ok (s : rocks_status_t) : Bool := s == .kOk

/-- The test `Status::IsNotFound()`. -/
def rocks_status_t.IsNotFound (s : rocks_status_t) : Bool := s == .kNotFound

/-- The test `Status::IsCorruption()`. -/
def rocks_status_t.IsCorruption (s : rocks_status_t) : Bool := s == .kCorruption

/-- The test `Status::IsIOError()`. -/
def rocks_status_t.IsIOError (s : rocks_status_t) : Bool := s == .kIOError

/-- The test `Status::IsInvalidArgument()`. -/
def rocks_status_t.IsInvalidArgument (s : rocks_status_t) : Bool := s == .kInvalidArgument

/-- A status that is neither `ok` nor `not found`: a failure of the store. -/
def rocks_status_t.fails (s : rocks_status_t) : Bool := !s.ok && !s.IsNotFound

/-- Source `export_error` (lines 99-112): whether the status is an error, and the
error slot afterwards. -/
def export_error (status : rocks_status_t) (c_error : ukv_error_t) : Bool × ukv_error_t :=
  if status.ok then (false, c_error)
  else if status.IsCorruption then
    (true, some { message := "Failure: DB Corruption", code := none })
  else if status.IsIOError then
    (true, some { message := "Failure: IO  Error", code := none })
  else if status.IsInvalidArgument then
    (true, some { message := "Failure: Invalid Argument", code := none })
  else
    (true, some { message := "Failure", code := none })

/-! ## Values -/

/-- Modelled from the spec: the class `value_view_t` of `ukv/cpp/types.hpp`, which is not
among the sources ("Value: opaque byte sequence, length in [0, 2^32 - 2]; length 2^32 - 1
encodes missing"). A view is the memory found at its pointer and a 32-bit length. -/
structure value_view_t where
  ptr_ : List byte_t
  length_ : Nat
deriving DecidableEq, Repr

/-- Modelled from the spec: the default view `value_view_t {}`, the missing value. -/
def value_view_t.missing : value_view_t := { ptr_ := [], length_ := ukv_length_missing_k }

/-- Modelled from the spec: the member `size()` of `value_view_t`: the number of bytes of
the view, none for the missing value. -/
def value_view_t.size (v : value_view_t) : Nat :=
  if v.length_ = ukv_length_missing_k then 0 else v.length_

/-- Modelled from the spec: the bytes between `begin()` and `end()` of a view. -/
def value_view_t.bytes (v : value_view_t) : List byte_t := v.ptr_.take v.size

/-- Modelled from the spec: the conversion `operator bool` of `value_view_t` ("length
2^32 - 1 encodes missing", "A write of an empty/absent value is a delete; there is no
distinction between absent and explicitly null at the blob layer"): a view is true when
it is not the missing value and holds bytes; an empty view is false as the missing one
is. -/
def value_view_t.to_bool (v : value_view_t) : Bool :=
  v.length_ != ukv_length_missing_k && !v.bytes.isEmpty

/-- Source `value_view_t {begin, length}` at lines 336-338 and 377-379, where `length` is
`static_cast<ukv_length_t>(value.size())`. -/
def value_view_t.of_store (value : List byte_t) : value_view_t :=
  { ptr_ := value, length_ := value.length % 2 ^ 32 }

/-- Source `to_slice(value_view_t)` (lines 87-89). -/
def value_to_slice (value : value_view_t) : List byte_t := value.bytes

/-! ## The store (RocksDB, the environment) -/

/-- One entry of a column family: the key slice and the value. -/
abbrev entry_t := slice_t × List byte_t

/-- The store puts an entry at its place in comparator order, replacing an entry whose
key compares equal. -/
def entries_put (key : slice_t) (value : List byte_t) : List entry_t → List entry_t
  | [] => [(key, value)]
  | e :: rest =>
    if key_comparator_t.Compare key e.1 = 0 then (key, value) :: rest
    else if key_comparator_t.Compare key e.1 < 0 then (key, value) :: e :: rest
    else e :: entries_put key value rest

/-- The store removes the entries whose key compares equal. -/
def entries_delete (key : slice_t) (entries : List entry_t) : List entry_t :=
  entries.filter (fun e => key_comparator_t.Compare key e.1 != 0)

/-- The store finds the value of the entry whose key compares equal. -/
def entries_get (key : slice_t) (entries : List entry_t) : Option (List byte_t) :=
  (entries.find? (fun e => key_comparator_t.Compare key e.1 == 0)).map (fun e => e.2)

/-- A column family of the store: the address of its handle, its name, its entries. -/
structure column_family_t where
  handle : Nat
  name : String
  entries : List entry_t
deriving DecidableEq, Repr

/-- One operation of a `rocksdb::WriteBatch`. -/
inductive batch_op_t
  | Put (collection : Nat) (key : slice_t) (value : List byte_t)
  | Delete (collection : Nat) (key : slice_t)
deriving DecidableEq, Repr

/-- The column family an operation addresses. -/
def batch_op_t.collection : batch_op_t → Nat
  | .Put c _ _ => c
  | .Delete c _ => c

/-- The key an operation addresses. -/
def batch_op_t.key : batch_op_t → slice_t
  | .Put _ k _ => k
  | .Delete _ k => k

/-- The native store: its live column families, the keys that answer with a failure,
the status of operations on the catalogue of column families, the next free handle
address and the latest sequence number. -/
structure rocks_native_t where
  families : List column_family_t
  faults : List (Nat × slice_t × rocks_status_t)
  manifest : rocks_status_t
  next_handle : Nat
  sequence : Nat
deriving DecidableEq, Repr

/-- The live column family behind a handle address. -/
def rocks_native_t.family (native : rocks_native_t) (collection : Nat) :
    Option column_family_t :=
  native.families.find? (fun f => f.handle == collection)

/-- The address `DefaultColumnFamily()` returns. -/
def rocks_native_t.DefaultColumnFamily (native : rocks_native_t) : Nat :=
  match native.families.find? (fun f => f.name == kDefaultColumnFamilyName) with
  | some f => f.handle
  | none => 0

/-- The status the store answers with for one key of one column family, before it
looks at the entries: the injected failure, an invalid argument for a handle that has
no live column family, `ok` otherwise. -/
def rocks_native_t.health (native : rocks_native_t) (collection : Nat) (key : slice_t) :
    rocks_status_t :=
  match native.faults.find? (fun f => f.1 == collection && f.2.1 == key && f.2.2.fails) with
  | some f => f.2.2
  | none =>
    match native.family collection with
    | some _ => .kOk
    | none => .kInvalidArgument

/-- The call `DB::Get`: the status and the value. -/
def rocks_native_t.Get (native : rocks_native_t) (collection : Nat) (key : slice_t) :
    rocks_status_t × List byte_t :=
  if native.health collection key != .kOk then (native.health collection key, [])
  else
    match native.family collection with
    | none => (.kInvalidArgument, [])
    | some f =>
      match entries_get key f.entries with
      | none => (.kNotFound, [])
      | some value => (.kOk, value)

/-- The effect of one operation of a batch on the entries of its column family. -/
def batch_op_t.apply (op : batch_op_t) (entries : List entry_t) : List entry_t :=
  match op with
  | .Put _ key value => entries_put key value entries
  | .Delete _ key => entries_delete key entries

/-- The effect of one operation of a batch on the store. -/
def rocks_native_t.apply (native : rocks_native_t) (op : batch_op_t) : rocks_native_t :=
  { native with
    families := native.families.map (fun f =>
      if f.handle == op.collection then { f with entries := op.apply f.entries } else f)
    sequence := native.sequence + 1 }

/-- The first failing status among the operations of a batch. -/
def rocks_native_t.batch_health (native : rocks_native_t) : List batch_op_t → rocks_status_t
  | [] => .kOk
  | op :: rest =>
    if native.health op.collection op.key != .kOk then native.health op.collection op.key
    else native.batch_health rest

/-- The call `DB::Write`: the batch is applied as a whole, in order, or not at all. -/
def rocks_native_t.Write (native : rocks_native_t) (batch : List batch_op_t) :
    rocks_status_t × rocks_native_t :=
  if native.batch_health batch != .kOk then (native.batch_health batch, native)
  else (.kOk, batch.foldl rocks_native_t.apply native)

/-- The call `DB::Put`, a batch of one operation. -/
def rocks_native_t.Put (native : rocks_native_t) (collection : Nat) (key : slice_t)
    (value : List byte_t) : rocks_status_t × rocks_native_t :=
  native.Write [.Put collection key value]

/-- The call `DB::Delete`, a batch of one operation. -/
def rocks_native_t.Delete (native : rocks_native_t) (collection : Nat) (key : slice_t) :
    rocks_status_t × rocks_native_t :=
  native.Write [.Delete collection key]

/-- The call `DB::MultiGet`: one `Get` for each place. -/
def rocks_native_t.MultiGet (native : rocks_native_t) (cols : List Nat) (keys : List slice_t) :
    List (rocks_status_t × List byte_t) :=
  List.zipWith (fun c k => native.Get c k) cols keys

/-- The call `DB::NewIterator`: the entries of the column family, in comparator order. -/
def rocks_native_t.NewIterator (native : rocks_native_t) (collection : Nat) : List entry_t :=
  match native.family collection with
  | some f => f.entries
  | none => []

/-- The call `DB::CreateColumnFamily`: the status, the store and the new handle. -/
def rocks_native_t.CreateColumnFamily (native : rocks_native_t) (name : String) :
    rocks_status_t × rocks_native_t × Nat :=
  if native.manifest != .kOk then (native.manifest, native, 0)
  else if native.families.any (fun f => f.name == name) then (.kInvalidArgument, native, 0)
  else
    (.kOk,
     { native with
       families := native.families ++ [{ handle := native.next_handle, name := name, entries := [] }]
       next_handle := native.next_handle + 1 },
     native.next_handle)

/-- The call `DB::DropColumnFamily`: the default column family cannot be dropped. -/
def rocks_native_t.DropColumnFamily (native : rocks_native_t) (collection : Nat) :
    rocks_status_t × rocks_native_t :=
  if native.manifest != .kOk then (native.manifest, native)
  else
    match native.family collection with
    | none => (.kInvalidArgument, native)
    | some f =>
      if f.name == kDefaultColumnFamilyName then (.kInvalidArgument, native)
      else (.kOk, { native with families := native.families.filter (fun g => g.handle != collection) })

/-! ## Optimistic transactions of the store -/

/-- A `rocksdb::Transaction`: the writes it holds, in submission order, and the keys it
tracks for the conflict check at commit. -/
structure rocks_txn_t where
  batch : List batch_op_t
  tracked : List (Nat × slice_t)
deriving DecidableEq, Repr

/-- The last write the transaction holds for a key. -/
def rocks_txn_t.pending (txn : rocks_txn_t) (collection : Nat) (key : slice_t) :
    Option batch_op_t :=
  txn.batch.reverse.find? (fun op => op.collection == collection && op.key == key)

/-- The call `Transaction::Get`: the transaction reads its own writes first. -/
def rocks_txn_t.Get (txn : rocks_txn_t) (native : rocks_native_t) (collection : Nat)
    (key : slice_t) : rocks_status_t × List byte_t :=
  if native.health collection key != .kOk then (native.health collection key, [])
  else
    match txn.pending collection key with
    | some (.Put _ _ value) => (.kOk, value)
    | some (.Delete _ _) => (.kNotFound, [])
    | none => native.Get collection key

/-- The transaction with one more tracked key. -/
def rocks_txn_t.track (txn : rocks_txn_t) (collection : Nat) (key : slice_t) : rocks_txn_t :=
  { txn with tracked := txn.tracked ++ [(collection, key)] }

/-- The call `Transaction::GetForUpdate`: a `Get` that tracks the key. -/
def rocks_txn_t.GetForUpdate (txn : rocks_txn_t) (native : rocks_native_t) (collection : Nat)
    (key : slice_t) : (rocks_status_t × List byte_t) × rocks_txn_t :=
  if native.health collection key != .kOk then ((native.health collection key, []), txn)
  else (txn.Get native collection key, txn.track collection key)

/-- The calls a transactional write can make. -/
inductive txn_call_t
  | Put (collection : Nat) (key : slice_t) (value : List byte_t)
  | PutUntracked (collection : Nat) (key : slice_t) (value : List byte_t)
  | Delete (collection : Nat) (key : slice_t)
  | DeleteUntracked (collection : Nat) (key : slice_t)
deriving DecidableEq, Repr

/-- The write a call stages in the transaction. -/
def txn_call_t.op : txn_call_t → batch_op_t
  | .Put c k v => .Put c k v
  | .PutUntracked c k v => .Put c k v
  | .Delete c k => .Delete c k
  | .DeleteUntracked c k => .Delete c k

/-- Whether a call enrols its key in the conflict check. -/
def txn_call_t.tracks : txn_call_t → Bool
  | .Put _ _ _ => true
  | .PutUntracked _ _ _ => false
  | .Delete _ _ => true
  | .DeleteUntracked _ _ => false

/-- The calls `Transaction::Put`, `PutUntracked`, `Delete` and `DeleteUntracked`: the
write is staged, and the key tracked by the first and the third. -/
def rocks_txn_t.run (txn : rocks_txn_t) (native : rocks_native_t) (call : txn_call_t) :
    rocks_status_t × rocks_txn_t :=
  if native.health call.op.collection call.op.key != .kOk then
    (native.health call.op.collection call.op.key, txn)
  else
    let staged := { txn with batch := txn.batch ++ [call.op] }
    (.kOk, if call.tracks then staged.track call.op.collection call.op.key else staged)

/-- The call `Transaction::MultiGet`. -/
def rocks_txn_t.MultiGet (txn : rocks_txn_t) (native : rocks_native_t) (cols : List Nat)
    (keys : List slice_t) : List (rocks_status_t × List byte_t) :=
  List.zipWith (fun c k => txn.Get native c k) cols keys

/-- The call `Transaction::MultiGetForUpdate`: a `MultiGet` that tracks the keys that
answer without a failure. -/
def rocks_txn_t.MultiGetForUpdate (txn : rocks_txn_t) (native : rocks_native_t)
    (cols : List Nat) (keys : List slice_t) :
    List (rocks_status_t × List byte_t) × rocks_txn_t :=
  (txn.MultiGet native cols keys,
   (List.zip cols keys).foldl
     (fun t ck => if native.health ck.1 ck.2 != .kOk then t else t.track ck.1 ck.2) txn)

/-- The call `Transaction::GetIterator`: the entries of the column family with the
writes of the transaction laid over them. -/
def rocks_txn_t.GetIterator (txn : rocks_txn_t) (native : rocks_native_t) (collection : Nat) :
    List entry_t :=
  (txn.batch.filter (fun op => op.collection == collection)).foldl
    (fun entries op => op.apply entries) (native.NewIterator collection)
/-! ## The engine: database handle, options, requests -/

/-- A `rocks_collection_t*` held by the database: the handle object (its name) and its
address. -/
structure rocks_collection_t where
  address : Nat
  name : String
deriving DecidableEq, Repr

/-- Source `rocks_db_t` (lines 77-81); the mutex is its locked flag. -/
structure rocks_db_t where
  columns : List rocks_collection_t
  native : rocks_native_t
  mutex : Bool
deriving DecidableEq, Repr

/-- Modelled from the spec: the bitset `ukv_options_t`, declared in a header that is not
among the sources ("a small bitset: write-flush, transaction-dont-watch,
read-shared-memory, scan-bulk"); each bit is a flag, and `c_options & bit` is the flag. -/
structure ukv_options_t where
  write_flush : Bool
  transaction_dont_watch : Bool
  read_shared_memory : Bool
  scan_bulk : Bool
deriving DecidableEq, Repr

/-- The options `ukv_options_default_k`: no bit set. -/
def ukv_options_default_k : ukv_options_t :=
  { write_flush := false, transaction_dont_watch := false,
    read_shared_memory := false, scan_bulk := false }

/-- Modelled from the spec: the struct `place_t` of `ukv/cpp/ranges_args.hpp`, which is
not among the sources ("Place: (collection, key[, field]) triple addressing one slot");
the engine reads the collection and the key. -/
structure place_t where
  collection : Nat
  key : Int
deriving DecidableEq, Repr

/-- Source `rocks_collection` (lines 114-117): the handle address behind a collection
identifier. -/
def rocks_collection (db : rocks_db_t) (collection : Nat) : Nat :=
  if collection = ukv_collection_main_k then db.native.DefaultColumnFamily else collection

/-! ## Writing -/

/-- The request `ukv_write_t`. The strided arrays are the lists of their items;
`tasks_count` is the number of places; `validation` is the slot `validate_write` (a helper
that is not among the sources) leaves for this request. -/
structure ukv_write_t where
  db : Option rocks_db_t
  transaction : Option rocks_txn_t
  places : List place_t
  contents : List value_view_t
  options : ukv_options_t
  validation : ukv_error_t
deriving DecidableEq, Repr

/-- What a write leaves behind: the database, the transaction, the error slot. -/
structure write_result_t where
  db : Option rocks_db_t
  transaction : Option rocks_txn_t
  error : ukv_error_t
deriving DecidableEq, Repr

/-- The item `places[i]` of a request. -/
def place_at (places : List place_t) (i : Nat) : place_t :=
  places.getD i { collection := ukv_collection_main_k, key := 0 }

/-- The item `contents[i]` of a request: the missing view where no content is given. -/
def content_at (contents : List value_view_t) (i : Nat) : value_view_t :=
  contents.getD i value_view_t.missing

/-- Source lines 209-216 and 247-254: the call a write makes on the transaction. -/
def txn_write_call (watch : Bool) (collection : Nat) (key : slice_t) (content : value_view_t) :
    txn_call_t :=
  if !content.to_bool then
    (if watch then .Delete collection key else .DeleteUntracked collection key)
  else
    (if watch then .Put collection key (value_to_slice content)
     else .PutUntracked collection key (value_to_slice content))

/-- Source lines 219-221 and 266-268: the call a write makes on the database or on
its batch. -/
def db_write_call (collection : Nat) (key : slice_t) (content : value_view_t) : batch_op_t :=
  if !content.to_bool then .Delete collection key
  else .Put collection key (value_to_slice content)

/-- Source `write_one` (lines 187-224). -/
def write_one (db : rocks_db_t) (txn_ptr : Option rocks_txn_t) (places : List place_t)
    (contents : List value_view_t) (c_options : ukv_options_t) (c_error : ukv_error_t) :
    write_result_t :=
  let watch := !c_options.transaction_dont_watch
  let place := place_at places 0
  let content := content_at contents 0
  let collection := rocks_collection db place.collection
  let key := to_slice place.key
  match txn_ptr with
  | some txn =>
    let r := txn.run db.native (txn_write_call watch collection key content)
    { db := some db, transaction := some r.2, error := (export_error r.1 c_error).2 }
  | none =>
    let r := db.native.Write [db_write_call collection key content]
    { db := some { db with native := r.2 }, transaction := none,
      error := (export_error r.1 c_error).2 }

/-- Source lines 242-257: the loop of `write_many` inside a transaction; it stops at
the first error. -/
def write_many_txn (db : rocks_db_t) (watch : Bool) :
    List (place_t × value_view_t) → rocks_txn_t → ukv_error_t → rocks_txn_t × ukv_error_t
  | [], txn, c_error => (txn, c_error)
  | (place, content) :: rest, txn, c_error =>
    let collection := rocks_collection db place.collection
    let key := to_slice place.key
    let r := txn.run db.native (txn_write_call watch collection key content)
    let c_error := (export_error r.1 c_error).2
    if c_error.isSome then (r.2, c_error)
    else write_many_txn db watch rest r.2 c_error

/-- The pairs `(places[i], contents[i])` for `i` below `tasks_count`. -/
def tasks_of (places : List place_t) (contents : List value_view_t) :
    List (place_t × value_view_t) :=
  (List.range places.length).map (fun i => (place_at places i, content_at contents i))

/-- Source lines 260-270: the batch `write_many` gathers outside a transaction. -/
def write_batch (db : rocks_db_t) (places : List place_t) (contents : List value_view_t) :
    List batch_op_t :=
  (tasks_of places contents).map (fun t =>
    db_write_call (rocks_collection db t.1.collection) (to_slice t.1.key) t.2)

/-- Source `write_many` (lines 226-275). Outside a transaction the operations are
gathered in one batch, which `DB::Write` applies. -/
def write_many (db : rocks_db_t) (txn_ptr : Option rocks_txn_t) (places : List place_t)
    (contents : List value_view_t) (c_options : ukv_options_t) (c_error : ukv_error_t) :
    write_result_t :=
  let watch := !c_options.transaction_dont_watch
  match txn_ptr with
  | some txn =>
    let r := write_many_txn db watch (tasks_of places contents) txn c_error
    { db := some db, transaction := some r.1, error := r.2 }
  | none =>
    let r := db.native.Write (write_batch db places contents)
    { db := some { db with native := r.2 }, transaction := none,
      error := (export_error r.1 c_error).2 }

/-- Source `ukv_write` (lines 277-303). -/
def ukv_write (c : ukv_write_t) : write_result_t :=
  match c.db with
  | none =>
    { db := none, transaction := c.transaction,
      error := raise_error .uninitialized_state_k "DataBase is uninitialized" }
  | some db =>
    if c.places.length = 0 then { db := some db, transaction := c.transaction, error := none }
    else if c.validation.isSome then
      { db := some db, transaction := c.transaction, error := c.validation }
    else if c.places.length = 1 then
      write_one db c.transaction c.places c.contents c.options none
    else
      write_many db c.transaction c.places c.contents c.options none

/-! ## Reading -/

/-- The request `ukv_read_t`. The flag `values` says whether the caller asks for the
values (`c.values != nullptr`); `validation` is the slot `validate_read` leaves. -/
structure ukv_read_t where
  db : Option rocks_db_t
  transaction : Option rocks_txn_t
  places : List place_t
  options : ukv_options_t
  values : Bool
  validation : ukv_error_t
deriving DecidableEq, Repr

/-- The outputs the enumerator of `ukv_read` fills: the cells written so far of the
presences, of the lengths and of the offsets, and the contents tape. -/
structure read_tape_t where
  presences : List Bool
  lengths : List Nat
  offsets : List Nat
  contents : List byte_t
deriving DecidableEq, Repr

/-- The outputs before the first place is read. -/
def read_tape_t.empty : read_tape_t :=
  { presences := [], lengths := [], offsets := [], contents := [] }

/-- Source `data_enumerator` (lines 417-424), called for the places in index order:
each call writes the next cell of each output. -/
def data_enumerator (needs_export : Bool) (out : read_tape_t) (value : value_view_t) :
    read_tape_t :=
  { presences := out.presences ++ [value.to_bool]
    lengths := out.lengths ++ [if value.to_bool then value.size % 2 ^ 32 else ukv_length_missing_k]
    offsets := if needs_export then out.offsets ++ [out.contents.length % 2 ^ 32] else out.offsets
    contents := if needs_export then out.contents ++ value.bytes else out.contents }

/-- Source lines 333-341 and 374-382: what the reading loops do with the answer of the
store for one place; `none` when the answer is an error and the loop returns. -/
def read_export (needs_export : Bool) (answer : rocks_status_t × List byte_t)
    (out : read_tape_t) (c_error : ukv_error_t) : Option read_tape_t × ukv_error_t :=
  if !answer.1.IsNotFound then
    if (export_error answer.1 c_error).1 then (none, (export_error answer.1 c_error).2)
    else (some (data_enumerator needs_export out (value_view_t.of_store answer.2)), c_error)
  else (some (data_enumerator needs_export out value_view_t.missing), c_error)

/-- What the reading loops leave behind: the outputs, the transaction, the error slot. -/
structure read_state_t where
  out : read_tape_t
  transaction : Option rocks_txn_t
  error : ukv_error_t
deriving DecidableEq, Repr

/-- Source `read_one` (lines 305-342). -/
def read_one (db : rocks_db_t) (txn_ptr : Option rocks_txn_t) (places : List place_t)
    (c_options : ukv_options_t) (needs_export : Bool) (c_error : ukv_error_t) : read_state_t :=
  let watch := !c_options.transaction_dont_watch
  let place := place_at places 0
  let col := rocks_collection db place.collection
  let key := to_slice place.key
  let answer : (rocks_status_t × List byte_t) × Option rocks_txn_t :=
    match txn_ptr with
    | some txn =>
      if watch then ((txn.GetForUpdate db.native col key).1, some (txn.GetForUpdate db.native col key).2)
      else (txn.Get db.native col key, some txn)
    | none => (db.native.Get col key, none)
  let r := read_export needs_export answer.1 read_tape_t.empty c_error
  { out := r.1.getD read_tape_t.empty, transaction := answer.2, error := r.2 }

/-- Source lines 373-383: the loop of `read_many` over the answers of the store; it
returns at the first error. -/
def read_many_loop (needs_export : Bool) :
    List (rocks_status_t × List byte_t) → read_tape_t → ukv_error_t → read_tape_t × ukv_error_t
  | [], out, c_error => (out, c_error)
  | answer :: rest, out, c_error =>
    match read_export needs_export answer out c_error with
    | (none, e) => (out, e)
    | (some o, e) => read_many_loop needs_export rest o e

/-- Source `read_many` (lines 344-384). -/
def read_many (db : rocks_db_t) (txn_ptr : Option rocks_txn_t) (places : List place_t)
    (c_options : ukv_options_t) (needs_export : Bool) (c_error : ukv_error_t) : read_state_t :=
  let watch := !c_options.transaction_dont_watch
  let cols := places.map (fun place => rocks_collection db place.collection)
  let keys := places.map (fun place => to_slice place.key)
  let answers : List (rocks_status_t × List byte_t) × Option rocks_txn_t :=
    match txn_ptr with
    | some txn =>
      if watch then
        ((txn.MultiGetForUpdate db.native cols keys).1, some (txn.MultiGetForUpdate db.native cols keys).2)
      else (txn.MultiGet db.native cols keys, some txn)
    | none => (db.native.MultiGet cols keys, none)
  let r := read_many_loop needs_export answers.1 read_tape_t.empty c_error
  { out := r.1, transaction := answers.2, error := r.2 }

/-- What `ukv_read` leaves behind. The cell `offsets[tasks_count]` is kept apart as
`offsets_end`, as it is written after the loops whether they returned early or not;
`none` is a cell that was never written. -/
structure read_result_t where
  presences : List Bool
  lengths : List Nat
  offsets : List Nat
  offsets_end : Option Nat
  contents : List byte_t
  transaction : Option rocks_txn_t
  error : ukv_error_t
deriving DecidableEq, Repr

/-- The result of a read that returns before it allocates its outputs. -/
def read_result_t.untouched (transaction : Option rocks_txn_t) (error : ukv_error_t) :
    read_result_t :=
  { presences := [], lengths := [], offsets := [], offsets_end := none, contents := [],
    transaction := transaction, error := error }

/-- Source `ukv_read` (lines 386-435). The arena is taken not to run out of memory. -/
def ukv_read (c : ukv_read_t) : read_result_t :=
  match c.db with
  | none =>
    read_result_t.untouched c.transaction
      (raise_error .uninitialized_state_k "DataBase is uninitialized")
  | some db =>
    if c.places.length = 0 then read_result_t.untouched c.transaction none
    else if c.validation.isSome then read_result_t.untouched c.transaction c.validation
    else
      let needs_export := c.values
      let r :=
        if c.places.length = 1 then read_one db c.transaction c.places c.options needs_export none
        else read_many db c.transaction c.places c.options needs_export none
      { presences := r.out.presences
        lengths := r.out.lengths
        offsets := r.out.offsets
        offsets_end := some (r.out.contents.length % 2 ^ 32)
        contents := r.out.contents
        transaction := r.transaction
        error := r.error }

/-- The answers of the store for the places of a read, in order: what `Get` and
`MultiGet` return, through the transaction when there is one. -/
def store_answers (db : rocks_db_t) (txn : Option rocks_txn_t) (places : List place_t) :
    List (rocks_status_t × List byte_t) :=
  places.map (fun place =>
    match txn with
    | some t => t.Get db.native (rocks_collection db place.collection) (to_slice place.key)
    | none => db.native.Get (rocks_collection db place.collection) (to_slice place.key))

/-- The view the reading loops hand to the enumerator for an answer that is no error
(source lines 336-341): the missing view for `not found`, the value otherwise. -/
def view_of_answer (answer : rocks_status_t × List byte_t) : value_view_t :=
  if answer.1.IsNotFound then value_view_t.missing else value_view_t.of_store answer.2

/-- The cells `offsets[0 .. tasks_count]` of a read, the last one included. -/
def read_result_t.all_offsets (r : read_result_t) : List Nat :=
  r.offsets ++ r.offsets_end.toList

/-- The bytes an answer that is no error adds to the contents tape. -/
def answer_bytes (answer : rocks_status_t × List byte_t) : List byte_t :=
  (view_of_answer answer).bytes

/-- The length the enumerator writes for a view (source line 419). -/
def view_length (value : value_view_t) : Nat :=
  if value.to_bool then value.size % 2 ^ 32 else ukv_length_missing_k

/-- The stored value an answer of the store carries: the value when the key is found,
no bytes when it is not. -/
def found_value (answer : rocks_status_t × List byte_t) : List byte_t :=
  if answer.1 = .kOk then answer.2 else []
/-! ## Scanning -/

/-- The iterator of a task (source lines 476-481). -/
def scan_iterator (db : rocks_db_t) (txn : Option rocks_txn_t) (collection : Nat) :
    List entry_t :=
  match txn with
  | some t => t.GetIterator db.native collection
  | none => db.native.NewIterator collection

/-- The request `ukv_collection_create_t`: `name` is `none` for a null pointer, and the
characters before the terminating NUL otherwise. -/
structure ukv_collection_create_t where
  db : Option rocks_db_t
  name : Option String
deriving DecidableEq, Repr

/-- What `ukv_collection_create` leaves behind: the database, the identifier written
to `*c.id` (`none` when it was not written), the error slot. -/
structure create_result_t where
  db : Option rocks_db_t
  id : Option Nat
  error : ukv_error_t
deriving DecidableEq, Repr

/-- Source lines 616-619: whether a handle of the database, null ones apart, has the name. -/
def name_taken (name : String) (columns : List rocks_collection_t) : Bool :=
  columns.any (fun handle => handle.address != 0 && handle.name == name)

/-- Source `ukv_collection_create` (lines 607-629). -/
def ukv_collection_create (c : ukv_collection_create_t) : create_result_t :=
  let name_len := match c.name with
    | some name => name.length
    | none => 0
  if name_len = 0 then
    { db := c.db, id := none,
      error := raise_error .args_wrong_k "Default collection is always present" }
  else
    match c.db with
    | none =>
      { db := none, id := none,
        error := raise_error .uninitialized_state_k "DataBase is uninitialized" }
    | some db =>
      let name := c.name.getD ""
      if name_taken name db.columns then
        { db := some db, id := none,
          error := raise_error .args_wrong_k "Such collection already exists!" }
      else
        let r := db.native.CreateColumnFamily name
        if (export_error r.1 none).1 then
          { db := some db, id := none, error := (export_error r.1 none).2 }
        else
          { db := some { db with
                columns := db.columns ++ [{ address := r.2.2, name := name }]
                native := r.2.1 }
            id := some r.2.2
            error := none }

/-- The drop modes `ukv_drop_mode_t`. -/
inductive ukv_drop_mode_t
  | ukv_drop_keys_vals_handle_k
  | ukv_drop_keys_vals_k
  | ukv_drop_vals_k
deriving DecidableEq, Repr

/-- The request `ukv_collection_drop_t`. -/
structure ukv_collection_drop_t where
  db : Option rocks_db_t
  id : Nat
  mode : ukv_drop_mode_t
deriving DecidableEq, Repr

/-- What `ukv_collection_drop` leaves behind. -/
structure drop_result_t where
  db : Option rocks_db_t
  error : ukv_error_t
deriving DecidableEq, Repr

/-- Source lines 649-653: the loop that looks for the handle with the address of the
identifier; it ends on the handle found, or on the last handle of the database. -/
def drop_lookup (collection_ptr : Nat) : List rocks_collection_t → Nat → Nat
  | [], current => current
  | handle :: rest, _ =>
    if handle.address = collection_ptr then handle.address
    else drop_lookup collection_ptr rest handle.address

/-- Source `db.columns.erase(it)` for the first handle with the address (lines 660-667). -/
def erase_handle (ptr : Nat) : List rocks_collection_t → List rocks_collection_t
  | [] => []
  | handle :: rest => if ptr = handle.address then rest else handle :: erase_handle ptr rest

/-- Source `ukv_collection_drop` (lines 631-692). -/
def ukv_collection_drop (c : ukv_collection_drop_t) : drop_result_t :=
  match c.db with
  | none =>
    { db := none, error := raise_error .uninitialized_state_k "DataBase is uninitialized" }
  | some db =>
    let invalidate := c.mode == .ukv_drop_keys_vals_handle_k
    if !(c.id != ukv_collection_main_k || !invalidate) then
      { db := some db,
        error := raise_error .args_combo_k "Default collection can't be invalidated." }
    else
      let collection_ptr := c.id
      let collection_ptr_to_clear :=
        if c.id = ukv_collection_main_k then db.native.DefaultColumnFamily
        else drop_lookup collection_ptr db.columns 0
      match c.mode with
      | .ukv_drop_keys_vals_handle_k =>
        if db.columns.any (fun handle => collection_ptr_to_clear == handle.address) then
          let r := db.native.DropColumnFamily collection_ptr_to_clear
          if (export_error r.1 none).1 then
            { db := some db, error := (export_error r.1 none).2 }
          else
            { db := some { db with
                  columns := erase_handle collection_ptr_to_clear db.columns
                  native := r.2 }
              error := none }
        else { db := some db, error := none }
      | .ukv_drop_keys_vals_k =>
        let batch := (db.native.NewIterator collection_ptr_to_clear).map
          (fun e => batch_op_t.Delete collection_ptr_to_clear e.1)
        let r := db.native.Write batch
        { db := some { db with native := r.2 }, error := (export_error r.1 none).2 }
      | .ukv_drop_vals_k =>
        let batch := (db.native.NewIterator collection_ptr_to_clear).map
          (fun e => batch_op_t.Put collection_ptr_to_clear e.1 [])
        let r := db.native.Write batch
        { db := some { db with native := r.2 }, error := (export_error r.1 none).2 }

/-- The request `ukv_collection_list_t`: whether the caller gives the pointers `count`
and `names`. -/
structure ukv_collection_list_t where
  db : Option rocks_db_t
  count : Bool
  names : Bool
deriving DecidableEq, Repr

/-- The outputs the loop of the listing fills: the identifiers and offsets written so
far, and the tape of names. -/
structure list_tape_t where
  ids : List Nat
  offsets : List Nat
  names : List Char
deriving DecidableEq, Repr

/-- Source lines 723-734: one pass of the loop over the handles of the database. A name
is the list of its `char`s. -/
def list_step (out : list_tape_t) (column : rocks_collection_t) : list_tape_t :=
  if column.name == kDefaultColumnFamilyName then out
  else
    { ids := out.ids ++ [column.address]
      offsets := out.offsets ++ [out.names.length % 2 ^ 32]
      names := out.names ++ (column.name.toList ++ [Char.ofNat 0]) }

/-- What `ukv_collection_list` leaves behind: the count, the identifiers, the offsets
(one for each name and a last one) and the tape of names. -/
structure list_result_t where
  count : Option Nat
  ids : List Nat
  offsets : List Nat
  names : List Char
  error : ukv_error_t
deriving DecidableEq, Repr

/-- Source `ukv_collection_list` (lines 694-736). The arena is taken not to run out of
memory. -/
def ukv_collection_list (c : ukv_collection_list_t) : list_result_t :=
  match c.db with
  | none =>
    { count := none, ids := [], offsets := [], names := [],
      error := raise_error .uninitialized_state_k "DataBase is uninitialized" }
  | some db =>
    if !(c.count && c.names) then
      { count := none, ids := [], offsets := [], names := [],
        error := raise_error .args_combo_k "Need names and outputs!" }
    else
      let collections_count := (db.columns.length + 2 ^ 64 - 1) % 2 ^ 64
      let out := db.columns.foldl list_step { ids := [], offsets := [], names := [] }
      { count := some collections_count
        ids := out.ids
        offsets := out.offsets ++ [out.names.length % 2 ^ 32]
        names := out.names
        error := none }

/-- The names a caller reads from a tape of NUL-terminated strings, one after the other
(the iterator `strings_tape_iterator_t` that `context_t::collections` builds from the
count and the tape). -/
def tape_names : Nat → List Char → List (List Char)
  | 0, _ => []
  | n + 1, tape =>
    (tape.takeWhile (fun ch => ch != Char.ofNat 0)) ::
      tape_names n ((tape.dropWhile (fun ch => ch != Char.ofNat 0)).drop 1)

/-- The pairs of an identifier and a name that a listing reports: the first `count`
identifiers, each with the name at its place on the tape. -/
def listed (r : list_result_t) : List (Nat × List Char) :=
  List.zip (r.ids.take (r.count.getD 0)) (tape_names (r.count.getD 0) r.names)

/-- The listing of a database as `context_t::collections` asks for it. -/
def collections (db : rocks_db_t) : List (Nat × List Char) :=
  listed (ukv_collection_list { db := some db, count := true, names := true })

/-! ## Well-formed databases -/

/-- What `ukv_database_init` and the catalogue calls keep true of a database: exactly
one of its handles is the one of the default column family, the handles are live objects
at distinct addresses below the next free one, no name holds a NUL, and the number of
handles fits a `size_t`. -/
def rocks_db_t.wf (db : rocks_db_t) : Prop :=
  (db.columns.filter (fun h => h.name == kDefaultColumnFamilyName)).length = 1 ∧
  (db.columns.map (fun h => h.address)).Nodup ∧
  (∀ h ∈ db.columns, h.address ≠ 0) ∧
  (∀ h ∈ db.columns, Char.ofNat 0 ∉ h.name.toList) ∧
  db.columns.length < 2 ^ 64 ∧
  (∀ h ∈ db.columns, h.address < db.native.next_handle)

instance (db : rocks_db_t) : Decidable db.wf := by
  unfold rocks_db_t.wf; infer_instance

/-- The database `ukv_database_init` opens on an empty directory: the default column
family alone. -/
def fresh_db : rocks_db_t :=
  { columns := [{ address := 1, name := kDefaultColumnFamilyName }]
    native :=
      { families := [{ handle := 1, name := kDefaultColumnFamilyName, entries := [] }]
        faults := []
        manifest := .kOk
        next_handle := 2
        sequence := 0 }
    mutex := false }

/-- The five bytes of `hello`. -/
def hello : value_view_t := { ptr_ := [104, 101, 108, 108, 111], length_ := 5 }

/-- The fresh database after `hello` was written at key 42 of the main collection (the
first step of the scenario "Blob CRUD"). -/
def hello_db : rocks_db_t :=
  (ukv_write
    { db := some fresh_db, transaction := none, places := [{ collection := 0, key := 42 }],
      contents := [hello], options := ukv_options_default_k, validation := none }).db.getD fresh_db

/-- The keys of a collection in the order in which the iterator of a scan enumerates
them. -/
def collection_keys (db : rocks_db_t) (txn : Option rocks_txn_t) (collection : Nat) : List Int :=
  (scan_iterator db txn (rocks_collection db collection)).map (fun e => as_key e.1)

/-- The fresh database after one batch wrote the keys 42, -7 and 5, in this order, to
the main collection. -/
def three_keys_db : rocks_db_t :=
  (ukv_write
    { db := some fresh_db, transaction := none,
      places := [{ collection := 0, key := 42 }, { collection := 0, key := -7 },
        { collection := 0, key := 5 }],
      contents := [hello, { ptr_ := [1], length_ := 1 }, { ptr_ := [2, 3], length_ := 2 }],
      options := ukv_options_default_k, validation := none }).db.getD fresh_db

/-- The fresh database after the collections `abc` and `xy` were created. -/
def two_collections_db : rocks_db_t :=
  ((ukv_collection_create
    { db := (ukv_collection_create { db := some fresh_db, name := some "abc" }).db,
      name := some "xy" }).db).getD fresh_db

/-- The database that holds `hello` at key 42, on a store that answers with an I/O error
for the key 13 of the main collection. -/
def faulty_db : rocks_db_t :=
  { hello_db with
    native := { hello_db.native with faults := [(1, to_slice 13, .kIOError)] } }

/-- The entries of every column family of the store lie in comparator order. -/
def rocks_native_t.ordered (native : rocks_native_t) : Prop :=
  ∀ f ∈ native.families,
    f.entries.Pairwise (fun a b => key_comparator_t.Compare a.1 b.1 < 0)

/-! ## Transactions of the engine -/

/-- The capability flag `ukv_supports_transactions_k` (source line 44). -/
def ukv_supports_transactions_k : Bool := true

/-- The capability flag `ukv_supports_named_collections_k` (source line 45). -/
def ukv_supports_named_collections_k : Bool := true

/-- The capability flag `ukv_supports_snapshots_k` (source line 46). -/
def ukv_supports_snapshots_k : Bool := false

/-- The call `BeginTransaction(options, txn_options, old_txn)` of an optimistic store: it
hands out an empty transaction, the old object cleared when one is given; `none` is the
null pointer. -/
def rocks_native_t.BeginTransaction (_native : rocks_native_t) (_old_txn : Option rocks_txn_t) :
    Option rocks_txn_t :=
  some { batch := [], tracked := [] }

/-- The request `ukv_transaction_init_t`: `transaction` is what `*c.transaction` holds
at the call; `validation` is the slot `validate_transaction_begin` leaves. -/
structure ukv_transaction_init_t where
  db : Option rocks_db_t
  transaction : Option rocks_txn_t
  options : ukv_options_t
  validation : ukv_error_t
deriving DecidableEq, Repr

/-- What `ukv_transaction_init` leaves behind: `*c.transaction` and the error slot. -/
structure transaction_init_result_t where
  transaction : Option rocks_txn_t
  error : ukv_error_t
deriving DecidableEq, Repr

/-- Source `ukv_transaction_init` (lines 745-765). -/
def ukv_transaction_init (c : ukv_transaction_init_t) : transaction_init_result_t :=
  match c.db with
  | none =>
    { transaction := c.transaction,
      error := raise_error .uninitialized_state_k "DataBase is uninitialized" }
  | some db =>
    if c.validation.isSome then { transaction := c.transaction, error := c.validation }
    else
      match db.native.BeginTransaction c.transaction with
      | none =>
        { transaction := c.transaction,
          error := some { message := "Couldn't start a transaction!", code := none } }
      | some new_txn => { transaction := some new_txn, error := none }

/-- Modelled from the spec: the class `expected_gt` of `ukv/cpp/status.hpp`, which is not
among the sources ("out-of-band error carrier", "an empty slot means success"): a status
and the object that is returned with it. -/
structure expected_gt (α : Type) where
  status_ : ukv_error_t
  object_ : α
deriving DecidableEq, Repr

/-- Modelled from the spec: the conversion `operator bool` of `expected_gt` ("an empty
slot means success"). -/
def expected_gt.to_bool {α : Type} (e : expected_gt α) : Bool := e.status_.isNone

/-- Modelled from the spec: the call `status_t::status_view(message)` of
`ukv/cpp/status.hpp`, which is not among the sources: the status that holds the given
diagnostic ("fails with a fixed diagnostic"). -/
def status_view (message : String) : ukv_error_t := some { message := message, code := none }

/-- Source `context_t` (db.hpp lines 43-48): the database and the transaction of the
context, `none` for a null pointer. -/
structure context_t where
  db_ : Option rocks_db_t
  txn_ : Option rocks_txn_t
deriving DecidableEq, Repr

/-- Source `collections_list_t` (db.hpp lines 22-25): the range of identifiers and the
names the iterator over the tape yields. -/
structure collections_list_t where
  ids : List Nat
  names : List (List Char)
deriving DecidableEq, Repr

/-- Source `context_t::collections` (db.hpp lines 109-129): `count` starts at zero, and
the names are the `count` strings read from the tape. -/
def context_t.collections (self : context_t) : expected_gt collections_list_t :=
  let r := ukv_collection_list { db := self.db_, count := true, names := true }
  let count := r.count.getD 0
  { status_ := r.error
    object_ := { ids := r.ids.take count, names := tape_names count r.names } }

/-- Source lines 143-148 of db.hpp: the linear search of `contains` over the names of
the listing. A name is the list of its `char`s. -/
def contains_loop (name : List Char) : List (List Char) → Bool
  | [] => false
  | name_it :: rest => if name_it ≠ name then contains_loop name rest else true

/-- Source `context_t::contains` (db.hpp lines 131-149). -/
def context_t.contains (self : context_t) (name : List Char) : expected_gt Bool :=
  if name.isEmpty then { status_ := none, object_ := true }
  else
    let maybe_cols := self.collections
    if !maybe_cols.to_bool then { status_ := maybe_cols.status_, object_ := false }
    else { status_ := none, object_ := contains_loop name maybe_cols.object_.names }

/-- Source `context_t::reset` (db.hpp lines 184-197): the status, and the context with
what the call left in `txn_`; `validation` is the slot `validate_transaction_begin`
leaves for the request. -/
def context_t.reset (self : context_t) (snapshot : Bool) (validation : ukv_error_t) :
    ukv_error_t × context_t :=
  if snapshot && !ukv_supports_snapshots_k then (status_view "Snapshots not supported!", self)
  else
    let r := ukv_transaction_init
      { db := self.db_, transaction := self.txn_, options := ukv_options_default_k,
        validation := validation }
    (r.error, { self with txn_ := r.transaction })

/-- Source `database_t` (db.hpp lines 245-246). -/
structure database_t where
  db_ : Option rocks_db_t
deriving DecidableEq, Repr

/-- Source `database_t::transact` (db.hpp lines 275-292); a status alone is returned with
the default context. -/
def database_t.transact (self : database_t) (snapshot : Bool) (validation : ukv_error_t) :
    expected_gt context_t :=
  if snapshot && !ukv_supports_snapshots_k then
    { status_ := status_view "Snapshots not supported!", object_ := { db_ := none, txn_ := none } }
  else
    let r := ukv_transaction_init
      { db := self.db_, transaction := none, options := ukv_options_default_k,
        validation := validation }
    if r.error.isSome then { status_ := r.error, object_ := { db_ := self.db_, txn_ := none } }
    else { status_ := none, object_ := { db_ := self.db_, txn_ := r.transaction } }

/-- The places of a request as the store sees them: handle address and key slice. -/
def store_keys (db : rocks_db_t) (places : List place_t) : List (Nat × slice_t) :=
  places.map (fun place => (rocks_collection db place.collection, to_slice place.key))

/-- The handles of the named collections of a database, in catalogue order: the handles
that `ukv_collection_list` does not skip. -/
def named_handles (db : rocks_db_t) : List rocks_collection_t :=
  db.columns.filter (fun h => !(h.name == kDefaultColumnFamilyName))

/-- The characters a name takes on the tape: the name and the NUL that ends it. -/
def name_entry (h : rocks_collection_t) : List Char := h.name.toList ++ [Char.ofNat 0]

/-! ## Clearing a database -/

/-- Source lines 360-365 of db.hpp: the loop of `database_t::clear` over the identifiers of
the listing; it returns at the first drop that fails. -/
def clear_loop : List Nat → rocks_db_t → ukv_error_t × rocks_db_t
  | [], db => (none, db)
  | id :: rest, db =>
    let r := ukv_collection_drop
      { db := some db, id := id, mode := .ukv_drop_keys_vals_handle_k }
    if r.error.isSome then (r.error, r.db.getD db)
    else clear_loop rest (r.db.getD db)

/-- Source `database_t::clear` (db.hpp lines 345-372): the status and the database. -/
def database_t.clear (self : database_t) : ukv_error_t × database_t :=
  let context : context_t := { db_ := self.db_, txn_ := none }
  let maybe_cols := context.collections
  if !maybe_cols.to_bool then (maybe_cols.status_, self)
  else
    match self.db_ with
    | none => (maybe_cols.status_, self)
    | some db =>
      let r := clear_loop maybe_cols.object_.ids db
      if r.1.isSome then (r.1, { db_ := some r.2 })
      else
        let d := ukv_collection_drop
          { db := some r.2, id := ukv_collection_main_k, mode := .ukv_drop_keys_vals_k }
        (d.error, { db_ := some (d.db.getD r.2) })

/-- The database that lists `abc` and `xy` after `hello` was written at key 7 of `xy`,
the collection created last. -/
def xy_db : rocks_db_t :=
  (ukv_write
    { db := some two_collections_db, transaction := none,
      places := [{ collection := 3, key := 7 }], contents := [hello],
      options := ukv_options_default_k, validation := none }).db.getD two_collections_db

/-- The database `xy_db` after `hello` was written at key 42 of the main collection: two
named collections, a key in `xy` and a key in main. -/
def full_db : rocks_db_t :=
  (ukv_write
    { db := some xy_db, transaction := none,
      places := [{ collection := 0, key := 42 }], contents := [hello],
      options := ukv_options_default_k, validation := none }).db.getD xy_db


/-! ## The dataset tool: strings -/

/-- The index of the first occurrence of a character in a run of characters. -/
def find_first (ch : Char) : List Char → Option Nat
  | [] => none
  | c :: rest => if c = ch then some 0 else (find_first ch rest).map (fun i => i + 1)

/-- The call `std::string::find(ch, pos)`: the index of the first occurrence of the
character at or after `pos`; `none` is `npos`. -/
def string_find (str : List Char) (ch : Char) (pos : Nat) : Option Nat :=
  (find_first ch (str.drop pos)).map (fun i => i + pos)

/-- The call `std::string::insert(pos, count, ch)`. -/
def string_insert (str : List Char) (pos count : Nat) (ch : Char) : List Char :=
  str.take pos ++ List.replicate count ch ++ str.drop pos

/-- The double quote. -/
def quote : Char := Char.ofNat 34

/-- Source lines 260-264 of dataset.cpp: the loop of `prepare_for_csv`, which runs as long
as `pos` is not `npos`; `none` when the fuel runs out before it. -/
def prepare_loop : Nat → List Char → Option Nat → Option (List Char)
  | _, str, none => some str
  | 0, _, some _ => none
  | fuel + 1, str, some pos =>
    prepare_loop fuel (string_insert str pos 1 quote)
      (string_find (string_insert str pos 1 quote) quote (pos + 2))

/-- Source `prepare_for_csv` (dataset.cpp lines 258-265): the string it leaves. The loop
inserts one character for each quote it finds, so it runs at most once for each character
of the string. -/
def prepare_for_csv (str : List Char) (pos : Nat) : Option (List Char) :=
  prepare_loop (str.length + 1) str (string_find str quote pos)

/-- The doubling of the quotes of a run of characters: every double quote becomes two,
every other character stays. -/
def csv_double (s : List Char) : List Char :=
  s.flatMap (fun c => if c = quote then [quote, quote] else [c])

/-- The collapse of doubled quotes, from the left: two double quotes in a row become
one. -/
def csv_collapse : List Char → List Char
  | [] => []
  | [c] => [c]
  | c :: d :: rest =>
    if c = quote ∧ d = quote then quote :: csv_collapse rest
    else c :: csv_collapse (d :: rest)

/-! ## The table bindings: compaction of a gathered table -/

/-- The kinds of a column of a gathered table, as `ukv_doc_field_from_str` names them
(pandas.cpp lines 19-52). -/
inductive ukv_doc_field_type_t where
  | ukv_doc_field_bool_k
  | ukv_doc_field_i8_k
  | ukv_doc_field_i16_k
  | ukv_doc_field_i32_k
  | ukv_doc_field_i64_k
  | ukv_doc_field_u8_k
  | ukv_doc_field_u16_k
  | ukv_doc_field_u32_k
  | ukv_doc_field_u64_k
  | ukv_doc_field_f16_k
  | ukv_doc_field_f32_k
  | ukv_doc_field_f64_k
  | ukv_doc_field_bin_k
  | ukv_doc_field_str_k
  | ukv_doc_field_json_k
deriving DecidableEq, Repr

/-- Modelled from the spec: the class `column_view_t` of `ukv/cpp/docs_table.hpp`, which
is not among the sources ("View into a gathered table: validities, offsets, lengths,
contents"): the kind of the column and its arrays, one validity and one length a row and
one offset more than rows. The contents pool is shared and is kept by the table. -/
structure column_view_t where
  type_ : ukv_doc_field_type_t
  validities : List Bool
  offsets : List Nat
  lengths : List Nat
deriving DecidableEq, Repr

/-- Modelled from the spec: the class `docs_table_t` of `ukv/cpp/docs_table.hpp`, which
is not among the sources ("string/binary columns sharing the same contents pool"): the
number of rows, the columns, and the bytes of the pool `table.column(0).contents()`
points to. -/
structure docs_table_t where
  rows : Nat
  columns : List column_view_t
  contents : List byte_t
deriving DecidableEq, Repr

/-- The test of pandas.cpp line 86: the column is a string or a binary column. -/
def column_view_t.is_binary (column : column_view_t) : Bool :=
  column.type_ == .ukv_doc_field_str_k || column.type_ == .ukv_doc_field_bin_k

/-- Source lines 84-88 of pandas.cpp, from the column `collection_idx` on. -/
def binary_indexes_from : Nat → List column_view_t → List Nat
  | _, [] => []
  | collection_idx, column :: rest =>
    if column.is_binary then collection_idx :: binary_indexes_from (collection_idx + 1) rest
    else binary_indexes_from (collection_idx + 1) rest

/-- Source lines 83-88 of pandas.cpp: the indexes of the string and binary columns. -/
def binary_column_indexes (table : docs_table_t) : List Nat :=
  binary_indexes_from 0 table.columns

/-- Source lines 100-108 of pandas.cpp for one column: the cells `(offs, lens)` it adds
to the two vectors, one for each row and a last one that holds `offsets()[size()]` and
the zero the vector `lens` was made with. A read past the end of an array of the column
has no defined result (`none`). -/
def collect_column (rows : Nat) (column : column_view_t) : Option (List (Nat × Nat)) :=
  if rows < column.offsets.length ∧ rows ≤ column.lengths.length then
    some ((column.offsets.zip column.lengths).take rows ++ [(column.offsets.getD rows 0, 0)])
  else none

/-- Source lines 100-108 of pandas.cpp: the vectors `offs` and `lens` after the loop over
`binary_column_indexes`, as one list of cells. -/
def collect_columns (rows : Nat) : List column_view_t → Option (List (Nat × Nat))
  | [] => some []
  | column :: rest =>
    if column.is_binary then
      match collect_column rows column, collect_columns rows rest with
      | some cells, some more => some (cells ++ more)
      | _, _ => none
    else collect_columns rows rest

/-- The variable `contents_length` after the loop of lines 100-108: the lengths summed
in `ukv_length_t`, which has 32 bits. -/
def contents_length_of (cells : List (Nat × Nat)) : Nat :=
  cells.foldl (fun acc cell => (acc + cell.2) % 2 ^ 32) 0

/-- The call `std::memcpy(dst + at, src + start, len)`: a copy of no bytes touches no
memory; a copy that reads or writes past the end of an array has no defined result. -/
def memory_copy (dst : List byte_t) (pos : Nat) (src : List byte_t) (start len : Nat) :
    Option (List byte_t) :=
  if len = 0 then some dst
  else if start + len ≤ src.length ∧ pos + len ≤ dst.length then
    some (dst.take pos ++ (src.drop start).take len ++ dst.drop (pos + len))
  else none

/-- Source lines 114-118 of pandas.cpp: the loop over the cells that copies the bytes of
each to `buffer + offset`, writes `offset` over `offs[idx]` and adds the length to
`offset` in `ukv_length_t`. It gives the new `offs` and the buffer. -/
def compact_loop (contents : List byte_t) :
    List (Nat × Nat) → Nat → List byte_t → Option (List Nat × List byte_t)
  | [], _, buffer => some ([], buffer)
  | cell :: rest, offset, buffer =>
    match memory_copy buffer offset contents cell.1 cell.2 with
    | none => none
    | some copied =>
      match compact_loop contents rest ((offset + cell.2) % 2 ^ 32) copied with
      | none => none
      | some done => some (offset :: done.1, done.2)

/-- Source lines 122-127 of pandas.cpp: each string or binary column, in the order of
`binary_column_indexes`, gets the next `rows + 1` values of `offs` over the first
`rows + 1` cells of its offsets. -/
def write_offsets (rows : Nat) : List column_view_t → List Nat → List column_view_t
  | [], _ => []
  | column :: rest, offs =>
    if column.is_binary then
      { column with offsets := offs.take (rows + 1) ++ column.offsets.drop (rows + 1) }
        :: write_offsets rows rest (offs.drop (rows + 1))
    else column :: write_offsets rows rest offs

/-- Source `correct_table` (pandas.cpp lines 81-129). The result is the table the call
leaves, or `none` when a copy inside it leaves the arrays it was given. The buffer
`char buffer[contents_length]` starts with bytes the call never reads; they are zero
here. -/
def correct_table (table : docs_table_t) : Option docs_table_t :=
  if (binary_column_indexes table).length < 2 then some table
  else
    match collect_columns table.rows table.columns with
    | none => none
    | some cells =>
      let contents_length := contents_length_of cells
      match compact_loop table.contents cells 0 (List.replicate contents_length 0) with
      | none => none
      | some done =>
        match memory_copy table.contents 0 done.2 0 contents_length with
        | none => none
        | some contents =>
          some { rows := table.rows
                 columns := write_offsets table.rows table.columns done.1
                 contents := contents }

/-- The cells of the rows of a column: offset and length of each of the first `rows`
rows. -/
def column_cells (rows : Nat) (column : column_view_t) : List (Nat × Nat) :=
  (column.offsets.zip column.lengths).take rows

/-- The bytes a cell addresses in a pool. -/
def cell_bytes (contents : List byte_t) (cell : Nat × Nat) : List byte_t :=
  (contents.drop cell.1).take cell.2

/-- The bytes the first `rows` cells of a column address, row by row. -/
def column_bytes (contents : List byte_t) (rows : Nat) (column : column_view_t) :
    List byte_t :=
  (column_cells rows column).flatMap (cell_bytes contents)

/-- The bytes the cells of the string and binary columns of a list of columns address,
column by column and row by row. -/
def columns_bytes (contents : List byte_t) (rows : Nat) (columns : List column_view_t) :
    List byte_t :=
  (columns.filter column_view_t.is_binary).flatMap (column_bytes contents rows)

/-- The arrays of every string or binary column hold the rows: one offset more than
rows, and a length for each row. -/
def docs_table_t.sized (table : docs_table_t) : Prop :=
  ∀ column ∈ table.columns, column.is_binary = true →
    table.rows < column.offsets.length ∧ table.rows ≤ column.lengths.length

/-- Every cell of every string or binary column addresses a range inside the pool. -/
def docs_table_t.in_bounds (table : docs_table_t) : Prop :=
  ∀ column ∈ table.columns, column.is_binary = true →
    ∀ cell ∈ column_cells table.rows column, cell.1 + cell.2 ≤ table.contents.length

/-- Every cell of every string or binary column that has bytes addresses a range inside
the pool: what the copies of `correct_table` need of the cells. -/
def docs_table_t.readable (table : docs_table_t) : Prop :=
  ∀ column ∈ table.columns, column.is_binary = true →
    ∀ cell ∈ column_cells table.rows column,
      cell.2 = 0 ∨ cell.1 + cell.2 ≤ table.contents.length

/-- The sum of the lengths of the cells of the string and binary columns. -/
def docs_table_t.total_length (table : docs_table_t) : Nat :=
  (((table.columns.filter column_view_t.is_binary).flatMap
    (column_cells table.rows)).map Prod.snd).sum

/-- The lengths of the cells sum to at most the size of the pool, and to less than
`2 ^ 32`, the range of `ukv_length_t`. -/
def docs_table_t.fits (table : docs_table_t) : Prop :=
  table.total_length ≤ table.contents.length ∧ table.total_length < 2 ^ 32

instance (table : docs_table_t) : Decidable table.sized := by
  unfold docs_table_t.sized; infer_instance

instance (table : docs_table_t) : Decidable table.in_bounds := by
  unfold docs_table_t.in_bounds; infer_instance

instance (table : docs_table_t) : Decidable table.readable := by
  unfold docs_table_t.readable; infer_instance

instance (table : docs_table_t) : Decidable table.fits := by
  unfold docs_table_t.fits; infer_instance

/-- A table of one row and one string column that holds `ab` and the NUL after it:
offsets 0 and 3, length 2. -/
def single_table : docs_table_t :=
  { rows := 1
    columns := [
      { type_ := .ukv_doc_field_str_k, validities := [true], offsets := [0, 3], lengths := [2] }]
    contents := [97, 98, 0] }

/-- A table of two rows with a string column, an integer column and a binary column
over the pool `xcdeab`: the string column holds `ab` and `cde`, the binary column `x`
and nothing. -/
def names_table : docs_table_t :=
  { rows := 2
    columns := [
      { type_ := .ukv_doc_field_str_k, validities := [true, true],
        offsets := [4, 1, 4], lengths := [2, 3] },
      { type_ := .ukv_doc_field_i64_k, validities := [true, false],
        offsets := [], lengths := [] },
      { type_ := .ukv_doc_field_bin_k, validities := [true, false],
        offsets := [0, 1, 1], lengths := [1, 0] }]
    contents := [120, 99, 100, 101, 97, 98] }

/-- A table of one row and one string column that holds `ab` after one byte of the pool
that no cell addresses: offsets 1 and 3, length 2. -/
def shifted_table : docs_table_t :=
  { rows := 1
    columns := [
      { type_ := .ukv_doc_field_str_k, validities := [true], offsets := [1, 3], lengths := [2] }]
    contents := [0, 97, 98] }

/-- A table of one row with two string columns whose cells both address the two bytes of
the pool `ab`. -/
def overlap_table : docs_table_t :=
  { rows := 1
    columns := [
      { type_ := .ukv_doc_field_str_k, validities := [true], offsets := [0, 2], lengths := [2] },
      { type_ := .ukv_doc_field_str_k, validities := [true], offsets := [0, 2], lengths := [2] }]
    contents := [97, 98] }

/-- The sum of the lengths of a list of cells. -/
def cells_total (cells : List (Nat × Nat)) : Nat := (cells.map Prod.snd).sum

/-- The running sums of the lengths of a list of cells, from a first offset on: the
offset of each cell when the cells lie one after the other. -/
def prefix_offsets : Nat → List (Nat × Nat) → List Nat
  | _, [] => []
  | offset, cell :: rest => offset :: prefix_offsets (offset + cell.2) rest

/-- The cells of a column with the cell of its last offset, which has no bytes. -/
def sentinel_cells (rows : Nat) (column : column_view_t) : List (Nat × Nat) :=
  column_cells rows column ++ [(column.offsets.getD rows 0, 0)]

/-- The cells of the string and binary columns of a list of columns, in order. -/
def all_cells (rows : Nat) (columns : List column_view_t) : List (Nat × Nat) :=
  (columns.filter column_view_t.is_binary).flatMap (sentinel_cells rows)

/-- The columns with the offsets of the string and binary ones replaced by the running
sums of the lengths, the first such column starting at `offset`. -/
def compacted_columns (rows : Nat) : Nat → List column_view_t → List column_view_t
  | _, [] => []
  | offset, column :: rest =>
    if column.is_binary then
      { column with
        offsets := prefix_offsets offset (sentinel_cells rows column)
          ++ column.offsets.drop (rows + 1) }
        :: compacted_columns rows (offset + cells_total (column_cells rows column)) rest
    else column :: compacted_columns rows offset rest

/-! ## The table bindings: the rows of a table -/

/-- The members of `py_table_collection_t` the slicing of `materialize` reads
(pandas.cpp lines 137-163) and the calls `head` and `tail` set (lines 393-402): the keys
of the rows, held as a `std::vector<ukv_key_t>`, the limits `head` and `tail`, and which
of the two was set last. The class is declared in a header that is not among the
sources. -/
structure py_table_collection_t where
  rows_keys : List Int
  head : Nat
  tail : Nat
  head_was_defined_last : Bool
deriving DecidableEq, Repr

/-- The bytes of a `std::vector<ukv_key_t>`: eight bytes a key. -/
def keys_bytes (keys : List Int) : List byte_t := keys.flatMap to_slice

/-- The keys a run of bytes holds in its first `count` cells of eight bytes. -/
def bytes_keys (count : Nat) (data : List byte_t) : List Int :=
  (List.range count).map (fun idx => as_key (data.drop (8 * idx)))

/-- The call `std::memmove(data, data + start, count)` on bytes: the `count` bytes from
`start` on are copied over the first `count` bytes. -/
def memmove_front (data : List byte_t) (start count : Nat) : List byte_t :=
  (data.drop start).take count ++ data.drop count

/-- Source lines 141-158 of pandas.cpp: the pointers `keys_begin` and `keys_end` after the
slicing, as indexes of keys in `keys_found`. -/
def slice_bounds (df : py_table_collection_t) : Nat × Nat :=
  let keys_begin := 0
  let keys_end := df.rows_keys.length
  let keys_count := df.rows_keys.length
  if df.head_was_defined_last then
    let keys_begin := if keys_count > df.tail then keys_begin + (keys_count - df.tail) else keys_begin
    let keys_count := keys_end - keys_begin
    let keys_end := if keys_count > df.head then keys_end - (keys_count - df.head) else keys_end
    (keys_begin, keys_end)
  else
    let keys_end := if keys_count > df.head then keys_end - (keys_count - df.head) else keys_end
    let keys_count := keys_end - keys_begin
    let keys_begin := if keys_count > df.tail then keys_begin + (keys_count - df.tail) else keys_begin
    (keys_begin, keys_end)

/-- Source lines 137-163 of pandas.cpp: the vector `keys_found` after the slicing of
`materialize`. The call `std::memmove(keys_found.data(), keys_begin, keys_count)` is given
the number of keys where it takes a number of bytes, and `resize(keys_count)` keeps the
first `keys_count` keys. -/
def materialize_keys (df : py_table_collection_t) : List Int :=
  let keys_begin := (slice_bounds df).1
  let keys_end := (slice_bounds df).2
  let keys_count := keys_end - keys_begin
  if keys_count != df.rows_keys.length then
    bytes_keys keys_count (memmove_front (keys_bytes df.rows_keys) (8 * keys_begin) keys_count)
  else df.rows_keys

/-- The window of the keys the limits select: the first `head` keys of the last `tail`
keys when `head` was set last, and the last `tail` keys of the first `head` keys
otherwise. -/
def selected_window (df : py_table_collection_t) : List Int :=
  if df.head_was_defined_last then
    ((df.rows_keys.drop (df.rows_keys.length - df.tail)).take df.head)
  else
    ((df.rows_keys.take df.head).drop ((df.rows_keys.take df.head).length - df.tail))

/-! ## The dataset tool: the export of a graph -/

/-- Source `keys_length_t` of dataset.cpp, a `std::pair<ukv_key_t*, ukv_size_t>`: the
keys of a batch of edges, three for an edge, and how many they are. -/
structure keys_length_t where
  first : List Int
  second : Nat
deriving DecidableEq, Repr

/-- The member `edge_id_field` of the request `ukv_graph_export_t`, the one member
`export_csv_graph` decides on (dataset.cpp line 645); the request is declared in a header
that is not among the sources. -/
structure ukv_graph_export_t where
  edge_id_field : String
deriving DecidableEq, Repr

/-- Source `strcmp_` (dataset.cpp lines 234-236) on strings free of NUL. -/
def strcmp_ (lhs rhs : String) : Bool := lhs == rhs

/-- Source lines 659-660 of dataset.cpp: the inner loop of `fill_values` over one batch,
`values[idx] = data[idx_in_data]` with `idx_in_data` going up by three. A read or a write
past the end of an array has no defined result. -/
def fill_batch (data : List Int) (second : Nat) :
    Nat → Nat → Nat → List Int → Option (List Int)
  | 0, idx_in_data, _, values => if idx_in_data < second then none else some values
  | fuel + 1, idx_in_data, idx, values =>
    if idx_in_data < second then
      match data[idx_in_data]? with
      | none => none
      | some value =>
        if idx < values.length then
          fill_batch data second fuel (idx_in_data + 3) (idx + 1) (values.set idx value)
        else none
    else some values

/-- Source `fill_values` (dataset.cpp lines 655-662): for every batch, `idx` starts from
zero again. -/
def fill_values (ids : List keys_length_t) (offset : Nat) (values : List Int) :
    Option (List Int) :=
  ids.foldl
    (fun acc id => acc.bind (fun values => fill_batch id.first id.second id.second offset 0 values))
    (some values)

/-- Source `export_csv_graph` (dataset.cpp lines 642-710), up to the table it hands to the
CSV writer: the columns of sources and targets, and of edges unless the edge field is
named `edge`. The vector `values` has `length / 3` cells, zero at first, and is used for
the three columns in turn. -/
def export_csv_graph (c : ukv_graph_export_t) (ids : List keys_length_t) (length : Nat) :
    Option (List (List Int)) :=
  let edge_state := strcmp_ c.edge_id_field "edge"
  let values : List Int := List.replicate (length / 3) 0
  match fill_values ids 0 values with
  | none => none
  | some sources =>
    match fill_values ids 1 sources with
    | none => none
    | some targets =>
      if !edge_state then
        match fill_values ids 2 targets with
        | none => none
        | some edges => some [sources, targets, edges]
      else some [sources, targets]

/-- The columns the edges of the batches give: component `offset` of every triple of
every batch, in the order of the batches and of the edges. -/
def edge_components (ids : List keys_length_t) (offset : Nat) : List Int :=
  ids.flatMap (fun id =>
    (List.range (id.second / 3)).filterMap (fun edge => id.first[3 * edge + offset]?))

/-! ## The dataset tool: the fields of a document -/

/-- Source `symbols_count_k` (dataset.cpp line 48). -/
def symbols_count_k : Nat := 4

/-- The character NUL that ends a C string. -/
def nul : Char := Char.ofNat 0

/-- The character `/` that starts a JSON pointer and parts its steps. -/
def slash : Char := Char.ofNat 47

/-- The character `:`. -/
def colon : Char := Char.ofNat 58

/-- The character that opens an object. -/
def brace_open : Char := Char.ofNat 123

/-- The character that closes an object. -/
def brace_close : Char := Char.ofNat 125

/-- The C string a run of characters holds: the characters before the first NUL. -/
def c_str (chars : List Char) : List Char := chars.takeWhile (fun ch => ch != nul)

/-- The call `strlen`. -/
def strlen (chars : List Char) : Nat := (c_str chars).length

/-- Source `strncmp_` (dataset.cpp lines 238-240): the first `sz` characters of the two C
strings are the same. -/
def strncmp_ (lhs rhs : List Char) (sz : Nat) : Bool :=
  c_str (lhs.take sz) == c_str (rhs.take sz)

/-- Source `chrcmp_` (dataset.cpp lines 242-244). -/
def chrcmp_ (lhs rhs : Char) : Bool := lhs == rhs

/-- Source `is_ptr` (dataset.cpp lines 246-248): the first character of the field, which
is the NUL for an empty field, is a `/`. -/
def is_ptr (field : List Char) : Bool := chrcmp_ (field.headD nul) slash

/-- The member `std::string::substr(pos, count)`: it throws when `pos` is past the end
(`none`). -/
def string_substr (str : List Char) (pos count : Nat) : Option (List Char) :=
  if pos ≤ str.length then some ((str.drop pos).take count) else none

/-- The member `std::string::substr(pos)`: the rest of the string from `pos` on. -/
def string_rest (str : List Char) (pos : Nat) : Option (List Char) :=
  if pos ≤ str.length then some (str.drop pos) else none

/-- The characters `strncpy(dst, src, n)` writes: those of the C string `src`, and NULs
up to `n` characters. -/
def strncpy (src : List Char) (n : Nat) : List Char :=
  (c_str src).take n ++ List.replicate (n - (c_str src).length) nul

/-- The variables of `fields_parser` (dataset.cpp lines 375-380) with the vector `counts`
and the loop variable `idx`; `pos` is `none` for `std::string::npos`, and `tape` holds
the characters written so far, which lie at the indexes below `offset`. -/
structure parser_state_t where
  prefixes : List (List Char)
  counts : List Nat
  pre_idx : Nat
  offset : Nat
  pos : Option Nat
  tape : List Char
  idx : Nat
deriving DecidableEq, Repr

/-- The two lines `strncpy(tape.begin() + offset, str.data(), str.size()); offset +=
str.size();` of `fields_parser`. -/
def parser_state_t.write (s : parser_state_t) (str : List Char) : parser_state_t :=
  { s with tape := s.tape ++ strncpy str str.length, offset := s.offset + str.length }

/-- Source `close_bracket` (dataset.cpp lines 385-390). -/
def close_bracket (s : parser_state_t) : parser_state_t :=
  { s with
    prefixes := s.prefixes.dropLast
    tape := s.tape ++ [brace_close, nul]
    offset := s.offset + 2 }

/-- The string `fmt::format` makes for a field that opens an object: the name in quotes,
a colon, the opening brace and a NUL. -/
def format_object (name : List Char) : List Char :=
  [quote] ++ name ++ [quote, colon, brace_open, nul]

/-- The string `fmt::format` makes for a field: the name in quotes, a colon and a NUL. -/
def format_field (name : List Char) : List Char :=
  [quote] ++ name ++ [quote, colon, nul]

/-- Source `fill_prefixes` (dataset.cpp lines 392-401) for the field `fields[idx]`. -/
def fill_prefixes (field : List Char) : Nat → parser_state_t → Option parser_state_t
  | 0, s =>
    match s.pos with
    | none => some s
    | some _ => none
  | fuel + 1, s =>
    match s.pos with
    | none => some s
    | some pos =>
      match string_substr field 0 (pos + 1), string_substr field s.pre_idx (pos - s.pre_idx) with
      | some pre, some name =>
        let written := { s with prefixes := s.prefixes ++ [pre] }.write (format_object name)
        fill_prefixes field fuel
          { written with pre_idx := pos + 1, pos := string_find field slash (pos + 1) }
      | _, _ => none

/-- Source lines 422-426 of dataset.cpp: the loop that closes the objects whose prefix the
field does not start with. -/
def close_loop (field : List Char) : Nat → parser_state_t → Option parser_state_t
  | 0, s =>
    match s.prefixes.getLast? with
    | none => some s
    | some back => if !strncmp_ back field back.length then none else some s
  | fuel + 1, s =>
    match s.prefixes.getLast? with
    | none => some s
    | some back =>
      if !strncmp_ back field back.length then close_loop field fuel (close_bracket s)
      else some s

/-- Source lines 412-436 of dataset.cpp: the loop over the fields that start with the last
prefix. The flag of the result says that `fields_parser` has returned; without it the
loop was left, by `break` or by its test. -/
def prefix_loop (fields : List (List Char)) :
    Nat → parser_state_t → Option (Bool × parser_state_t)
  | 0, _ => none
  | fuel + 1, s =>
    match s.prefixes.getLast?, fields[s.idx]? with
    | some back, some field =>
      if strncmp_ back field back.length then
        match string_rest field (s.pre_idx - 1) with
        | none => none
        | some name =>
          let written := s.write (format_field name)
          let counted :=
            { written with
              counts := written.counts.dropLast ++ [written.counts.getLastD 0 + 1]
              idx := written.idx + 1 }
          if counted.idx = fields.length then some (true, close_bracket counted)
          else
            match fields[counted.idx]? with
            | none => none
            | some next =>
              match close_loop next counted.prefixes.length counted with
              | none => none
              | some closed =>
                if closed.prefixes.length = 0 then some (false, closed)
                else
                  let found := { closed with pos := string_find next slash closed.pre_idx }
                  if found.pos.isSome then
                    match fill_prefixes next (next.length + 1) found with
                    | none => none
                    | some filled =>
                      prefix_loop fields fuel { filled with counts := filled.counts ++ [0] }
                  else prefix_loop fields fuel found
      else some (false, s)
    | _, _ => none

/-- Source lines 409-437 of dataset.cpp: the loop `while (prefixes.size())`. -/
def prefixes_loop (fields : List (List Char)) :
    Nat → parser_state_t → Option (Bool × parser_state_t)
  | 0, _ => none
  | fuel + 1, s =>
    match s.prefixes.getLast? with
    | none => some (false, s)
    | some back =>
      match prefix_loop fields (fuel + 1)
          { s with counts := s.counts ++ [0], pre_idx := back.length + 1 } with
      | none => none
      | some (true, done) => some (true, done)
      | some (false, left) => prefixes_loop fields fuel left

/-- Source lines 403-454 of dataset.cpp: the loop over the fields. The branch of a pointer
of one step ends with `break; ++idx;`, which leaves the loop. -/
def fields_loop (fields : List (List Char)) (fields_count : Nat) :
    Nat → parser_state_t → Option parser_state_t
  | 0, s => if s.idx < fields_count then none else some s
  | fuel + 1, s =>
    if s.idx < fields_count then
      match fields[s.idx]? with
      | none => none
      | some field =>
        if is_ptr field then
          let found := { s with pre_idx := 1, pos := string_find field slash 1 }
          if found.pos.isSome then
            match fill_prefixes field (field.length + 1) found with
            | none => none
            | some filled =>
              match prefixes_loop fields (fuel + 1) filled with
              | none => none
              | some (true, done) => some done
              | some (false, left) => fields_loop fields fields_count fuel left
          else
            match string_rest field 1 with
            | none => none
            | some name => some (found.write (format_field name))
        else
          let written := s.write (format_field field)
          fields_loop fields fields_count fuel { written with idx := written.idx + 1 }
    else some s

/-- Source `fields_parser` (dataset.cpp lines 367-455), here under the name
`parse_fields`: the state it ends in, with the
characters it wrote to the tape and the offset after them, or `none` when it throws, reads
past an array or does not end. The fields are copied from the C strings of the caller
first, and `counts` is the empty vector the callers hand in. Every step of a loop but its
last moves `idx` on, which bounds the steps by the number of fields. -/
def parse_fields (strided_fields : List (List Char)) (fields_count : Nat) :
    Option parser_state_t :=
  if strided_fields.length < fields_count then none
  else
    fields_loop ((strided_fields.take fields_count).map c_str) fields_count (fields_count + 1)
      { prefixes := [], counts := [], pre_idx := 0, offset := 0, pos := some 0, tape := [],
        idx := 0 }

/-- Source lines 997-1000 and 1132-1134 of dataset.cpp: the size `max_size` of the tape
the callers of `fields_parser` allocate. -/
def tape_max_size (fields : List (List Char)) (fields_count : Nat) : Nat :=
  fields_count * symbols_count_k + ((fields.take fields_count).map strlen).sum

/-- The entries the tape holds for flat names and pointers of one step: for each field
its name, without the `/` a pointer starts with, in quotes, a colon and a NUL. -/
def flat_entries (fields : List (List Char)) : List (List Char) :=
  fields.map (fun field => format_field (if is_ptr field then field.drop 1 else field))

/-- The entries of a tape: the runs of characters that a NUL ends. -/
def tape_entries : List Char → List Char → List (List Char)
  | [], _ => []
  | ch :: rest, entry =>
    if ch = nul then (entry ++ [ch]) :: tape_entries rest []
    else tape_entries rest (entry ++ [ch])

/-! ## Keys and the comparator -/

theorem le_value_lt (l : List byte_t) : le_value l < 256 ^ l.length := by
  induction l with
  | nil => simp [le_value]
  | cons b rest ih =>
    have hb : b.val < 256 := b.isLt
    simp only [le_value, List.length_cons, pow_succ]
    omega

theorem le_value_take_eight (s : slice_t) : le_value (s.take 8) < 2 ^ 64 := by
  have h := le_value_lt (s.take 8)
  have hl : (s.take 8).length ≤ 8 := by simp
  calc le_value (s.take 8) < 256 ^ (s.take 8).length := h
    _ ≤ 256 ^ 8 := Nat.pow_le_pow_right (by decide) hl
    _ = 2 ^ 64 := by norm_num

theorem as_key_is_i64 (s : slice_t) : is_i64 (as_key s) := by
  have h := le_value_take_eight s
  unfold is_i64 as_key
  simp only
  split <;> constructor <;> omega

theorem Compare_eq_zero (a b : slice_t) :
    key_comparator_t.Compare a b = 0 ↔ as_key a = as_key b := by
  unfold key_comparator_t.Compare
  simp only
  split
  · simp [*]
  · split <;> simp [*]

theorem Compare_neg (a b : slice_t) :
    key_comparator_t.Compare a b < 0 ↔ as_key a < as_key b := by
  unfold key_comparator_t.Compare
  simp only
  split
  · simp [*]
  · split <;> simp [*]

theorem Compare_refl (a : slice_t) : key_comparator_t.Compare a a = 0 :=
  (Compare_eq_zero a a).mpr rfl

theorem le_value_injective :
    ∀ (a b : List byte_t), a.length = b.length → le_value a = le_value b → a = b
  | [], [], _, _ => rfl
  | [], _ :: _, hl, _ => by simp at hl
  | _ :: _, [], hl, _ => by simp at hl
  | x :: xs, y :: ys, hl, hv => by
    have hx : x.val < 256 := x.isLt
    have hy : y.val < 256 := y.isLt
    simp only [le_value] at hv
    simp only [List.length_cons, Nat.add_right_cancel_iff] at hl
    have h1 : x.val = y.val := by omega
    have h2 : le_value xs = le_value ys := by omega
    rw [Fin.ext h1, le_value_injective xs ys hl h2]

theorem as_key_injective (a b : slice_t) (ha : a.length = 8) (hb : b.length = 8)
    (h : as_key a = as_key b) : a = b := by
  have h1 := le_value_take_eight a
  have h2 := le_value_take_eight b
  have ta : a.take 8 = a := List.take_of_length_le (by omega)
  have tb : b.take 8 = b := List.take_of_length_le (by omega)
  unfold as_key at h
  simp only at h
  rw [ta] at h h1
  rw [tb] at h h2
  apply le_value_injective a b (by omega)
  have h3 : ((if le_value a < 2 ^ 63 then (le_value a : Int) else (le_value a : Int) - 2 ^ 64) : Int)
      = (if le_value b < 2 ^ 63 then (le_value b : Int) else (le_value b : Int) - 2 ^ 64) := h
  split at h3 <;> split at h3 <;> omega

/-! ## The store: what a write leaves for a read -/

theorem entries_get_put (key : slice_t) (value : List byte_t) (entries : List entry_t) :
    entries_get key (entries_put key value entries) = some value := by
  induction entries with
  | nil => simp [entries_put, entries_get, Compare_refl]
  | cons e rest ih =>
    unfold entries_put
    split
    · simp [entries_get, Compare_refl]
    · split
      · simp [entries_get, Compare_refl]
      · rename_i h0 _
        unfold entries_get at ih ⊢
        rw [List.find?_cons_of_neg _ (by simpa using h0)]
        exact ih

theorem find_family_map (g : column_family_t → column_family_t)
    (hg : ∀ f, (g f).handle = f.handle) (collection : Nat) (fs : List column_family_t) :
    (fs.map g).find? (fun f => f.handle == collection)
      = (fs.find? (fun f => f.handle == collection)).map g := by
  induction fs with
  | nil => rfl
  | cons f rest ih =>
    rw [List.map_cons, List.find?_cons, List.find?_cons, hg f]
    cases hc : f.handle == collection
    · exact ih
    · rfl

theorem apply_handle (op : batch_op_t) (f : column_family_t) :
    (if f.handle == op.collection then { f with entries := op.apply f.entries } else f).handle
      = f.handle := by
  split <;> rfl

theorem family_apply_eq (native : rocks_native_t) (op : batch_op_t) (collection : Nat) :
    (native.apply op).family collection
      = (native.family collection).map (fun f =>
          if f.handle == op.collection then { f with entries := op.apply f.entries } else f) := by
  unfold rocks_native_t.family rocks_native_t.apply
  exact find_family_map _ (apply_handle op) collection native.families

theorem health_apply (native : rocks_native_t) (op : batch_op_t) (collection : Nat)
    (key : slice_t) : (native.apply op).health collection key = native.health collection key := by
  have hf := family_apply_eq native op collection
  unfold rocks_native_t.health
  rw [hf]
  have hfaults : (native.apply op).faults = native.faults := rfl
  rw [hfaults]
  cases native.family collection <;> rfl

theorem family_apply (native : rocks_native_t) (op : batch_op_t) (f : column_family_t)
    (h : native.family op.collection = some f) :
    (native.apply op).family op.collection = some { f with entries := op.apply f.entries } := by
  rw [family_apply_eq, h]
  have hh : f.handle = op.collection := by
    unfold rocks_native_t.family at h
    have := List.find?_some h
    simpa using this
  simp [hh]

theorem health_ok_family (native : rocks_native_t) (collection : Nat) (key : slice_t)
    (h : native.health collection key = .kOk) : ∃ f, native.family collection = some f := by
  unfold rocks_native_t.health at h
  split at h
  · rename_i f hf
    have := List.find?_some hf
    simp only [Bool.and_eq_true] at this
    rw [h] at this
    simp [rocks_status_t.fails, rocks_status_t.ok] at this
  · split at h
    · rename_i f hf
      exact ⟨f, hf⟩
    · simp at h

theorem export_error_none (status : rocks_status_t) :
    (export_error status none).2 = none ↔ status = .kOk := by
  cases status <;> simp [export_error, rocks_status_t.ok, rocks_status_t.IsCorruption,
    rocks_status_t.IsIOError, rocks_status_t.IsInvalidArgument]


theorem Write_single (native : rocks_native_t) (op : batch_op_t) :
    native.Write [op] =
      if native.health op.collection op.key != .kOk then (native.health op.collection op.key, native)
      else (.kOk, native.apply op) := by
  unfold rocks_native_t.Write
  simp only [rocks_native_t.batch_health, List.foldl_cons, List.foldl_nil]
  by_cases h : native.health op.collection op.key = .kOk
  · simp [h]
  · simp [h]

theorem Get_after_put (native : rocks_native_t) (collection : Nat) (key : slice_t)
    (value : List byte_t) (h : native.health collection key = .kOk) :
    (native.apply (.Put collection key value)).Get collection key = (.kOk, value) := by
  obtain ⟨f, hf⟩ := health_ok_family native collection key h
  have h1 := health_apply native (.Put collection key value) collection key
  have h2 := family_apply native (.Put collection key value) f hf
  unfold rocks_native_t.Get
  rw [h1, h]
  simp only [bne_self_eq_false, Bool.false_eq_true, ↓reduceIte]
  simp only [batch_op_t.collection] at h2
  rw [h2]
  simp [batch_op_t.apply, entries_get_put]

theorem of_store_bytes (value : List byte_t) (h : value.length < 2 ^ 32 - 1) :
    (value_view_t.of_store value).size = value.length ∧
    (value_view_t.of_store value).bytes = value := by
  have hmod : value.length % 2 ^ 32 = value.length := Nat.mod_eq_of_lt (by omega)
  have hne : value.length ≠ ukv_length_missing_k := by
    unfold ukv_length_missing_k; omega
  have hsize : (value_view_t.of_store value).size = value.length := by
    unfold value_view_t.size value_view_t.of_store
    simp only [hmod, hne, if_false]
  refine ⟨hsize, ?_⟩
  unfold value_view_t.bytes
  rw [hsize]
  simp [value_view_t.of_store]

theorem of_store_present (value : List byte_t) (h : value.length < 2 ^ 32 - 1)
    (hvalue : value ≠ []) :
    (value_view_t.of_store value).to_bool = true ∧
    (value_view_t.of_store value).size = value.length ∧
    (value_view_t.of_store value).bytes = value := by
  obtain ⟨hsize, hbytes⟩ := of_store_bytes value h
  have hmod : value.length % 2 ^ 32 = value.length := Nat.mod_eq_of_lt (by omega)
  have hne : value.length ≠ ukv_length_missing_k := by
    unfold ukv_length_missing_k; omega
  refine ⟨?_, hsize, hbytes⟩
  unfold value_view_t.to_bool
  rw [hbytes]
  have hlen : (value_view_t.of_store value).length_ = value.length := hmod
  rw [hlen]
  cases value with
  | nil => exact absurd rfl hvalue
  | cons b rest => simpa using hne

/-- The view of a stored value without bytes is false, as the missing view is. -/
theorem of_store_empty : (value_view_t.of_store []).to_bool = false := by decide

/-- A view is false exactly when it is the missing value or holds no bytes. -/
theorem to_bool_false_iff (content : value_view_t) :
    content.to_bool = false ↔
      content.length_ = ukv_length_missing_k ∨ content.bytes = [] := by
  unfold value_view_t.to_bool
  cases hb : content.bytes with
  | nil => simp
  | cons b rest => simp

theorem present_bytes_ne (content : value_view_t) (hp : content.to_bool = true) :
    content.bytes ≠ [] := by
  intro h
  have := (to_bool_false_iff content).mpr (Or.inr h)
  rw [hp] at this
  cases this

theorem bytes_length_le (content : value_view_t) : content.bytes.length ≤ content.length_ := by
  unfold value_view_t.bytes value_view_t.size
  split <;> simp [List.length_take]

theorem present_bytes_lt (content : value_view_t) (hp : content.to_bool = true)
    (hl : content.length_ < 2 ^ 32) : content.bytes.length < 2 ^ 32 - 1 := by
  have h1 := bytes_length_le content
  have h2 : content.length_ ≠ 2 ^ 32 - 1 := by
    intro h
    have := (to_bool_false_iff content).mpr (Or.inl h)
    rw [hp] at this
    cases this
  omega

/-- A write of one place outside a transaction that leaves the error slot empty has
passed the validation, found the key healthy and applied its one call. -/
theorem write_one_place_ok (db : rocks_db_t) (place : place_t) (content : value_view_t)
    (options : ukv_options_t) (validation : ukv_error_t)
    (hok : (ukv_write
      { db := some db, transaction := none, places := [place], contents := [content],
        options := options, validation := validation }).error = none) :
    db.native.health (rocks_collection db place.collection) (to_slice place.key) = .kOk ∧
    (ukv_write
      { db := some db, transaction := none, places := [place], contents := [content],
        options := options, validation := validation }).db
      = some
        { columns := db.columns
          mutex := db.mutex
          native := db.native.apply
            (db_write_call (rocks_collection db place.collection) (to_slice place.key) content) } := by
  have hop : ∀ c k, (db_write_call c k content).collection = c ∧ (db_write_call c k content).key = k := by
    intro c k
    unfold db_write_call
    split <;> exact ⟨rfl, rfl⟩
  cases hv : validation with
  | some e => simp [ukv_write, hv] at hok
  | none =>
    simp only [ukv_write, hv, List.length_singleton, one_ne_zero, ↓reduceIte, Option.isSome_none,
      Bool.false_eq_true, write_one, place_at, content_at, List.getD_cons_zero] at hok ⊢
    rw [Write_single] at hok ⊢
    rw [(hop _ _).1, (hop _ _).2] at hok ⊢
    by_cases hh : db.native.health (rocks_collection db place.collection) (to_slice place.key) = .kOk
    · simp [hh]
    · simp only [bne_iff_ne, ne_eq, hh, not_false_eq_true, ↓reduceIte] at hok
      exact absurd ((export_error_none _).mp hok) hh

theorem DefaultColumnFamily_apply (native : rocks_native_t) (op : batch_op_t) :
    (native.apply op).DefaultColumnFamily = native.DefaultColumnFamily := by
  unfold rocks_native_t.DefaultColumnFamily rocks_native_t.apply
  simp only
  have hname : ∀ f : column_family_t,
      (if f.handle == op.collection then { f with entries := op.apply f.entries } else f).name
        = f.name := by
    intro f; split <;> rfl
  generalize native.families = fs
  induction fs with
  | nil => rfl
  | cons f rest ih =>
    rw [List.map_cons, List.find?_cons, List.find?_cons, hname f]
    cases hc : f.name == kDefaultColumnFamilyName
    · exact ih
    · simp only
      split <;> rfl

theorem rocks_collection_apply (db : rocks_db_t) (op : batch_op_t) (collection : Nat) :
    rocks_collection { columns := db.columns, native := db.native.apply op, mutex := db.mutex }
      collection = rocks_collection db collection := by
  unfold rocks_collection
  simp only [DefaultColumnFamily_apply]

/-! ## Batches: a delete that no later put of the batch overrides -/

theorem mem_entries_put (key : slice_t) (value : List byte_t) (entries : List entry_t)
    (e : entry_t) (h : e ∈ entries_put key value entries) : e = (key, value) ∨ e ∈ entries := by
  induction entries with
  | nil => left; simpa [entries_put] using h
  | cons x rest ih =>
    unfold entries_put at h
    split at h
    · rcases List.mem_cons.mp h with h | h
      · exact Or.inl h
      · exact Or.inr (List.mem_cons_of_mem _ h)
    · split at h
      · rcases List.mem_cons.mp h with h | h
        · exact Or.inl h
        · exact Or.inr h
      · rcases List.mem_cons.mp h with h | h
        · exact Or.inr (h ▸ List.mem_cons_self _ _)
        · rcases ih h with h | h
          · exact Or.inl h
          · exact Or.inr (List.mem_cons_of_mem _ h)

theorem health_foldl (ops : List batch_op_t) (native : rocks_native_t) (collection : Nat)
    (key : slice_t) :
    (ops.foldl rocks_native_t.apply native).health collection key
      = native.health collection key := by
  induction ops generalizing native with
  | nil => rfl
  | cons op rest ih => rw [List.foldl_cons, ih, health_apply]

theorem DefaultColumnFamily_foldl (ops : List batch_op_t) (native : rocks_native_t) :
    (ops.foldl rocks_native_t.apply native).DefaultColumnFamily = native.DefaultColumnFamily := by
  induction ops generalizing native with
  | nil => rfl
  | cons op rest ih => rw [List.foldl_cons, ih, DefaultColumnFamily_apply]

theorem batch_health_ok (native : rocks_native_t) (ops : List batch_op_t)
    (h : native.batch_health ops = .kOk) :
    ∀ op ∈ ops, native.health op.collection op.key = .kOk := by
  induction ops with
  | nil => intro op hop; cases hop
  | cons o rest ih =>
    unfold rocks_native_t.batch_health at h
    by_cases ho : native.health o.collection o.key = .kOk
    · simp only [ho, bne_self_eq_false, Bool.false_eq_true, ↓reduceIte] at h
      intro op hop
      rcases List.mem_cons.mp hop with h1 | h1
      · rw [h1]; exact ho
      · exact ih h op h1
    · simp only [bne_iff_ne, ne_eq, ho, not_false_eq_true, ↓reduceIte] at h

/-- The answer of the store that a read of one place works on. -/
theorem read_one_answer (db : rocks_db_t) (txn : Option rocks_txn_t) (place : place_t)
    (options : ukv_options_t) (values : Bool) :
    (read_one db txn [place] options values none).out =
      ((read_export values
        (match txn with
         | some t => t.Get db.native (rocks_collection db place.collection) (to_slice place.key)
         | none => db.native.Get (rocks_collection db place.collection) (to_slice place.key))
        read_tape_t.empty none).1.getD read_tape_t.empty) ∧
    (read_one db txn [place] options values none).error =
      (read_export values
        (match txn with
         | some t => t.Get db.native (rocks_collection db place.collection) (to_slice place.key)
         | none => db.native.Get (rocks_collection db place.collection) (to_slice place.key))
        read_tape_t.empty none).2 := by
  cases txn with
  | none => exact ⟨rfl, rfl⟩
  | some t =>
    have hg : (t.GetForUpdate db.native (rocks_collection db place.collection)
        (to_slice place.key)).1
        = t.Get db.native (rocks_collection db place.collection) (to_slice place.key) := by
      unfold rocks_txn_t.GetForUpdate rocks_txn_t.Get
      split <;> rfl
    cases hw : options.transaction_dont_watch <;>
      simp [read_one, place_at, hw, hg]

theorem tasks_of_single (place : place_t) (contents : List value_view_t) :
    tasks_of [place] contents = [(place, content_at contents 0)] := by
  simp [tasks_of, List.range_succ, place_at]

/-- Inside a transaction a valid write of at least one place is the loop of staged calls. -/
theorem ukv_write_inside (db : rocks_db_t) (txn : rocks_txn_t) (places : List place_t)
    (contents : List value_view_t) (options : ukv_options_t) (hne : places ≠ []) :
    ukv_write
      { db := some db, transaction := some txn, places := places, contents := contents,
        options := options, validation := none }
    = { db := some db
        transaction := some (write_many_txn db (!options.transaction_dont_watch)
          (tasks_of places contents) txn none).1
        error := (write_many_txn db (!options.transaction_dont_watch)
          (tasks_of places contents) txn none).2 } := by
  have hlen : places.length ≠ 0 := by
    intro h; exact hne (List.length_eq_zero.mp h)
  by_cases h1 : places.length = 1
  · obtain ⟨place, hp⟩ := List.length_eq_one.mp h1
    subst hp
    simp only [ukv_write, List.length_singleton, one_ne_zero, ↓reduceIte, Option.isSome_none,
      Bool.false_eq_true, write_one, place_at, List.getD_cons_zero, tasks_of_single,
      write_many_txn]
    split <;> rfl
  · simp [ukv_write, hlen, h1, write_many]

theorem split_at_index {α : Type} (l : List α) (i : Nat) (h : i < l.length) :
    l = l.take i ++ l[i] :: l.drop (i + 1) := by
  rw [← List.drop_eq_getElem_cons h, List.take_append_drop]

theorem zipWith_map_map {α β γ δ : Type} (f : β → γ → δ) (g : α → β) (h : α → γ) (l : List α) :
    List.zipWith f (l.map g) (l.map h) = l.map (fun x => f (g x) (h x)) := by
  induction l with
  | nil => rfl
  | cons x rest ih => simp [ih]

theorem read_export_ok (values : Bool) (a : rocks_status_t × List byte_t) (out : read_tape_t)
    (e : ukv_error_t) (h : a.1.fails = false) :
    read_export values a out e = (some (data_enumerator values out (view_of_answer a)), e) := by
  obtain ⟨s, v⟩ := a
  cases s <;>
    simp_all [read_export, view_of_answer, rocks_status_t.fails, rocks_status_t.IsNotFound,
      rocks_status_t.ok, export_error]

theorem read_export_fails (values : Bool) (a : rocks_status_t × List byte_t) (out : read_tape_t)
    (e : ukv_error_t) (h : a.1.fails = true) :
    read_export values a out e = (none, (export_error a.1 e).2) := by
  obtain ⟨s, v⟩ := a
  cases s <;>
    simp_all [read_export, rocks_status_t.fails, rocks_status_t.IsNotFound,
      rocks_status_t.ok, export_error, rocks_status_t.IsCorruption, rocks_status_t.IsIOError,
      rocks_status_t.IsInvalidArgument]


/-- The loop over a run of answers with no failure calls the enumerator on each. -/
theorem read_many_loop_append (values : Bool) (pre rest : List (rocks_status_t × List byte_t))
    (out : read_tape_t) (e : ukv_error_t) (h : ∀ a ∈ pre, a.1.fails = false) :
    read_many_loop values (pre ++ rest) out e =
      read_many_loop values rest
        (pre.foldl (fun o a => data_enumerator values o (view_of_answer a)) out) e := by
  induction pre generalizing out with
  | nil => rfl
  | cons a pre ih =>
    have ha := h a (List.mem_cons_self _ _)
    rw [List.cons_append, read_many_loop, read_export_ok values a out e ha]
    simp only [List.foldl_cons]
    exact ih _ (fun b hb => h b (List.mem_cons_of_mem _ hb))

theorem read_many_loop_ok (values : Bool) (answers : List (rocks_status_t × List byte_t))
    (out : read_tape_t) (e : ukv_error_t) (h : ∀ a ∈ answers, a.1.fails = false) :
    read_many_loop values answers out e =
      (answers.foldl (fun o a => data_enumerator values o (view_of_answer a)) out, e) := by
  have := read_many_loop_append values answers [] out e h
  rw [List.append_nil] at this
  rw [this]
  rfl

/-- The loop never rewrites a cell: it extends the outputs it starts from. -/
theorem read_many_loop_extends (values : Bool) (answers : List (rocks_status_t × List byte_t))
    (out : read_tape_t) (e : ukv_error_t) :
    (∃ s, (read_many_loop values answers out e).1.presences = out.presences ++ s) ∧
    (∃ s, (read_many_loop values answers out e).1.lengths = out.lengths ++ s) := by
  induction answers generalizing out e with
  | nil => exact ⟨⟨[], by simp [read_many_loop]⟩, ⟨[], by simp [read_many_loop]⟩⟩
  | cons a rest ih =>
    by_cases ha : a.1.fails = true
    · rw [read_many_loop, read_export_fails values a out e ha]
      exact ⟨⟨[], by simp⟩, ⟨[], by simp⟩⟩
    · have ha : a.1.fails = false := by simpa using ha
      rw [read_many_loop, read_export_ok values a out e ha]
      obtain ⟨⟨s1, h1⟩, ⟨s2, h2⟩⟩ := ih (data_enumerator values out (view_of_answer a)) e
      simp only at h1 h2 ⊢
      refine ⟨⟨(view_of_answer a).to_bool :: s1, ?_⟩,
        ⟨(if (view_of_answer a).to_bool then (view_of_answer a).size % 2 ^ 32
          else ukv_length_missing_k) :: s2, ?_⟩⟩
      · rw [h1]; simp [data_enumerator]
      · rw [h2]; simp [data_enumerator]

theorem enumerate_lengths (values : Bool) (l : List (rocks_status_t × List byte_t))
    (out : read_tape_t) :
    (l.foldl (fun o a => data_enumerator values o (view_of_answer a)) out).presences.length
      = out.presences.length + l.length ∧
    (l.foldl (fun o a => data_enumerator values o (view_of_answer a)) out).lengths.length
      = out.lengths.length + l.length := by
  induction l generalizing out with
  | nil => simp
  | cons a rest ih =>
    obtain ⟨h1, h2⟩ := ih (data_enumerator values out (view_of_answer a))
    simp only [List.foldl_cons, List.length_cons]
    rw [h1, h2]
    simp only [data_enumerator, List.length_append, List.length_singleton]
    omega

/-- The outputs and the error of a valid read of at least one place are those of the
loop over the answers of the store. -/
theorem ukv_read_eq_loop (db : rocks_db_t) (txn : Option rocks_txn_t) (places : List place_t)
    (options : ukv_options_t) (values : Bool) (hne : places ≠ []) :
    (ukv_read
      { db := some db, transaction := txn, places := places, options := options,
        values := values, validation := none }).presences
      = (read_many_loop values (store_answers db txn places) read_tape_t.empty none).1.presences ∧
    (ukv_read
      { db := some db, transaction := txn, places := places, options := options,
        values := values, validation := none }).lengths
      = (read_many_loop values (store_answers db txn places) read_tape_t.empty none).1.lengths ∧
    (ukv_read
      { db := some db, transaction := txn, places := places, options := options,
        values := values, validation := none }).offsets
      = (read_many_loop values (store_answers db txn places) read_tape_t.empty none).1.offsets ∧
    (ukv_read
      { db := some db, transaction := txn, places := places, options := options,
        values := values, validation := none }).contents
      = (read_many_loop values (store_answers db txn places) read_tape_t.empty none).1.contents ∧
    (ukv_read
      { db := some db, transaction := txn, places := places, options := options,
        values := values, validation := none }).offsets_end
      = some ((read_many_loop values (store_answers db txn places)
          read_tape_t.empty none).1.contents.length % 2 ^ 32) ∧
    (ukv_read
      { db := some db, transaction := txn, places := places, options := options,
        values := values, validation := none }).error
      = (read_many_loop values (store_answers db txn places) read_tape_t.empty none).2 := by
  have hlen : places.length ≠ 0 := by
    intro h; exact hne (List.length_eq_zero.mp h)
  by_cases h1 : places.length = 1
  · obtain ⟨place, hp⟩ := List.length_eq_one.mp h1
    subst hp
    obtain ⟨ho, he⟩ := read_one_answer db txn place options values
    have key : ∀ a : rocks_status_t × List byte_t,
        (read_export values a read_tape_t.empty none).1.getD read_tape_t.empty
          = (read_many_loop values [a] read_tape_t.empty none).1 ∧
        (read_export values a read_tape_t.empty none).2
          = (read_many_loop values [a] read_tape_t.empty none).2 := by
      intro a
      simp only [read_many_loop]
      generalize read_export values a read_tape_t.empty none = x
      obtain ⟨o, e⟩ := x
      cases o <;> simp
    simp only [ukv_read, List.length_singleton, one_ne_zero, ↓reduceIte, Option.isSome_none,
      Bool.false_eq_true, ho, he, store_answers, List.map_cons, List.map_nil]
    rw [(key _).1, (key _).2]
    exact ⟨rfl, rfl, rfl, rfl, rfl, rfl⟩
  · have hans : ∀ w : Bool,
        (match txn with
          | some t =>
            if w then
              ((t.MultiGetForUpdate db.native
                  (places.map (fun place : place_t => rocks_collection db place.collection))
                  (places.map (fun place : place_t => to_slice place.key))).1,
                some (t.MultiGetForUpdate db.native
                  (places.map (fun place : place_t => rocks_collection db place.collection))
                  (places.map (fun place : place_t => to_slice place.key))).2)
            else (t.MultiGet db.native
                  (places.map (fun place : place_t => rocks_collection db place.collection))
                  (places.map (fun place : place_t => to_slice place.key)), some t)
          | none => (db.native.MultiGet
                  (places.map (fun place : place_t => rocks_collection db place.collection))
                  (places.map (fun place : place_t => to_slice place.key)), none)).1
          = store_answers db txn places := by
      intro w
      cases txn with
      | none => simp [rocks_native_t.MultiGet, zipWith_map_map, store_answers]
      | some t =>
        cases w <;>
          simp [rocks_txn_t.MultiGetForUpdate, rocks_txn_t.MultiGet, zipWith_map_map,
            store_answers]
    simp only [ukv_read, hlen, h1, ↓reduceIte, Option.isSome_none, Bool.false_eq_true,
      read_many]
    rw [hans]
    exact ⟨rfl, rfl, rfl, rfl, rfl, rfl⟩

/-! ## What the enumerator has written after a run of answers -/

theorem enumerate_snoc (values : Bool) (l : List (rocks_status_t × List byte_t))
    (a : rocks_status_t × List byte_t) (out : read_tape_t) :
    (l ++ [a]).foldl (fun o a => data_enumerator values o (view_of_answer a)) out
      = data_enumerator values
          (l.foldl (fun o a => data_enumerator values o (view_of_answer a)) out)
          (view_of_answer a) := by
  rw [List.foldl_append]; rfl

theorem enumerator_presences (values : Bool) (out : read_tape_t) (value : value_view_t) :
    (data_enumerator values out value).presences = out.presences ++ [value.to_bool] := rfl

theorem enumerator_lengths (values : Bool) (out : read_tape_t) (value : value_view_t) :
    (data_enumerator values out value).lengths = out.lengths ++ [view_length value] := rfl

theorem enumerator_contents (out : read_tape_t) (value : value_view_t) :
    (data_enumerator true out value).contents = out.contents ++ value.bytes := rfl

theorem enumerator_offsets (out : read_tape_t) (value : value_view_t) :
    (data_enumerator true out value).offsets = out.offsets ++ [out.contents.length % 2 ^ 32] :=
  rfl

theorem enumerator_contents_skip (out : read_tape_t) (value : value_view_t) :
    (data_enumerator false out value).contents = out.contents := rfl

theorem enumerator_offsets_skip (out : read_tape_t) (value : value_view_t) :
    (data_enumerator false out value).offsets = out.offsets := rfl

/-- The outputs after the enumerator was called on each answer of a run. -/
theorem enumerate_outputs (l : List (rocks_status_t × List byte_t)) (out : read_tape_t) :
    (l.foldl (fun o a => data_enumerator true o (view_of_answer a)) out).presences
      = out.presences ++ l.map (fun a => (view_of_answer a).to_bool) ∧
    (l.foldl (fun o a => data_enumerator true o (view_of_answer a)) out).lengths
      = out.lengths ++ l.map (fun a => view_length (view_of_answer a)) ∧
    (l.foldl (fun o a => data_enumerator true o (view_of_answer a)) out).contents
      = out.contents ++ (l.map answer_bytes).flatten ∧
    (l.foldl (fun o a => data_enumerator true o (view_of_answer a)) out).offsets
      = out.offsets ++ (List.range l.length).map (fun i =>
          (out.contents.length + ((l.take i).map answer_bytes).flatten.length) % 2 ^ 32) := by
  induction l using List.reverseRecOn with
  | nil => simp
  | append_singleton l a ih =>
    obtain ⟨h1, h2, h3, h4⟩ := ih
    rw [enumerate_snoc]
    refine ⟨?_, ?_, ?_, ?_⟩
    · rw [enumerator_presences, h1]; simp
    · rw [enumerator_lengths, h2]; simp
    · rw [enumerator_contents, h3]; simp [answer_bytes]
    · rw [enumerator_offsets, h4, h3]
      simp only [List.length_append, List.length_singleton, List.range_succ, List.map_append,
        List.map_cons, List.map_nil, List.append_assoc]
      congr 1
      congr 1
      · apply List.map_congr_left
        intro i hi
        have hi : i < l.length := List.mem_range.mp hi
        rw [List.take_append_of_le_length (by omega)]
      · simp


/-- A read of at least one place in which the store fails on no place: every output,
cell by cell. -/
theorem ukv_read_ok (db : rocks_db_t) (txn : Option rocks_txn_t) (places : List place_t)
    (options : ukv_options_t) (hne : places ≠ [])
    (hok : ∀ a ∈ store_answers db txn places, a.1.fails = false) :
    (ukv_read
      { db := some db, transaction := txn, places := places, options := options,
        values := true, validation := none }).presences
      = (store_answers db txn places).map (fun a => (view_of_answer a).to_bool) ∧
    (ukv_read
      { db := some db, transaction := txn, places := places, options := options,
        values := true, validation := none }).lengths
      = (store_answers db txn places).map (fun a => view_length (view_of_answer a)) ∧
    (ukv_read
      { db := some db, transaction := txn, places := places, options := options,
        values := true, validation := none }).contents
      = ((store_answers db txn places).map answer_bytes).flatten ∧
    (ukv_read
      { db := some db, transaction := txn, places := places, options := options,
        values := true, validation := none }).all_offsets
      = (List.range (places.length + 1)).map (fun i =>
          (((store_answers db txn places).take i).map answer_bytes).flatten.length % 2 ^ 32) ∧
    (ukv_read
      { db := some db, transaction := txn, places := places, options := options,
        values := true, validation := none }).error = none := by
  obtain ⟨h1, h2, h3, h4, h5, h6⟩ := ukv_read_eq_loop db txn places options true hne
  have hloop := read_many_loop_ok true (store_answers db txn places) read_tape_t.empty none hok
  obtain ⟨e1, e2, e3, e4⟩ := enumerate_outputs (store_answers db txn places) read_tape_t.empty
  have hlen : (store_answers db txn places).length = places.length := by
    simp [store_answers]
  rw [hloop] at h1 h2 h3 h4 h5 h6
  simp only at h1 h2 h3 h4 h5 h6
  refine ⟨?_, ?_, ?_, ?_, h6⟩
  · rw [h1, e1]; rfl
  · rw [h2, e2]; rfl
  · rw [h4, e3]; rfl
  · unfold read_result_t.all_offsets
    rw [h3, h5, e4, e3, List.range_succ, List.map_append, hlen]
    simp only [read_tape_t.empty, List.nil_append, List.length_nil, Nat.zero_add,
      Option.toList_some, List.map_cons, List.map_nil]
    congr 2
    rw [← hlen, List.take_length]

/-! ## The layout of the contents tape -/

theorem answer_bytes_eq_found (a : rocks_status_t × List byte_t) (hok : a.1.fails = false)
    (hlen : a.2.length < 2 ^ 32 - 1) : answer_bytes a = found_value a := by
  obtain ⟨s, v⟩ := a
  have hp := of_store_bytes v hlen
  cases s <;>
    simp_all [answer_bytes, found_value, view_of_answer, rocks_status_t.fails,
      rocks_status_t.IsNotFound, rocks_status_t.ok]
  decide

theorem map_answer_bytes_eq_found (l : List (rocks_status_t × List byte_t))
    (hok : ∀ a ∈ l, a.1.fails = false) (hlen : ∀ a ∈ l, a.2.length < 2 ^ 32 - 1) :
    l.map answer_bytes = l.map found_value := by
  apply List.map_congr_left
  intro a ha
  exact answer_bytes_eq_found a (hok a ha) (hlen a ha)

theorem flatten_take_le {α β : Type} (f : α → List β) (l : List α) (i : Nat) :
    ((l.take i).map f).flatten.length ≤ (l.map f).flatten.length := by
  conv_rhs => rw [← List.take_append_drop i l]
  rw [List.map_append, List.flatten_append, List.length_append]
  omega

/-- The bytes of an item lie in the concatenation right after the items before it. -/
theorem flatten_slice {α β : Type} (f : α → List β) (pre post : List α) (x : α) :
    ((((pre ++ x :: post).map f).flatten).drop ((pre.map f).flatten.length)).take (f x).length
      = f x := by
  rw [List.map_append, List.flatten_append, List.map_cons, List.flatten_cons,
    List.drop_left, List.take_left]

/-! ## The scan -/

theorem list_fold (columns : List rocks_collection_t) (out : list_tape_t) :
    (columns.foldl list_step out).ids
      = out.ids ++ ((columns.filter (fun h => !(h.name == kDefaultColumnFamilyName))).map
          (fun h => h.address)) ∧
    (columns.foldl list_step out).names
      = out.names ++ ((columns.filter (fun h => !(h.name == kDefaultColumnFamilyName))).map
          (fun h => h.name.toList ++ [Char.ofNat 0])).flatten := by
  induction columns generalizing out with
  | nil => simp
  | cons h rest ih =>
    rw [List.foldl_cons]
    obtain ⟨h1, h2⟩ := ih (list_step out h)
    rw [h1, h2]
    unfold list_step
    cases hd : h.name == kDefaultColumnFamilyName
    · simp [hd]
    · simp [hd]

theorem takeWhile_name (name rest : List Char) (h : Char.ofNat 0 ∉ name) :
    (name ++ Char.ofNat 0 :: rest).takeWhile (fun ch => ch != Char.ofNat 0) = name ∧
    (name ++ Char.ofNat 0 :: rest).dropWhile (fun ch => ch != Char.ofNat 0)
      = Char.ofNat 0 :: rest := by
  induction name with
  | nil => simp
  | cons c cs ih =>
    have hc : c ≠ Char.ofNat 0 := by
      intro hc; exact h (hc ▸ List.mem_cons_self _ _)
    have hcs : Char.ofNat 0 ∉ cs := fun hm => h (List.mem_cons_of_mem _ hm)
    obtain ⟨h1, h2⟩ := ih hcs
    simp only [List.cons_append, List.takeWhile_cons, List.dropWhile_cons, bne_iff_ne, ne_eq, hc,
      not_false_eq_true, decide_True, ↓reduceIte, h1, h2, and_self]

/-- A caller reads back from the tape the names that were written to it. -/
theorem tape_names_flatten (names : List (List Char)) (h : ∀ n ∈ names, Char.ofNat 0 ∉ n) :
    tape_names names.length ((names.map (fun n => n ++ [Char.ofNat 0])).flatten) = names := by
  induction names with
  | nil => rfl
  | cons n rest ih =>
    have hn := h n (List.mem_cons_self _ _)
    have hrest := ih (fun m hm => h m (List.mem_cons_of_mem _ hm))
    obtain ⟨h1, h2⟩ := takeWhile_name n ((rest.map (fun n => n ++ [Char.ofNat 0])).flatten) hn
    simp only [List.length_cons, List.map_cons, List.flatten_cons, List.append_assoc,
      List.singleton_append, tape_names, h1, h2, List.drop_succ_cons, List.drop_zero, hrest]

/-- The columns a listing can read back: exactly one handle of the default column family,
names without a NUL, a number of handles that fits a `size_t`. -/
theorem collections_eq (db : rocks_db_t)
    (hdefault : (db.columns.filter (fun h => h.name == kDefaultColumnFamilyName)).length = 1)
    (hnul : ∀ h ∈ db.columns, Char.ofNat 0 ∉ h.name.toList)
    (hlen : db.columns.length ≤ 2 ^ 64) :
    collections db
      = (db.columns.filter (fun h => !(h.name == kDefaultColumnFamilyName))).map
          (fun h => (h.address, h.name.toList)) := by
  obtain ⟨h1, h2⟩ := list_fold db.columns { ids := [], offsets := [], names := [] }
  have hsplit : db.columns.length
      = (db.columns.filter (fun h => h.name == kDefaultColumnFamilyName)).length
        + (db.columns.filter (fun h => !(h.name == kDefaultColumnFamilyName))).length :=
    List.length_eq_length_filter_add _
  have hcount : (db.columns.length + 2 ^ 64 - 1) % 2 ^ 64
      = (db.columns.filter (fun h => !(h.name == kDefaultColumnFamilyName))).length := by
    rw [hdefault] at hsplit
    have : db.columns.length + 2 ^ 64 - 1
        = (db.columns.filter (fun h => !(h.name == kDefaultColumnFamilyName))).length
          + 2 ^ 64 := by omega
    rw [this, Nat.add_mod_right]
    apply Nat.mod_eq_of_lt
    omega
  unfold collections listed ukv_collection_list
  simp only [Bool.and_self, Bool.not_true, Bool.false_eq_true, ↓reduceIte, Option.getD_some,
    hcount, h1, h2, List.nil_append]
  have hnames : ((db.columns.filter (fun h => !(h.name == kDefaultColumnFamilyName))).map
      (fun h => h.name.toList ++ [Char.ofNat 0]))
      = (((db.columns.filter (fun h => !(h.name == kDefaultColumnFamilyName))).map
          (fun h => h.name.toList)).map (fun n => n ++ [Char.ofNat 0])) := by
    rw [List.map_map]; rfl
  have hl : (db.columns.filter (fun h => !(h.name == kDefaultColumnFamilyName))).length
      = ((db.columns.filter (fun h => !(h.name == kDefaultColumnFamilyName))).map
          (fun h => h.name.toList)).length := by simp
  rw [hnames]
  conv_lhs => rw [hl]
  rw [tape_names_flatten]
  · rw [← hl]
    have : ∀ l : List rocks_collection_t,
        List.zip ((l.map (fun h => h.address)).take l.length) (l.map (fun h => h.name.toList))
          = l.map (fun h => (h.address, h.name.toList)) := by
      intro l
      rw [List.take_of_length_le (by simp)]
      induction l with
      | nil => rfl
      | cons x xs ih => simp only [List.map_cons, List.zip_cons_cons, ih]
    exact this _
  · intro n hn
    obtain ⟨h, hh, hhn⟩ := List.mem_map.mp hn
    rw [← hhn]
    exact hnul h (List.mem_filter.mp hh).1

/-! ## Invariants: well-formed databases and ordered stores -/

theorem fresh_db_wf : fresh_db.wf := by decide

/-- A successful create keeps a database well-formed. -/
theorem create_wf (db : rocks_db_t) (name : String) (db' : rocks_db_t) (hwf : db.wf)
    (hnul : Char.ofNat 0 ∉ name.toList) (hsize : db.columns.length + 1 < 2 ^ 64)
    (hdb : (ukv_collection_create { db := some db, name := some name }).db = some db') :
    db'.wf := by
  obtain ⟨hdefault, hnodup, haddr, hnames, _, hfresh⟩ := hwf
  unfold ukv_collection_create at hdb
  simp only [Option.getD_some] at hdb
  split at hdb
  · cases hdb; exact ⟨hdefault, hnodup, haddr, hnames, by omega, hfresh⟩
  · split at hdb
    · cases hdb; exact ⟨hdefault, hnodup, haddr, hnames, by omega, hfresh⟩
    · split at hdb
      · cases hdb; exact ⟨hdefault, hnodup, haddr, hnames, by omega, hfresh⟩
      · rename_i htaken hst
        cases hdb
        -- the store has made the column family
        have hcreate : (db.native.CreateColumnFamily name).2.2 = db.native.next_handle ∧
            (db.native.CreateColumnFamily name).2.1.next_handle
              = db.native.next_handle + 1 := by
          unfold rocks_native_t.CreateColumnFamily at hst ⊢
          split at hst
          · rename_i hm
            exfalso
            apply hst
            have : db.native.manifest ≠ .kOk := by simpa using hm
            cases hc : db.native.manifest <;>
              simp_all [export_error, rocks_status_t.ok, rocks_status_t.IsCorruption,
                rocks_status_t.IsIOError, rocks_status_t.IsInvalidArgument]
          · split at hst
            · exfalso; apply hst; rfl
            · rename_i hm hany
              simp [hm, hany]
        obtain ⟨hnew, hnext⟩ := hcreate
        have hpos : 0 < (db.columns.filter
            (fun h => h.name == kDefaultColumnFamilyName)).length := by omega
        obtain ⟨d, hd⟩ := List.exists_mem_of_length_pos hpos
        obtain ⟨hd1, hd2⟩ := List.mem_filter.mp hd
        have hnd : (name == kDefaultColumnFamilyName) = false := by
          cases hc : name == kDefaultColumnFamilyName
          · rfl
          · exfalso
            apply htaken
            unfold name_taken
            rw [List.any_eq_true]
            rw [beq_iff_eq] at hd2 hc
            exact ⟨d, hd1, by simp [haddr d hd1, hd2, hc]⟩
        refine ⟨?_, ?_, ?_, ?_, ?_, ?_⟩
        · simp [List.filter_append, hnd, hdefault]
        · simp only [List.map_append, List.map_cons, List.map_nil]
          rw [List.nodup_append]
          refine ⟨hnodup, List.nodup_singleton _, ?_⟩
          intro a ha hb
          rw [List.mem_singleton] at hb
          obtain ⟨h, hh, hha⟩ := List.mem_map.mp ha
          have := hfresh h hh
          omega
        · intro h hh
          rcases List.mem_append.mp hh with h1 | h1
          · exact haddr h h1
          · rw [List.mem_singleton] at h1
            rw [h1]
            have := hfresh d hd1
            have := haddr d hd1
            simp only [ne_eq]
            omega
        · intro h hh
          rcases List.mem_append.mp hh with h1 | h1
          · exact hnames h h1
          · rw [List.mem_singleton] at h1
            rw [h1]; exact hnul
        · simp only [List.length_append, List.length_singleton]
          exact hsize
        · intro h hh
          simp only [hnext]
          rcases List.mem_append.mp hh with h1 | h1
          · have := hfresh h h1; omega
          · rw [List.mem_singleton] at h1
            rw [h1]
            simp only [hnew]
            omega

theorem entries_put_ordered (key : slice_t) (value : List byte_t) (entries : List entry_t)
    (h : entries.Pairwise (fun a b => key_comparator_t.Compare a.1 b.1 < 0)) :
    (entries_put key value entries).Pairwise
      (fun a b => key_comparator_t.Compare a.1 b.1 < 0) := by
  induction entries with
  | nil => simp [entries_put]
  | cons e rest ih =>
    have hrest := List.Pairwise.of_cons h
    have hhead : ∀ x ∈ rest, key_comparator_t.Compare e.1 x.1 < 0 :=
      fun x hx => List.rel_of_pairwise_cons h hx
    unfold entries_put
    split
    · rename_i h0
      rw [List.pairwise_cons]
      refine ⟨?_, hrest⟩
      intro x hx
      have h1 := (Compare_eq_zero _ _).mp h0
      have h2 := (Compare_neg _ _).mp (hhead x hx)
      apply (Compare_neg _ _).mpr
      show as_key key < as_key x.1
      rw [h1]; exact h2
    · split
      · rename_i h0 h1
        rw [List.pairwise_cons]
        refine ⟨?_, h⟩
        intro x hx
        have hk := (Compare_neg _ _).mp h1
        rcases List.mem_cons.mp hx with hxe | hxr
        · rw [hxe]; exact h1
        · have h2 := (Compare_neg _ _).mp (hhead x hxr)
          apply (Compare_neg _ _).mpr
          exact lt_trans hk h2
      · rename_i h0 h1
        rw [List.pairwise_cons]
        refine ⟨?_, ih hrest⟩
        intro x hx
        rcases mem_entries_put key value rest x hx with hxk | hxr
        · rw [hxk]
          apply (Compare_neg _ _).mpr
          have hne : ¬ as_key key = as_key e.1 := fun hc => h0 ((Compare_eq_zero _ _).mpr hc)
          have hnl : ¬ as_key key < as_key e.1 := fun hc => h1 ((Compare_neg _ _).mpr hc)
          show as_key e.1 < as_key key
          omega
        · exact hhead x hxr

/-- Every operation of a batch keeps the store in comparator order. -/
theorem apply_ordered (native : rocks_native_t) (op : batch_op_t) (h : native.ordered) :
    (native.apply op).ordered := by
  intro f hf
  unfold rocks_native_t.apply at hf
  simp only [List.mem_map] at hf
  obtain ⟨g, hg, hgf⟩ := hf
  have hgo := h g hg
  split at hgf
  · rw [← hgf]
    cases op with
    | Put c k v => exact entries_put_ordered k v g.entries hgo
    | Delete c k => exact hgo.sublist (List.filter_sublist _)
  · rw [← hgf]; exact hgo

/-- On an ordered store the iterator of a scan outside a transaction enumerates the keys
of a collection in comparator order. -/
theorem NewIterator_ordered (native : rocks_native_t) (collection : Nat) (h : native.ordered) :
    (native.NewIterator collection).Pairwise
      (fun a b => key_comparator_t.Compare a.1 b.1 < 0) := by
  unfold rocks_native_t.NewIterator rocks_native_t.family
  cases hf : native.families.find? (fun f => f.handle == collection) with
  | none => exact List.Pairwise.nil
  | some f => exact h f (List.mem_of_find?_eq_some hf)

/-- C1: for every collection, key and non-empty value (one that holds bytes), after
a non-transactional `ukv_write` of the place succeeds, a `ukv_read` of the same place,
outside a transaction or inside one that holds no write of its own for the key, reports
presence = true, length = the byte length of the value, and, when the values are asked
for, contents equal to the written bytes, at offset 0. -/
theorem C1_write_then_read (db : rocks_db_t) (place : place_t) (content : value_view_t)
    (w_options r_options : ukv_options_t) (validation : ukv_error_t) (values : Bool)
    (txn : Option rocks_txn_t)
    (hpresent : content.to_bool = true) (hlength : content.length_ < 2 ^ 32)
    (hok : (ukv_write
      { db := some db, transaction := none, places := [place], contents := [content],
        options := w_options, validation := validation }).error = none)
    (htxn : ∀ t, txn = some t →
      t.pending (rocks_collection db place.collection) (to_slice place.key) = none) :
    (ukv_read
      { db := (ukv_write
          { db := some db, transaction := none, places := [place], contents := [content],
            options := w_options, validation := validation }).db
        transaction := txn, places := [place], options := r_options, values := values,
        validation := none }).error = none ∧
    (ukv_read
      { db := (ukv_write
          { db := some db, transaction := none, places := [place], contents := [content],
            options := w_options, validation := validation }).db
        transaction := txn, places := [place], options := r_options, values := values,
        validation := none }).presences = [true] ∧
    (ukv_read
      { db := (ukv_write
          { db := some db, transaction := none, places := [place], contents := [content],
            options := w_options, validation := validation }).db
        transaction := txn, places := [place], options := r_options, values := values,
        validation := none }).lengths = [content.bytes.length] ∧
    (values = true →
      (ukv_read
        { db := (ukv_write
            { db := some db, transaction := none, places := [place], contents := [content],
              options := w_options, validation := validation }).db
          transaction := txn, places := [place], options := r_options, values := values,
          validation := none }).contents = content.bytes ∧
      (ukv_read
        { db := (ukv_write
            { db := some db, transaction := none, places := [place], contents := [content],
              options := w_options, validation := validation }).db
          transaction := txn, places := [place], options := r_options, values := values,
          validation := none }).all_offsets = [0, content.bytes.length]) := by
  obtain ⟨hh, hdb⟩ := write_one_place_ok db place content w_options validation hok
  have hcall : db_write_call (rocks_collection db place.collection) (to_slice place.key) content
      = .Put (rocks_collection db place.collection) (to_slice place.key) content.bytes := by
    simp [db_write_call, hpresent, value_to_slice]
  have hlt := present_bytes_lt content hpresent hlength
  obtain ⟨hb, hs, hbytes⟩ := of_store_present content.bytes hlt
    (present_bytes_ne content hpresent)
  have hmod : content.bytes.length % 2 ^ 32 = content.bytes.length :=
    Nat.mod_eq_of_lt (by omega)
  rw [hdb, hcall]
  have hcol := rocks_collection_apply db
    (.Put (rocks_collection db place.collection) (to_slice place.key) content.bytes)
    place.collection
  have hget := Get_after_put db.native _ _ content.bytes hh
  have hhealth := health_apply db.native
    (.Put (rocks_collection db place.collection) (to_slice place.key) content.bytes)
    (rocks_collection db place.collection) (to_slice place.key)
  -- the answer of the store
  have hans : store_answers
      { columns := db.columns
        native := db.native.apply
          (.Put (rocks_collection db place.collection) (to_slice place.key) content.bytes)
        mutex := db.mutex } txn [place] = [(.kOk, content.bytes)] := by
    unfold store_answers
    simp only [List.map_cons, List.map_nil, hcol]
    cases txn with
    | none => simp only [hget]
    | some t =>
      simp only [rocks_txn_t.Get, hhealth, hh, bne_self_eq_false, Bool.false_eq_true,
        ↓reduceIte, htxn t rfl, hget]
  have hview : view_of_answer (rocks_status_t.kOk, content.bytes)
      = value_view_t.of_store content.bytes := by
    simp [view_of_answer, rocks_status_t.IsNotFound]
  have hnofail : ∀ a ∈ [((rocks_status_t.kOk, content.bytes) :
      rocks_status_t × List byte_t)], a.1.fails = false := by
    intro a ha
    rw [List.mem_singleton] at ha
    rw [ha]; rfl
  obtain ⟨h1, h2, h3, h4, h5, h6⟩ := ukv_read_eq_loop
    { columns := db.columns
      native := db.native.apply
        (.Put (rocks_collection db place.collection) (to_slice place.key) content.bytes)
      mutex := db.mutex } txn [place] r_options values (by simp)
  rw [hans, read_many_loop_ok values _ _ _ hnofail] at h1 h2 h3 h4 h5 h6
  simp only [List.foldl_cons, List.foldl_nil, hview] at h1 h2 h3 h4 h5 h6
  refine ⟨h6, ?_, ?_, ?_⟩
  · rw [h1, enumerator_presences, hb]; rfl
  · rw [h2, enumerator_lengths]
    simp only [view_length, hb, ↓reduceIte, hs, hmod]
    rfl
  · intro hv
    subst hv
    constructor
    · rw [h4, enumerator_contents, hbytes]; rfl
    · unfold read_result_t.all_offsets
      rw [h3, h5, enumerator_offsets, enumerator_contents, hbytes]
      simp only [read_tape_t.empty, List.nil_append, List.length_nil, Nat.zero_mod, hmod,
        Option.toList_some, List.singleton_append]

/-- C1 on a fresh database: the five bytes of `hello` written at key 42 of the main
collection are reported as present, with length 5. -/
theorem C1_write_then_read_witness :
    (ukv_read
      { db := (ukv_write
          { db := some fresh_db, transaction := none, places := [{ collection := 0, key := 42 }],
            contents := [hello], options := ukv_options_default_k, validation := none }).db
        transaction := none, places := [{ collection := 0, key := 42 }],
        options := ukv_options_default_k, values := true, validation := none }).presences
      = [true] ∧
    (ukv_read
      { db := (ukv_write
          { db := some fresh_db, transaction := none, places := [{ collection := 0, key := 42 }],
            contents := [hello], options := ukv_options_default_k, validation := none }).db
        transaction := none, places := [{ collection := 0, key := 42 }],
        options := ukv_options_default_k, values := true, validation := none }).lengths
      = [5] :=
  ⟨(C1_write_then_read fresh_db { collection := 0, key := 42 } hello
      ukv_options_default_k ukv_options_default_k none true none (by decide) (by decide)
      (by decide) (fun t ht => by cases ht)).2.1,
   (C1_write_then_read fresh_db { collection := 0, key := 42 } hello
      ukv_options_default_k ukv_options_default_k none true none (by decide) (by decide)
      (by decide) (fun t ht => by cases ht)).2.2.1⟩

/-- C3 as amended: for every place whose key the store reports as not found and before
which the store failed on no place of the batch, `ukv_read` (the single-place and the
multi-place path alike) sets the presence bit of the place to false and its length to
`ukv_length_missing_k`; the step of the loops for such a place appends no bytes to the
contents tape and leaves the error slot as it was, so the next offset equals the offset
of the place, and a batch on which the store never fails leaves the error slot empty. -/
theorem C3_not_found_is_no_error (db : rocks_db_t) (txn : Option rocks_txn_t)
    (places : List place_t) (options : ukv_options_t) (values : Bool) (i : Nat)
    (hi : i < places.length)
    (hnf : ((store_answers db txn places)[i]?).map (fun a => a.1) = some .kNotFound)
    (hbefore : ∀ j a, j < i → (store_answers db txn places)[j]? = some a → a.1.fails = false) :
    (ukv_read
      { db := some db, transaction := txn, places := places, options := options,
        values := values, validation := none }).presences[i]? = some false ∧
    (ukv_read
      { db := some db, transaction := txn, places := places, options := options,
        values := values, validation := none }).lengths[i]? = some ukv_length_missing_k ∧
    (∀ (out : read_tape_t) (e : ukv_error_t) (v : List byte_t),
      read_export values (.kNotFound, v) out e
        = (some (data_enumerator values out value_view_t.missing), e) ∧
      (data_enumerator values out value_view_t.missing).contents = out.contents) ∧
    ((∀ a ∈ store_answers db txn places, a.1.fails = false) →
      (ukv_read
        { db := some db, transaction := txn, places := places, options := options,
          values := values, validation := none }).error = none ∧
      (ukv_read
        { db := some db, transaction := txn, places := places, options := options,
          values := true, validation := none }).all_offsets[i + 1]?
        = (ukv_read
          { db := some db, transaction := txn, places := places, options := options,
            values := true, validation := none }).all_offsets[i]?) := by
  have hne : places ≠ [] := by
    intro h; rw [h] at hi; simp at hi
  have hlen : (store_answers db txn places).length = places.length := by
    simp [store_answers]
  have hil : i < (store_answers db txn places).length := by omega
  have hmiss_bool : value_view_t.missing.to_bool = false := by decide
  have hmiss_bytes : value_view_t.missing.bytes = [] := by decide
  -- the answer for place i
  have hai : ((store_answers db txn places)[i]).1 = .kNotFound := by
    rw [List.getElem?_eq_getElem hil] at hnf
    simpa using hnf
  have hview : view_of_answer ((store_answers db txn places)[i]) = value_view_t.missing := by
    simp [view_of_answer, hai, rocks_status_t.IsNotFound]
  have hnofail : ((store_answers db txn places)[i]).1.fails = false := by
    rw [hai]; decide
  -- the answers before place i
  have hpre : ∀ a ∈ (store_answers db txn places).take i, a.1.fails = false := by
    intro a ha
    obtain ⟨j, hj, hja⟩ := List.mem_iff_getElem.mp ha
    rw [List.length_take] at hj
    have hj1 : j < i := by omega
    have hj2 : j < (store_answers db txn places).length := by omega
    apply hbefore j a hj1
    rw [List.getElem_take] at hja
    rw [List.getElem?_eq_getElem hj2, hja]
  have hsplit := split_at_index (store_answers db txn places) i hil
  obtain ⟨h1, h2, _, _, _, h6⟩ := ukv_read_eq_loop db txn places options values hne
  -- the loop after the first i places and the place i
  have hloop : read_many_loop values (store_answers db txn places) read_tape_t.empty none
      = read_many_loop values ((store_answers db txn places).drop (i + 1))
          (data_enumerator values
            (((store_answers db txn places).take i).foldl
              (fun o a => data_enumerator values o (view_of_answer a)) read_tape_t.empty)
            value_view_t.missing) none := by
    conv_lhs => rw [hsplit]
    rw [read_many_loop_append values _ _ _ _ hpre, read_many_loop,
      read_export_ok values _ _ _ hnofail, hview]
  obtain ⟨⟨s1, hs1⟩, ⟨s2, hs2⟩⟩ := read_many_loop_extends values
    ((store_answers db txn places).drop (i + 1))
    (data_enumerator values
      (((store_answers db txn places).take i).foldl
        (fun o a => data_enumerator values o (view_of_answer a)) read_tape_t.empty)
      value_view_t.missing) none
  obtain ⟨hl1, hl2⟩ := enumerate_lengths values ((store_answers db txn places).take i)
    read_tape_t.empty
  have htake : ((store_answers db txn places).take i).length = i := by
    rw [List.length_take]; omega
  have hidx1 : (((store_answers db txn places).take i).foldl
      (fun o a => data_enumerator values o (view_of_answer a))
      read_tape_t.empty).presences.length = i := by
    rw [hl1, htake]; simp [read_tape_t.empty]
  have hidx2 : (((store_answers db txn places).take i).foldl
      (fun o a => data_enumerator values o (view_of_answer a))
      read_tape_t.empty).lengths.length = i := by
    rw [hl2, htake]; simp [read_tape_t.empty]
  refine ⟨?_, ?_, ?_, ?_⟩
  · rw [h1, hloop, hs1, enumerator_presences, List.append_assoc,
      List.getElem?_append_right (by rw [hidx1]), hidx1]
    simp [hmiss_bool]
  · rw [h2, hloop, hs2, enumerator_lengths, List.append_assoc,
      List.getElem?_append_right (by rw [hidx2]), hidx2]
    simp [view_length, hmiss_bool]
  · intro out e v
    constructor
    · simp [read_export, rocks_status_t.IsNotFound]
    · cases values <;> simp [data_enumerator, hmiss_bytes]
  · intro hall
    constructor
    · rw [h6, read_many_loop_ok values _ _ _ hall]
    · obtain ⟨_, _, _, h4, _⟩ := ukv_read_ok db txn places options hne hall
      rw [h4]
      rw [List.getElem?_map, List.getElem?_map, List.getElem?_range (by omega),
        List.getElem?_range (by omega)]
      simp only [Option.map_some', Option.some.injEq]
      have : (store_answers db txn places).take (i + 1)
          = (store_answers db txn places).take i ++ [(store_answers db txn places)[i]] := by
        rw [List.take_succ, List.getElem?_eq_getElem hil]; rfl
      rw [this, List.map_append, List.flatten_append, List.length_append]
      simp only [List.map_cons, List.map_nil, List.flatten_cons, List.flatten_nil, answer_bytes,
        hview, hmiss_bytes, List.append_nil, List.length_nil, Nat.add_zero]

/-- C3 on the database that holds `hello` at key 42: in a read of the keys 42 and 7, the
key 7 is reported as missing. -/
theorem C3_not_found_is_no_error_witness :
    ((store_answers hello_db none
        [{ collection := 0, key := 42 }, { collection := 0, key := 7 }])[1]?).map (fun a => a.1)
      = some .kNotFound ∧
    (ukv_read
      { db := some hello_db, transaction := none,
        places := [{ collection := 0, key := 42 }, { collection := 0, key := 7 }],
        options := ukv_options_default_k, values := true,
        validation := none }).presences[1]? = some false :=
  ⟨by decide,
   (C3_not_found_is_no_error hello_db none
      [{ collection := 0, key := 42 }, { collection := 0, key := 7 }]
      ukv_options_default_k true 1 (by decide) (by decide)
      (fun j a hj h => by
        have hj0 : j = 0 := by omega
        subst hj0
        have hval : (store_answers hello_db none
            [{ collection := 0, key := 42 }, { collection := 0, key := 7 }])[0]?
            = some (.kOk, [104, 101, 108, 108, 111]) := by decide
        rw [hval] at h
        cases h
        rfl)).1⟩

/-- C3 fails for a place that follows a failure of the store: in a read of the keys 13
and 7, the store answers an I/O error for 13 and `not found` for 7; the loop of
`read_many` returns at the first, so the presence bit and the length of the second are
never written, and the error slot is not empty. -/
theorem C3_after_failure_counterexample :
    store_answers faulty_db none
        [{ collection := 0, key := 13 }, { collection := 0, key := 7 }]
      = [(.kIOError, []), (.kNotFound, [])] ∧
    (ukv_read
      { db := some faulty_db, transaction := none,
        places := [{ collection := 0, key := 13 }, { collection := 0, key := 7 }],
        options := ukv_options_default_k, values := true,
        validation := none }).presences[1]? = none ∧
    (ukv_read
      { db := some faulty_db, transaction := none,
        places := [{ collection := 0, key := 13 }, { collection := 0, key := 7 }],
        options := ukv_options_default_k, values := true,
        validation := none }).lengths[1]? = none ∧
    (ukv_read
      { db := some faulty_db, transaction := none,
        places := [{ collection := 0, key := 13 }, { collection := 0, key := 7 }],
        options := ukv_options_default_k, values := true,
        validation := none }).error
      = some { message := "Failure: IO  Error", code := none } := by
  decide

/-! ## The claims -/

/-- C4: for all 8-byte key slices `a` and `b`, read as the signed 64-bit integers `ai` and
`bi`, `key_comparator_t::Compare(a, b)` returns -1 when `ai < bi`, 0 when `ai = bi` and 1
when `ai > bi`; so a negative key compares before every non-negative key, and keys of
equal integer value compare equal (and only the same eight bytes do). -/
theorem C4_compare_is_signed_order (a b : slice_t) (ha : a.length = 8) (hb : b.length = 8) :
    (as_key a < as_key b → key_comparator_t.Compare a b = -1) ∧
    (as_key a = as_key b → key_comparator_t.Compare a b = 0) ∧
    (as_key b < as_key a → key_comparator_t.Compare a b = 1) ∧
    (as_key a < 0 → 0 ≤ as_key b → key_comparator_t.Compare a b = -1) ∧
    (key_comparator_t.Compare a b = 0 ↔ a = b) ∧
    is_i64 (as_key a) ∧ is_i64 (as_key b) := by
  have key : ∀ x y : Int, ((if x = y then (0 : Int) else if x < y then -1 else 1) = -1 ↔ x < y) ∧
      ((if x = y then (0 : Int) else if x < y then -1 else 1) = 0 ↔ x = y) ∧
      ((if x = y then (0 : Int) else if x < y then -1 else 1) = 1 ↔ y < x) := by
    intro x y
    refine ⟨?_, ?_, ?_⟩ <;> split <;> try split
    all_goals omega
  have hk := key (as_key a) (as_key b)
  have hc : key_comparator_t.Compare a b =
      (if as_key a = as_key b then (0 : Int) else if as_key a < as_key b then -1 else 1) := rfl
  refine ⟨fun h => ?_, fun h => ?_, fun h => ?_, fun h1 h2 => ?_, ⟨fun h => ?_, fun h => ?_⟩,
    as_key_is_i64 a, as_key_is_i64 b⟩
  · rw [hc]; exact hk.1.mpr h
  · rw [hc]; exact hk.2.1.mpr h
  · rw [hc]; exact hk.2.2.mpr h
  · rw [hc]; exact hk.1.mpr (lt_of_lt_of_le h1 h2)
  · exact as_key_injective a b ha hb ((Compare_eq_zero a b).mp h)
  · rw [h]; exact Compare_refl b

/-- C4 at the keys -5 and 3: the slice of -5 compares before the slice of 3. -/
theorem C4_compare_is_signed_order_witness :
    key_comparator_t.Compare (to_slice (-5)) (to_slice 3) = -1 :=
  (C4_compare_is_signed_order (to_slice (-5)) (to_slice 3) rfl rfl).2.2.2.1
    (by decide) (by decide)

/-- C7 as amended: for every non-empty batch of n places read with the values asked for,
on which the store fails on no place, whose stored values are shorter than 2^32 - 1 bytes
and whose tape is shorter than 2^32 bytes, `ukv_read` returns a concatenated tape such that
`offsets[i]` is the total size of the values of the places before `i`, `offsets[n]` is the
total length of the tape, and for every present place `i` (the store holds bytes for its
key) the tape bytes `[offsets[i], offsets[i] + lengths[i])` equal the stored value; absent
places (the key is not found, or its stored value has no bytes) contribute zero bytes. -/
theorem C7_read_tape_layout (db : rocks_db_t) (txn : Option rocks_txn_t)
    (places : List place_t) (options : ukv_options_t) (hne : places ≠ [])
    (hok : ∀ a ∈ store_answers db txn places, a.1.fails = false)
    (hvalues : ∀ a ∈ store_answers db txn places, a.2.length < 2 ^ 32 - 1)
    (htape : ((store_answers db txn places).map found_value).flatten.length < 2 ^ 32) :
    (ukv_read
      { db := some db, transaction := txn, places := places, options := options,
        values := true, validation := none }).error = none ∧
    (ukv_read
      { db := some db, transaction := txn, places := places, options := options,
        values := true, validation := none }).contents
      = ((store_answers db txn places).map found_value).flatten ∧
    (∀ i, i ≤ places.length →
      (ukv_read
        { db := some db, transaction := txn, places := places, options := options,
          values := true, validation := none }).all_offsets[i]?
        = some (((store_answers db txn places).take i).map found_value).flatten.length) ∧
    (ukv_read
      { db := some db, transaction := txn, places := places, options := options,
        values := true, validation := none }).all_offsets[places.length]?
      = some (ukv_read
        { db := some db, transaction := txn, places := places, options := options,
          values := true, validation := none }).contents.length ∧
    (∀ i value, (store_answers db txn places)[i]? = some (.kOk, value) → value ≠ [] →
      (ukv_read
        { db := some db, transaction := txn, places := places, options := options,
          values := true, validation := none }).presences[i]? = some true ∧
      (ukv_read
        { db := some db, transaction := txn, places := places, options := options,
          values := true, validation := none }).lengths[i]? = some value.length ∧
      (((ukv_read
        { db := some db, transaction := txn, places := places, options := options,
          values := true, validation := none }).contents).drop
          (((store_answers db txn places).take i).map found_value).flatten.length).take
          value.length = value) ∧
    (∀ i, (store_answers db txn places)[i]? = some (.kOk, []) →
      (ukv_read
        { db := some db, transaction := txn, places := places, options := options,
          values := true, validation := none }).presences[i]? = some false ∧
      (ukv_read
        { db := some db, transaction := txn, places := places, options := options,
          values := true, validation := none }).lengths[i]? = some ukv_length_missing_k ∧
      (((store_answers db txn places).take (i + 1)).map found_value).flatten.length
        = (((store_answers db txn places).take i).map found_value).flatten.length) ∧
    (∀ i value, (store_answers db txn places)[i]? = some (.kNotFound, value) →
      (ukv_read
        { db := some db, transaction := txn, places := places, options := options,
          values := true, validation := none }).presences[i]? = some false ∧
      (ukv_read
        { db := some db, transaction := txn, places := places, options := options,
          values := true, validation := none }).lengths[i]? = some ukv_length_missing_k ∧
      (((store_answers db txn places).take (i + 1)).map found_value).flatten.length
        = (((store_answers db txn places).take i).map found_value).flatten.length) := by
  obtain ⟨h1, h2, h3, h4, h5⟩ := ukv_read_ok db txn places options hne hok
  have hmap := map_answer_bytes_eq_found _ hok hvalues
  have hlen : (store_answers db txn places).length = places.length := by
    simp [store_answers]
  have htake : ∀ i, ((store_answers db txn places).take i).map answer_bytes
      = ((store_answers db txn places).take i).map found_value := by
    intro i
    apply map_answer_bytes_eq_found
    · intro a ha; exact hok a (List.mem_of_mem_take ha)
    · intro a ha; exact hvalues a (List.mem_of_mem_take ha)
  have hoff : ∀ i, i ≤ places.length →
      (ukv_read
        { db := some db, transaction := txn, places := places, options := options,
          values := true, validation := none }).all_offsets[i]?
        = some (((store_answers db txn places).take i).map found_value).flatten.length := by
    intro i hi
    rw [h4, List.getElem?_map, List.getElem?_range (by omega)]
    simp only [Option.map_some', Option.some.injEq]
    rw [htake i]
    apply Nat.mod_eq_of_lt
    have := flatten_take_le found_value (store_answers db txn places) i
    omega
  have hcont : (ukv_read
      { db := some db, transaction := txn, places := places, options := options,
        values := true, validation := none }).contents
      = ((store_answers db txn places).map found_value).flatten := by
    rw [h3, hmap]
  refine ⟨h5, hcont, hoff, ?_, ?_, ?_, ?_⟩
  · rw [hoff _ (le_refl _), hcont, ← hlen, List.take_length]
  · intro i value hi hvalue
    have hil : i < (store_answers db txn places).length := by
      by_contra hc
      rw [List.getElem?_eq_none (by omega)] at hi
      cases hi
    have hget : (store_answers db txn places)[i] = (.kOk, value) := by
      rw [List.getElem?_eq_getElem hil] at hi
      exact Option.some.inj hi
    have hvl : value.length < 2 ^ 32 - 1 := by
      have := hvalues _ (List.getElem_mem hil)
      rw [hget] at this
      exact this
    obtain ⟨hb, hs, hbytes⟩ := of_store_present value hvl hvalue
    have hview : view_of_answer (rocks_status_t.kOk, value) = value_view_t.of_store value := by
      simp [view_of_answer, rocks_status_t.IsNotFound]
    refine ⟨?_, ?_, ?_⟩
    · rw [h1, List.getElem?_map, hi]
      simp [hview, hb]
    · rw [h2, List.getElem?_map, hi]
      have hmod : value.length % 2 ^ 32 = value.length := Nat.mod_eq_of_lt (by omega)
      simp only [Option.map_some', hview, view_length, hb, ↓reduceIte, hs, hmod]
    · rw [hcont]
      have hsplit := split_at_index (store_answers db txn places) i hil
      rw [hget] at hsplit
      have hfv : found_value (rocks_status_t.kOk, value) = value := by simp [found_value]
      have := flatten_slice found_value ((store_answers db txn places).take i)
        ((store_answers db txn places).drop (i + 1)) (rocks_status_t.kOk, value)
      rw [← hsplit, hfv] at this
      exact this
  · intro i hi
    have hview : view_of_answer (rocks_status_t.kOk, ([] : List byte_t))
        = value_view_t.of_store [] := by
      simp [view_of_answer, rocks_status_t.IsNotFound]
    have hempty := of_store_empty
    refine ⟨?_, ?_, ?_⟩
    · rw [h1, List.getElem?_map, hi]
      simp [hview, hempty]
    · rw [h2, List.getElem?_map, hi]
      simp [hview, view_length, hempty]
    · rw [List.take_succ, hi]
      simp [found_value]
  · intro i value hi
    have hil : i < (store_answers db txn places).length := by
      by_contra hc
      rw [List.getElem?_eq_none (by omega)] at hi
      cases hi
    have hview : view_of_answer (rocks_status_t.kNotFound, value) = value_view_t.missing := by
      simp [view_of_answer, rocks_status_t.IsNotFound]
    have hmiss_bool : value_view_t.missing.to_bool = false := by decide
    refine ⟨?_, ?_, ?_⟩
    · rw [h1, List.getElem?_map, hi]
      simp [hview, hmiss_bool]
    · rw [h2, List.getElem?_map, hi]
      simp [hview, view_length, hmiss_bool]
    · rw [List.take_succ, hi]
      simp [found_value]

/-- C7 on the database that holds `hello` at key 42: a read of the keys 42, 7 and 42 gives
the tape `hellohello`, and the third value starts at offset 5. -/
theorem C7_read_tape_layout_witness :
    (ukv_read
      { db := some hello_db, transaction := none,
        places := [{ collection := 0, key := 42 }, { collection := 0, key := 7 },
          { collection := 0, key := 42 }],
        options := ukv_options_default_k, values := true,
        validation := none }).contents
      = [104, 101, 108, 108, 111, 104, 101, 108, 108, 111] ∧
    (ukv_read
      { db := some hello_db, transaction := none,
        places := [{ collection := 0, key := 42 }, { collection := 0, key := 7 },
          { collection := 0, key := 42 }],
        options := ukv_options_default_k, values := true,
        validation := none }).all_offsets[2]? = some 5 :=
  ⟨(C7_read_tape_layout hello_db none
      [{ collection := 0, key := 42 }, { collection := 0, key := 7 },
        { collection := 0, key := 42 }]
      ukv_options_default_k (by decide) (by decide) (by decide) (by decide)).2.1,
   (C7_read_tape_layout hello_db none
      [{ collection := 0, key := 42 }, { collection := 0, key := 7 },
        { collection := 0, key := 42 }]
      ukv_options_default_k (by decide) (by decide) (by decide) (by decide)).2.2.1 2
      (by decide)⟩

/-- C7 fails for the empty batch: `ukv_read` returns before it allocates its outputs, so
the call succeeds and yet the cell `offsets[0]`, which the claim makes the total length
of the tape, is never written. -/
theorem C7_empty_batch_counterexample :
    (ukv_read
      { db := some hello_db, transaction := none, places := [],
        options := ukv_options_default_k, values := true, validation := none }).error = none ∧
    (ukv_read
      { db := some hello_db, transaction := none, places := [],
        options := ukv_options_default_k, values := true, validation := none }).all_offsets[0]?
      = none ∧
    (ukv_read
      { db := some hello_db, transaction := none, places := [],
        options := ukv_options_default_k, values := true, validation := none }).all_offsets[0]?
      ≠ some (ukv_read
        { db := some hello_db, transaction := none, places := [],
          options := ukv_options_default_k, values := true,
          validation := none }).contents.length := by
  decide

/-- C8: `ukv_collection_create` fails, leaving the catalogue unchanged and the output id
unwritten, when the name is null or empty or when a collection with that name already
exists; consequently the names of the handles of the catalogue stay pairwise distinct
after every create. -/
theorem C8_create_keeps_names_distinct (db : Option rocks_db_t) (name : Option String) :
    ((name = none ∨ name = some "") →
      (ukv_collection_create { db := db, name := name }).error
        = raise_error .args_wrong_k "Default collection is always present" ∧
      (ukv_collection_create { db := db, name := name }).db = db ∧
      (ukv_collection_create { db := db, name := name }).id = none) ∧
    (∀ d n, db = some d → name = some n →
      (∃ h ∈ d.columns, h.address ≠ 0 ∧ h.name = n) →
      (ukv_collection_create { db := db, name := name }).error ≠ none ∧
      (ukv_collection_create { db := db, name := name }).db = db ∧
      (ukv_collection_create { db := db, name := name }).id = none) ∧
    (∀ d d', db = some d →
      (ukv_collection_create { db := db, name := name }).db = some d' →
      ((d.columns.filter (fun h => h.address != 0)).map (fun h => h.name)).Nodup →
      ((d'.columns.filter (fun h => h.address != 0)).map (fun h => h.name)).Nodup) := by
  refine ⟨?_, ?_, ?_⟩
  · intro h
    rcases h with h | h <;> subst h <;> simp [ukv_collection_create]
  · intro d n hd hn ⟨h, hh, haddr, hname⟩
    subst hd hn
    have htaken : name_taken n d.columns = true := by
      unfold name_taken
      rw [List.any_eq_true]
      exact ⟨h, hh, by simp [haddr, hname]⟩
    unfold ukv_collection_create
    by_cases hlen : n.length = 0
    · simp [hlen, raise_error]
    · simp [hlen, htaken, raise_error]
  · intro d d' hd hdb hnodup
    subst hd
    unfold ukv_collection_create at hdb
    simp only at hdb
    split at hdb
    · cases hdb; exact hnodup
    · split at hdb
      · cases hdb; exact hnodup
      · split at hdb
        · cases hdb; exact hnodup
        · rename_i htaken _
          cases hdb
          simp only [List.filter_append, List.map_append]
          by_cases hnew : (d.native.CreateColumnFamily (name.getD "")).2.2 = 0
          · simp [hnew, hnodup]
          · have hnot : name.getD "" ∉
                (d.columns.filter (fun h => h.address != 0)).map (fun h => h.name) := by
              intro hmem
              obtain ⟨h, hh, hhn⟩ := List.mem_map.mp hmem
              obtain ⟨hh1, hh2⟩ := List.mem_filter.mp hh
              apply htaken
              unfold name_taken
              rw [List.any_eq_true]
              exact ⟨h, hh1, by simp [hh2, hhn]⟩
            simp only [List.filter_cons, bne_iff_ne, ne_eq, hnew, not_false_eq_true,
              decide_True, ↓reduceIte, List.filter_nil, List.map_cons, List.map_nil]
            rw [List.nodup_append]
            refine ⟨hnodup, List.nodup_singleton _, ?_⟩
            intro a ha hb
            rw [List.mem_singleton] at hb
            exact hnot (hb ▸ ha)

/-- C8 on a fresh database: a create with the name of the default column family, which
the database already holds, fails and leaves the database as it was. -/
theorem C8_create_keeps_names_distinct_witness :
    (ukv_collection_create { db := some fresh_db, name := some "default" }).error ≠ none ∧
    (ukv_collection_create { db := some fresh_db, name := some "default" }).db
      = some fresh_db ∧
    (ukv_collection_create { db := some fresh_db, name := some "default" }).id = none :=
  (C8_create_keeps_names_distinct (some fresh_db) (some "default")).2.1 fresh_db "default"
    rfl rfl ⟨{ address := 1, name := "default" }, by decide, by decide, rfl⟩

/-- A create that leaves the error slot empty: the name is not empty and not taken, the
store made the column family, and the new handle is the last of the database. -/
theorem create_ok (db : rocks_db_t) (name : String)
    (hok : (ukv_collection_create { db := some db, name := some name }).error = none) :
    name.length ≠ 0 ∧ name_taken name db.columns = false ∧
    (ukv_collection_create { db := some db, name := some name }).id
      = some (db.native.CreateColumnFamily name).2.2 ∧
    (ukv_collection_create { db := some db, name := some name }).db
      = some
        { columns := db.columns ++
            [{ address := (db.native.CreateColumnFamily name).2.2, name := name }]
          native := (db.native.CreateColumnFamily name).2.1
          mutex := db.mutex } := by
  unfold ukv_collection_create at hok ⊢
  simp only [Option.getD_some] at hok ⊢
  by_cases hlen : name.length = 0
  · simp [hlen, raise_error] at hok
  · by_cases htaken : name_taken name db.columns = true
    · simp [hlen, htaken, raise_error] at hok
    · by_cases hst : (export_error (db.native.CreateColumnFamily name).1 none).1 = true
      · simp only [hlen, ↓reduceIte, htaken, Bool.false_eq_true, hst] at hok
        have hs := (export_error_none _).mp hok
        rw [hs] at hst
        simp [export_error, rocks_status_t.ok] at hst
      · simp [hlen, htaken, hst]

/-- C9: after a successful `ukv_collection_create` of a non-empty name on a well-formed
database, `ukv_collection_list` reports that name exactly once, paired with the id that
create returned, and every (id, name) pair listed before the create is still listed with
the same id, in the same order. -/
theorem C9_create_then_list (db : rocks_db_t) (name : String)
    (hwf : db.wf) (hnul : Char.ofNat 0 ∉ name.toList)
    (hok : (ukv_collection_create { db := some db, name := some name }).error = none) :
    ∃ id db',
      name ≠ "" ∧
      (ukv_collection_create { db := some db, name := some name }).id = some id ∧
      (ukv_collection_create { db := some db, name := some name }).db = some db' ∧
      collections db' = collections db ++ [(id, name.toList)] ∧
      (collections db').filter (fun p => p.2 == name.toList) = [(id, name.toList)] ∧
      (∀ p ∈ collections db, p ∈ collections db') := by
  obtain ⟨hlen, htaken, hid, hdb⟩ := create_ok db name hok
  obtain ⟨hdefault, _, haddr, hnames, hsize, _⟩ := hwf
  refine ⟨_, _, ?_, hid, hdb, ?_⟩
  · intro h; rw [h] at hlen; exact hlen rfl
  -- no handle of the database has the name
  have hfree : ∀ h ∈ db.columns, h.name ≠ name := by
    intro h hh hn
    have : name_taken name db.columns = true := by
      unfold name_taken
      rw [List.any_eq_true]
      exact ⟨h, hh, by simp [haddr h hh, hn]⟩
    rw [htaken] at this
    cases this
  -- the name is not the one of the default column family
  have hnd : (name == kDefaultColumnFamilyName) = false := by
    cases hc : name == kDefaultColumnFamilyName
    · rfl
    · exfalso
      have hpos : 0 < (db.columns.filter
          (fun h => h.name == kDefaultColumnFamilyName)).length := by omega
      obtain ⟨h, hh⟩ := List.exists_mem_of_length_pos hpos
      obtain ⟨hh1, hh2⟩ := List.mem_filter.mp hh
      apply hfree h hh1
      rw [beq_iff_eq] at hh2 hc
      rw [hh2, hc]
  have hold := collections_eq db hdefault hnames (by omega)
  have hnew := collections_eq
    { columns := db.columns ++
        [{ address := (db.native.CreateColumnFamily name).2.2, name := name }]
      native := (db.native.CreateColumnFamily name).2.1
      mutex := db.mutex }
    (by simp [List.filter_append, hnd, hdefault])
    (by
      intro h hh
      rcases List.mem_append.mp hh with h1 | h1
      · exact hnames h h1
      · rw [List.mem_singleton] at h1
        rw [h1]; exact hnul)
    (by simp only [List.length_append, List.length_singleton]; omega)
  have happ : collections
      { columns := db.columns ++
          [{ address := (db.native.CreateColumnFamily name).2.2, name := name }]
        native := (db.native.CreateColumnFamily name).2.1
        mutex := db.mutex }
      = collections db ++ [((db.native.CreateColumnFamily name).2.2, name.toList)] := by
    rw [hnew, hold]
    simp [List.filter_append, hnd]
  have hnot : ∀ p ∈ collections db, (p.2 == name.toList) = false := by
    intro p hp
    rw [hold] at hp
    obtain ⟨h, hh, hhp⟩ := List.mem_map.mp hp
    rw [← hhp]
    simp only [beq_eq_false_iff_ne, ne_eq]
    intro heq
    exact hfree h (List.mem_filter.mp hh).1 (String.ext heq)
  refine ⟨happ, ?_, ?_⟩
  · rw [happ, List.filter_append, List.filter_eq_nil_iff.mpr (by
      intro p hp; rw [hnot p hp]; simp)]
    simp
  · intro p hp
    rw [happ]
    exact List.mem_append_left _ hp

/-- C9 on a fresh database: after the create of `abc`, the listing reports `abc` once. -/
theorem C9_create_then_list_witness :
    ∃ id db',
      "abc" ≠ "" ∧
      (ukv_collection_create { db := some fresh_db, name := some "abc" }).id = some id ∧
      (ukv_collection_create { db := some fresh_db, name := some "abc" }).db = some db' ∧
      collections db' = collections fresh_db ++ [(id, "abc".toList)] ∧
      (collections db').filter (fun p => p.2 == "abc".toList) = [(id, "abc".toList)] ∧
      (∀ p ∈ collections fresh_db, p ∈ collections db') :=
  C9_create_then_list fresh_db "abc" (by decide) (by decide) (by decide)

theorem drop_lookup_found (id : Nat) (columns : List rocks_collection_t) (current : Nat)
    (h : ∃ x ∈ columns, x.address = id) : drop_lookup id columns current = id := by
  induction columns generalizing current with
  | nil => obtain ⟨x, hx, _⟩ := h; cases hx
  | cons c rest ih =>
    unfold drop_lookup
    by_cases hc : c.address = id
    · simp [hc]
    · simp only [hc, ↓reduceIte]
      apply ih
      obtain ⟨x, hx, hxa⟩ := h
      rcases List.mem_cons.mp hx with h1 | h1
      · rw [h1] at hxa; exact absurd hxa hc
      · exact ⟨x, h1, hxa⟩

theorem erase_handle_eq_filter (id : Nat) (columns : List rocks_collection_t)
    (hn : (columns.map (fun h => h.address)).Nodup) :
    erase_handle id columns = columns.filter (fun h => h.address != id) := by
  induction columns with
  | nil => rfl
  | cons c rest ih =>
    rw [List.map_cons, List.nodup_cons] at hn
    unfold erase_handle
    by_cases hc : id = c.address
    · subst hc
      simp only [↓reduceIte, List.filter_cons, bne_self_eq_false, Bool.false_eq_true]
      symm
      rw [List.filter_eq_self]
      intro x hx
      simp only [bne_iff_ne, ne_eq]
      intro hxa
      exact hn.1 (List.mem_map.mpr ⟨x, hx, hxa⟩)
    · have hc2 : c.address ≠ id := fun h => hc h.symm
      simp only [hc, ↓reduceIte, List.filter_cons, bne_iff_ne, ne_eq, hc2, not_false_eq_true,
        decide_True]
      rw [ih hn.2]

/-- C10: for every non-main collection id that the listing of a well-formed database
reports, after `ukv_collection_drop` of the id with the mode keys-values-handle succeeds
the id no longer appears in the listing, and every other listed (id, name) pair is still
listed, in the same relative order. -/
theorem C10_drop_handle_unlists (db : rocks_db_t) (id : Nat) (hwf : db.wf)
    (hmain : id ≠ ukv_collection_main_k)
    (hlisted : id ∈ (collections db).map (fun p => p.1))
    (hok : (ukv_collection_drop
      { db := some db, id := id, mode := .ukv_drop_keys_vals_handle_k }).error = none) :
    ∃ db',
      (ukv_collection_drop
        { db := some db, id := id, mode := .ukv_drop_keys_vals_handle_k }).db = some db' ∧
      id ∉ (collections db').map (fun p => p.1) ∧
      collections db' = (collections db).filter (fun p => p.1 != id) := by
  obtain ⟨hdefault, hnodup, haddr, hnames, hsize, _⟩ := hwf
  have hold := collections_eq db hdefault hnames (by omega)
  -- the handle of the id
  obtain ⟨h, hh, hnd, hha⟩ : ∃ h ∈ db.columns,
      (h.name == kDefaultColumnFamilyName) = false ∧ h.address = id := by
    rw [hold, List.map_map] at hlisted
    obtain ⟨h, hh, hha⟩ := List.mem_map.mp hlisted
    obtain ⟨hh1, hh2⟩ := List.mem_filter.mp hh
    exact ⟨h, hh1, by simpa using hh2, hha⟩
  have hlook : drop_lookup id db.columns 0 = id := drop_lookup_found id db.columns 0 ⟨h, hh, hha⟩
  have hany : db.columns.any (fun x => id == x.address) = true := by
    rw [List.any_eq_true]
    exact ⟨h, hh, by simp [hha]⟩
  have hm : (id != ukv_collection_main_k) = true := by simpa using hmain
  have hm2 : ¬ id = ukv_collection_main_k := hmain
  -- the call
  have hst : (export_error (db.native.DropColumnFamily id).1 none).1 = false := by
    cases hc : (export_error (db.native.DropColumnFamily id).1 none).1
    · rfl
    · exfalso
      simp only [ukv_collection_drop, hm, Bool.true_or, Bool.not_true, Bool.false_eq_true,
        ↓reduceIte, hm2, hlook, hany, hc] at hok
      have hs := (export_error_none _).mp hok
      rw [hs] at hc
      simp [export_error, rocks_status_t.ok] at hc
  have hdb : (ukv_collection_drop
      { db := some db, id := id, mode := .ukv_drop_keys_vals_handle_k }).db
      = some
        { columns := erase_handle id db.columns
          native := (db.native.DropColumnFamily id).2
          mutex := db.mutex } := by
    simp [ukv_collection_drop, hm2, hlook, hany, hst]
  have herase := erase_handle_eq_filter id db.columns hnodup
  -- no handle of the default column family has the address of the id
  have hkeep : ∀ x ∈ db.columns, (x.name == kDefaultColumnFamilyName) = true →
      (x.address != id) = true := by
    intro x hx hxd
    simp only [bne_iff_ne, ne_eq]
    intro hxa
    have : x = h := List.inj_on_of_nodup_map hnodup hx hh (hxa.trans hha.symm)
    rw [this, hnd] at hxd
    cases hxd
  have hnew := collections_eq
    { columns := erase_handle id db.columns
      native := (db.native.DropColumnFamily id).2
      mutex := db.mutex }
    (by
      have hff : (erase_handle id db.columns).filter
          (fun h => h.name == kDefaultColumnFamilyName)
          = db.columns.filter (fun h => h.name == kDefaultColumnFamilyName) := by
        rw [herase, List.filter_filter]
        apply List.filter_congr
        intro x hx
        cases hxd : x.name == kDefaultColumnFamilyName
        · rfl
        · rw [hkeep x hx hxd]; rfl
      simp only [hff]
      exact hdefault)
    (by
      intro x hx
      simp only [herase] at hx
      exact hnames x (List.mem_filter.mp hx).1)
    (by
      simp only [herase]
      have := List.length_filter_le (fun h : rocks_collection_t => h.address != id) db.columns
      omega)
  have hfilter : collections
      { columns := erase_handle id db.columns
        native := (db.native.DropColumnFamily id).2
        mutex := db.mutex }
      = (collections db).filter (fun p => p.1 != id) := by
    rw [hnew, hold, List.filter_map]
    simp only [herase, List.filter_filter]
    apply congrArg
    apply List.filter_congr
    intro x _
    simp [Bool.and_comm]
  refine ⟨_, hdb, ?_, hfilter⟩
  rw [hfilter]
  intro hmem
  obtain ⟨p, hp, hpa⟩ := List.mem_map.mp hmem
  have := (List.mem_filter.mp hp).2
  simp [hpa] at this

/-- C10 on the database that lists `abc` and `xy`: after the drop of the handle of `abc`,
the listing reports `xy` alone. -/
theorem C10_drop_handle_unlists_witness :
    ∃ db',
      (ukv_collection_drop
        { db := some two_collections_db, id := 2,
          mode := .ukv_drop_keys_vals_handle_k }).db = some db' ∧
      2 ∉ (collections db').map (fun p => p.1) ∧
      collections db' = (collections two_collections_db).filter (fun p => p.1 != 2) :=
  C10_drop_handle_unlists two_collections_db 2 (by decide) (by decide) (by decide) (by decide)

/-! ## Batches on one column family -/

/-- A batch whose operations all address one column family rewrites the entries of that
family and of no other. -/
theorem family_foldl (ops : List batch_op_t) (native : rocks_native_t) (c collection : Nat)
    (hops : ∀ op ∈ ops, op.collection = c) :
    (ops.foldl rocks_native_t.apply native).family collection
      = (native.family collection).map (fun f =>
          if f.handle == c then
            { f with entries := ops.foldl (fun entries op => op.apply entries) f.entries }
          else f) := by
  induction ops generalizing native with
  | nil =>
    simp only [List.foldl_nil]
    cases native.family collection with
    | none => rfl
    | some f => simp
  | cons op rest ih =>
    have hop : op.collection = c := hops op (List.mem_cons_self _ _)
    rw [List.foldl_cons, ih _ (fun o ho => hops o (List.mem_cons_of_mem _ ho)), family_apply_eq]
    cases native.family collection with
    | none => rfl
    | some f =>
      simp only [Option.map_some', hop, List.foldl_cons]
      cases hf : f.handle == c <;> simp [hf]

theorem NewIterator_foldl_same (ops : List batch_op_t) (native : rocks_native_t) (c : Nat)
    (hops : ∀ op ∈ ops, op.collection = c) :
    (ops.foldl rocks_native_t.apply native).NewIterator c
      = match native.family c with
        | some f => ops.foldl (fun entries op => op.apply entries) f.entries
        | none => [] := by
  unfold rocks_native_t.NewIterator
  rw [family_foldl ops native c c hops]
  cases hf : native.family c with
  | none => rfl
  | some f =>
    have hh : f.handle = c := by
      unfold rocks_native_t.family at hf
      have := List.find?_some hf
      simpa using this
    simp [hh]

theorem NewIterator_foldl_other (ops : List batch_op_t) (native : rocks_native_t)
    (c collection : Nat) (hops : ∀ op ∈ ops, op.collection = c) (hne : collection ≠ c) :
    (ops.foldl rocks_native_t.apply native).NewIterator collection
      = native.NewIterator collection := by
  unfold rocks_native_t.NewIterator
  rw [family_foldl ops native c collection hops]
  cases hf : native.family collection with
  | none => rfl
  | some f =>
    have hh : f.handle = collection := by
      unfold rocks_native_t.family at hf
      have := List.find?_some hf
      simpa using this
    have hfc : ¬ f.handle = c := by
      rw [hh]; exact hne
    simp [hfc]

/-- The batch leaves the names and the handles of the column families as they are. -/
theorem families_foldl (ops : List batch_op_t) (native : rocks_native_t) :
    (ops.foldl rocks_native_t.apply native).families.map (fun f => (f.handle, f.name))
      = native.families.map (fun f => (f.handle, f.name)) := by
  induction ops generalizing native with
  | nil => rfl
  | cons op rest ih =>
    rw [List.foldl_cons, ih]
    unfold rocks_native_t.apply
    simp only [List.map_map]
    apply List.map_congr_left
    intro f _
    simp only [Function.comp_apply]
    split <;> rfl

/-- Deleting every key of a run of entries leaves none of them. -/
theorem entries_delete_fold (keys : List slice_t) (entries : List entry_t) :
    keys.foldl (fun es k => entries_delete k es) entries
      = entries.filter (fun e => keys.all (fun k => key_comparator_t.Compare k e.1 != 0)) := by
  induction keys generalizing entries with
  | nil => simp
  | cons k rest ih =>
    rw [List.foldl_cons, ih]
    unfold entries_delete
    rw [List.filter_filter]
    apply List.filter_congr
    intro e _
    simp [Bool.and_comm]

theorem entries_delete_all (entries : List entry_t) :
    (entries.map (fun e => e.1)).foldl (fun es k => entries_delete k es) entries = [] := by
  rw [entries_delete_fold, List.filter_eq_nil_iff]
  intro e he
  simp only [List.all_eq_true, bne_iff_ne, ne_eq, not_forall]
  exact ⟨e.1, List.mem_map.mpr ⟨e, he, rfl⟩, by simp [Compare_refl]⟩

theorem foldl_delete_ops (c : Nat) (keys : List entry_t) (entries : List entry_t) :
    (keys.map (fun e => batch_op_t.Delete c e.1)).foldl (fun es op => op.apply es) entries
      = (keys.map (fun e => e.1)).foldl (fun es k => entries_delete k es) entries := by
  induction keys generalizing entries with
  | nil => rfl
  | cons k rest ih =>
    simp only [List.map_cons, List.foldl_cons, batch_op_t.apply]
    exact ih _

theorem Write_ok (native : rocks_native_t) (batch : List batch_op_t)
    (h : (native.Write batch).1 = .kOk) :
    native.batch_health batch = .kOk ∧
    (native.Write batch).2 = batch.foldl rocks_native_t.apply native := by
  unfold rocks_native_t.Write at h ⊢
  by_cases hb : native.batch_health batch = .kOk
  · simp [hb]
  · simp only [bne_iff_ne, ne_eq, hb, not_false_eq_true, ↓reduceIte] at h

/-- The handle a drop clears, for the main collection and for an identifier of the
catalogue, is the handle behind the identifier. -/
theorem drop_target (db : rocks_db_t) (id : Nat)
    (hcat : id = ukv_collection_main_k ∨ ∃ h ∈ db.columns, h.address = id) :
    (if id = ukv_collection_main_k then db.native.DefaultColumnFamily
      else drop_lookup id db.columns 0) = rocks_collection db id := by
  unfold rocks_collection
  by_cases hm : id = ukv_collection_main_k
  · simp [hm]
  · simp only [hm, ↓reduceIte]
    rcases hcat with h | h
    · exact absurd h hm
    · exact drop_lookup_found id db.columns 0 h

/-- A write of a non-empty value at a healthy key outside a transaction succeeds, and a
read of the place then reports the value. -/
theorem write_then_read_outside (db : rocks_db_t) (place : place_t) (content : value_view_t)
    (w_options r_options : ukv_options_t) (values : Bool)
    (hpresent : content.to_bool = true) (hlength : content.length_ < 2 ^ 32)
    (hh : db.native.health (rocks_collection db place.collection) (to_slice place.key) = .kOk) :
    (ukv_write
      { db := some db, transaction := none, places := [place], contents := [content],
        options := w_options, validation := none }).error = none ∧
    (ukv_read
      { db := (ukv_write
          { db := some db, transaction := none, places := [place], contents := [content],
            options := w_options, validation := none }).db
        transaction := none, places := [place], options := r_options, values := values,
        validation := none }).error = none ∧
    (ukv_read
      { db := (ukv_write
          { db := some db, transaction := none, places := [place], contents := [content],
            options := w_options, validation := none }).db
        transaction := none, places := [place], options := r_options, values := values,
        validation := none }).presences = [true] ∧
    (ukv_read
      { db := (ukv_write
          { db := some db, transaction := none, places := [place], contents := [content],
            options := w_options, validation := none }).db
        transaction := none, places := [place], options := r_options, values := values,
        validation := none }).lengths = [content.bytes.length] ∧
    (values = true →
      (ukv_read
        { db := (ukv_write
            { db := some db, transaction := none, places := [place], contents := [content],
              options := w_options, validation := none }).db
          transaction := none, places := [place], options := r_options, values := values,
          validation := none }).contents = content.bytes) := by
  have hcall : db_write_call (rocks_collection db place.collection) (to_slice place.key) content
      = .Put (rocks_collection db place.collection) (to_slice place.key) content.bytes := by
    simp [db_write_call, hpresent, value_to_slice]
  have hok : (ukv_write
      { db := some db, transaction := none, places := [place], contents := [content],
        options := w_options, validation := none }).error = none := by
    simp only [ukv_write, List.length_singleton, one_ne_zero, ↓reduceIte, Option.isSome_none,
      Bool.false_eq_true, write_one, place_at, content_at, List.getD_cons_zero]
    rw [Write_single, hcall]
    simp only [batch_op_t.collection, batch_op_t.key, hh, bne_self_eq_false, Bool.false_eq_true,
      ↓reduceIte]
    rfl
  obtain ⟨_, hdb⟩ := write_one_place_ok db place content w_options none hok
  have hlt := present_bytes_lt content hpresent hlength
  obtain ⟨hb, hs, hbytes⟩ := of_store_present content.bytes hlt
    (present_bytes_ne content hpresent)
  have hmod : content.bytes.length % 2 ^ 32 = content.bytes.length :=
    Nat.mod_eq_of_lt (by omega)
  refine ⟨hok, ?_⟩
  rw [hdb, hcall]
  have hcol := rocks_collection_apply db
    (.Put (rocks_collection db place.collection) (to_slice place.key) content.bytes)
    place.collection
  have hget := Get_after_put db.native _ _ content.bytes hh
  have hans : store_answers
      { columns := db.columns
        native := db.native.apply
          (.Put (rocks_collection db place.collection) (to_slice place.key) content.bytes)
        mutex := db.mutex } none [place] = [(.kOk, content.bytes)] := by
    unfold store_answers
    simp only [List.map_cons, List.map_nil, hcol, hget]
  have hview : view_of_answer (rocks_status_t.kOk, content.bytes)
      = value_view_t.of_store content.bytes := by
    simp [view_of_answer, rocks_status_t.IsNotFound]
  have hnofail : ∀ a ∈ [((rocks_status_t.kOk, content.bytes) :
      rocks_status_t × List byte_t)], a.1.fails = false := by
    intro a ha
    rw [List.mem_singleton] at ha
    rw [ha]; rfl
  obtain ⟨h1, h2, _, h4, _, h6⟩ := ukv_read_eq_loop
    { columns := db.columns
      native := db.native.apply
        (.Put (rocks_collection db place.collection) (to_slice place.key) content.bytes)
      mutex := db.mutex } none [place] r_options values (by simp)
  rw [hans, read_many_loop_ok values _ _ _ hnofail] at h1 h2 h4 h6
  simp only [List.foldl_cons, List.foldl_nil, hview] at h1 h2 h4 h6
  refine ⟨h6, ?_, ?_, ?_⟩
  · rw [h1, enumerator_presences, hb]; rfl
  · rw [h2, enumerator_lengths]
    simp only [view_length, hb, ↓reduceIte, hs, hmod]
    rfl
  · intro hv
    subst hv
    rw [h4, enumerator_contents, hbytes]; rfl

/-- The drop of the entries of a collection of the catalogue is one `DB::Write` of a
delete for each key the iterator of the collection enumerates. -/
theorem drop_keys_vals_eq (db : rocks_db_t) (id : Nat)
    (hcat : id = ukv_collection_main_k ∨ ∃ h ∈ db.columns, h.address = id) :
    ukv_collection_drop { db := some db, id := id, mode := .ukv_drop_keys_vals_k }
      = { db := some
            { db with
              native := (db.native.Write
                ((db.native.NewIterator (rocks_collection db id)).map
                  (fun e => batch_op_t.Delete (rocks_collection db id) e.1))).2 }
          error := (export_error (db.native.Write
                ((db.native.NewIterator (rocks_collection db id)).map
                  (fun e => batch_op_t.Delete (rocks_collection db id) e.1))).1 none).2 } := by
  have htarget := drop_target db id hcat
  have hmode : (ukv_drop_mode_t.ukv_drop_keys_vals_k == ukv_drop_mode_t.ukv_drop_keys_vals_handle_k)
      = false := by decide
  unfold ukv_collection_drop
  simp only [htarget, hmode, Bool.not_false, Bool.or_true, Bool.not_true, Bool.false_eq_true,
    ↓reduceIte]

/-- The drop of the values of a collection of the catalogue is one `DB::Write` of a put
of the empty value for each key the iterator of the collection enumerates. -/
theorem drop_vals_eq (db : rocks_db_t) (id : Nat)
    (hcat : id = ukv_collection_main_k ∨ ∃ h ∈ db.columns, h.address = id) :
    ukv_collection_drop { db := some db, id := id, mode := .ukv_drop_vals_k }
      = { db := some
            { db with
              native := (db.native.Write
                ((db.native.NewIterator (rocks_collection db id)).map
                  (fun e => batch_op_t.Put (rocks_collection db id) e.1 []))).2 }
          error := (export_error (db.native.Write
                ((db.native.NewIterator (rocks_collection db id)).map
                  (fun e => batch_op_t.Put (rocks_collection db id) e.1 []))).1 none).2 } := by
  have htarget := drop_target db id hcat
  have hmode : (ukv_drop_mode_t.ukv_drop_vals_k == ukv_drop_mode_t.ukv_drop_keys_vals_handle_k)
      = false := by decide
  unfold ukv_collection_drop
  simp only [htarget, hmode, Bool.not_false, Bool.or_true, Bool.not_true, Bool.false_eq_true,
    ↓reduceIte]

theorem rocks_collection_foldl (db : rocks_db_t) (ops : List batch_op_t) (collection : Nat) :
    rocks_collection
      { columns := db.columns, native := ops.foldl rocks_native_t.apply db.native,
        mutex := db.mutex } collection = rocks_collection db collection := by
  unfold rocks_collection
  simp only [DefaultColumnFamily_foldl]

/-- C11: for every collection of the catalogue, main included, after
`ukv_collection_drop` of its id with the mode keys-values succeeds the collection holds no
key, the catalogue (the handles of the database, the listing of ids and names, the column
families of the store) is unchanged, the entries of every other collection are unchanged,
and a following write of a non-empty value (one that holds bytes) at a key of the
collection for which the store answers succeeds and a read of the place returns that
value. -/
theorem C11_drop_keys_values (db : rocks_db_t) (id : Nat)
    (hcat : id = ukv_collection_main_k ∨ ∃ h ∈ db.columns, h.address = id)
    (hok : (ukv_collection_drop
      { db := some db, id := id, mode := .ukv_drop_keys_vals_k }).error = none) :
    ∃ db',
      (ukv_collection_drop
        { db := some db, id := id, mode := .ukv_drop_keys_vals_k }).db = some db' ∧
      collection_keys db' none id = [] ∧
      db'.native.NewIterator (rocks_collection db' id) = [] ∧
      db'.columns = db.columns ∧
      collections db' = collections db ∧
      db'.native.families.map (fun f => (f.handle, f.name))
        = db.native.families.map (fun f => (f.handle, f.name)) ∧
      (∀ collection, collection ≠ rocks_collection db id →
        db'.native.NewIterator collection = db.native.NewIterator collection) ∧
      (∀ (key : Int) (content : value_view_t) (w_options r_options : ukv_options_t)
          (values : Bool),
        content.to_bool = true → content.length_ < 2 ^ 32 →
        db'.native.health (rocks_collection db' id) (to_slice key) = .kOk →
        (ukv_write
          { db := some db', transaction := none, places := [{ collection := id, key := key }],
            contents := [content], options := w_options, validation := none }).error = none ∧
        (ukv_read
          { db := (ukv_write
              { db := some db', transaction := none,
                places := [{ collection := id, key := key }],
                contents := [content], options := w_options, validation := none }).db
            transaction := none, places := [{ collection := id, key := key }],
            options := r_options, values := values, validation := none }).error = none ∧
        (ukv_read
          { db := (ukv_write
              { db := some db', transaction := none,
                places := [{ collection := id, key := key }],
                contents := [content], options := w_options, validation := none }).db
            transaction := none, places := [{ collection := id, key := key }],
            options := r_options, values := values, validation := none }).presences = [true] ∧
        (ukv_read
          { db := (ukv_write
              { db := some db', transaction := none,
                places := [{ collection := id, key := key }],
                contents := [content], options := w_options, validation := none }).db
            transaction := none, places := [{ collection := id, key := key }],
            options := r_options, values := values, validation := none }).lengths
          = [content.bytes.length] ∧
        (values = true →
          (ukv_read
            { db := (ukv_write
                { db := some db', transaction := none,
                  places := [{ collection := id, key := key }],
                  contents := [content], options := w_options, validation := none }).db
              transaction := none, places := [{ collection := id, key := key }],
              options := r_options, values := values, validation := none }).contents
            = content.bytes)) := by
  have hdrop := drop_keys_vals_eq db id hcat
  rw [hdrop] at hok ⊢
  simp only at hok
  have hst := (export_error_none _).mp hok
  obtain ⟨_, hw⟩ := Write_ok _ _ hst
  have hops : ∀ op ∈ (db.native.NewIterator (rocks_collection db id)).map
      (fun e => batch_op_t.Delete (rocks_collection db id) e.1),
      op.collection = rocks_collection db id := by
    intro op hop
    obtain ⟨e, _, he⟩ := List.mem_map.mp hop
    rw [← he]; rfl
  have hrc := rocks_collection_foldl db
    ((db.native.NewIterator (rocks_collection db id)).map
      (fun e => batch_op_t.Delete (rocks_collection db id) e.1)) id
  have hempty : (List.foldl rocks_native_t.apply db.native
      ((db.native.NewIterator (rocks_collection db id)).map
        (fun e => batch_op_t.Delete (rocks_collection db id) e.1))).NewIterator
        (rocks_collection db id) = [] := by
    rw [NewIterator_foldl_same _ _ _ hops]
    unfold rocks_native_t.NewIterator
    cases hf : db.native.family (rocks_collection db id) with
    | none => rfl
    | some f =>
      simp only
      rw [foldl_delete_ops, entries_delete_all]
  refine ⟨_, rfl, ?_, ?_, rfl, rfl, ?_, ?_, ?_⟩
  · unfold collection_keys scan_iterator
    simp only [hw, hrc, hempty, List.map_nil]
  · simp only [hw, hrc, hempty]
  · simp only [hw]
    exact families_foldl _ _
  · intro collection hne
    simp only [hw]
    exact NewIterator_foldl_other _ _ _ _ hops hne
  · intro key content w_options r_options values hp hl hh
    exact write_then_read_outside _ { collection := id, key := key } content w_options r_options
      values hp hl hh

/-- C11 on the database that holds the keys -7, 5 and 42 in the main collection: after
the drop of the entries of main the collection is empty and the catalogue is unchanged. -/
theorem C11_drop_keys_values_witness :
    collection_keys three_keys_db none 0 = [-7, 5, 42] ∧
    ∃ db',
      (ukv_collection_drop
        { db := some three_keys_db, id := 0, mode := .ukv_drop_keys_vals_k }).db = some db' ∧
      collection_keys db' none 0 = [] ∧
      db'.columns = three_keys_db.columns :=
  ⟨by decide,
   (C11_drop_keys_values three_keys_db 0 (Or.inl rfl) (by decide)).imp
     (fun _ h => ⟨h.1, h.2.1, h.2.2.2.1⟩)⟩

/-! ## The drop of the values of a collection -/

theorem foldl_put_ops (c : Nat) (keys : List entry_t) (entries : List entry_t) :
    (keys.map (fun e => batch_op_t.Put c e.1 [])).foldl (fun es op => op.apply es) entries
      = (keys.map (fun e => e.1)).foldl (fun es k => entries_put k [] es) entries := by
  induction keys generalizing entries with
  | nil => rfl
  | cons k rest ih =>
    simp only [List.map_cons, List.foldl_cons, batch_op_t.apply]
    exact ih _

/-- Puts of keys above the first entry leave the first entry where it is. -/
theorem entries_put_fold_above (keys : List slice_t) (a : entry_t) (entries : List entry_t)
    (h : ∀ k ∈ keys, as_key a.1 < as_key k) :
    keys.foldl (fun es k => entries_put k [] es) (a :: entries)
      = a :: keys.foldl (fun es k => entries_put k [] es) entries := by
  induction keys generalizing entries with
  | nil => rfl
  | cons k rest ih =>
    have hk := h k (List.mem_cons_self _ _)
    have h0 : ¬ key_comparator_t.Compare k a.1 = 0 := by
      rw [Compare_eq_zero]; omega
    have h1 : ¬ key_comparator_t.Compare k a.1 < 0 := by
      rw [Compare_neg]; omega
    simp only [List.foldl_cons]
    rw [show entries_put k [] (a :: entries) = a :: entries_put k [] entries by
      simp only [entries_put, h0, h1, ↓reduceIte]]
    exact ih _ (fun k' hk' => h k' (List.mem_cons_of_mem _ hk'))

/-- On entries in comparator order, a put of the empty value for each key, in the order
of the entries, keeps every key and empties every value. -/
theorem entries_put_all (entries : List entry_t)
    (h : entries.Pairwise (fun a b => key_comparator_t.Compare a.1 b.1 < 0)) :
    (entries.map (fun e => e.1)).foldl (fun es k => entries_put k [] es) entries
      = entries.map (fun e => (e.1, [])) := by
  induction entries with
  | nil => rfl
  | cons x rest ih =>
    rw [List.pairwise_cons] at h
    simp only [List.map_cons, List.foldl_cons]
    rw [show entries_put x.1 [] (x :: rest) = (x.1, []) :: rest by
      simp only [entries_put, Compare_refl, ↓reduceIte]]
    rw [entries_put_fold_above _ (x.1, []) rest, ih h.2]
    intro k hk
    obtain ⟨y, hy, hyk⟩ := List.mem_map.mp hk
    rw [← hyk]
    exact (Compare_neg _ _).mp (h.1 y hy)

theorem entries_get_blank (key : slice_t) (entries : List entry_t)
    (h : ∃ e ∈ entries, e.1 = key) :
    entries_get key (entries.map (fun e => (e.1, ([] : List byte_t)))) = some [] := by
  induction entries with
  | nil => obtain ⟨e, he, _⟩ := h; cases he
  | cons x rest ih =>
    unfold entries_get at ih ⊢
    rw [List.map_cons, List.find?_cons]
    cases hc : key_comparator_t.Compare key x.1 == 0
    · simp only
      apply ih
      obtain ⟨e, he, hek⟩ := h
      rcases List.mem_cons.mp he with h1 | h1
      · rw [h1] at hek
        rw [← hek, Compare_refl] at hc
        simp at hc
      · exact ⟨e, h1, hek⟩
    · rfl

/-- A read of one place for which the store answers with a value. -/
theorem read_found (db : rocks_db_t) (txn : Option rocks_txn_t) (place : place_t)
    (options : ukv_options_t) (values : Bool) (value : List byte_t)
    (hans : store_answers db txn [place] = [(.kOk, value)])
    (hl : value.length < 2 ^ 32 - 1) (hvalue : value ≠ []) :
    (ukv_read
      { db := some db, transaction := txn, places := [place], options := options,
        values := values, validation := none }).error = none ∧
    (ukv_read
      { db := some db, transaction := txn, places := [place], options := options,
        values := values, validation := none }).presences = [true] ∧
    (ukv_read
      { db := some db, transaction := txn, places := [place], options := options,
        values := values, validation := none }).lengths = [value.length] ∧
    (values = true →
      (ukv_read
        { db := some db, transaction := txn, places := [place], options := options,
          values := values, validation := none }).contents = value) := by
  obtain ⟨hb, hs, hbytes⟩ := of_store_present value hl hvalue
  have hmod : value.length % 2 ^ 32 = value.length := Nat.mod_eq_of_lt (by omega)
  have hview : view_of_answer (rocks_status_t.kOk, value) = value_view_t.of_store value := by
    simp [view_of_answer, rocks_status_t.IsNotFound]
  have hnofail : ∀ a ∈ [((rocks_status_t.kOk, value) : rocks_status_t × List byte_t)],
      a.1.fails = false := by
    intro a ha
    rw [List.mem_singleton] at ha
    rw [ha]; rfl
  obtain ⟨h1, h2, _, h4, _, h6⟩ := ukv_read_eq_loop db txn [place] options values (by simp)
  rw [hans, read_many_loop_ok values _ _ _ hnofail] at h1 h2 h4 h6
  simp only [List.foldl_cons, List.foldl_nil, hview] at h1 h2 h4 h6
  refine ⟨h6, ?_, ?_, ?_⟩
  · rw [h1, enumerator_presences, hb]; rfl
  · rw [h2, enumerator_lengths]
    simp only [view_length, hb, ↓reduceIte, hs, hmod]
    rfl
  · intro hv
    subst hv
    rw [h4, enumerator_contents, hbytes]; rfl

/-- A read of one place for which the store answers with a value without bytes: the place
is reported as a missing one is. -/
theorem read_found_empty (db : rocks_db_t) (txn : Option rocks_txn_t) (place : place_t)
    (options : ukv_options_t) (values : Bool)
    (hans : store_answers db txn [place] = [(.kOk, [])]) :
    (ukv_read
      { db := some db, transaction := txn, places := [place], options := options,
        values := values, validation := none }).error = none ∧
    (ukv_read
      { db := some db, transaction := txn, places := [place], options := options,
        values := values, validation := none }).presences = [false] ∧
    (ukv_read
      { db := some db, transaction := txn, places := [place], options := options,
        values := values, validation := none }).lengths = [ukv_length_missing_k] ∧
    (ukv_read
      { db := some db, transaction := txn, places := [place], options := options,
        values := values, validation := none }).contents = [] := by
  have hempty := of_store_empty
  have hbytes : (value_view_t.of_store []).bytes = [] := by decide
  have hview : view_of_answer (rocks_status_t.kOk, ([] : List byte_t))
      = value_view_t.of_store [] := by
    simp [view_of_answer, rocks_status_t.IsNotFound]
  have hnofail : ∀ a ∈ [((rocks_status_t.kOk, []) : rocks_status_t × List byte_t)],
      a.1.fails = false := by
    intro a ha
    rw [List.mem_singleton] at ha
    rw [ha]; rfl
  obtain ⟨h1, h2, _, h4, _, h6⟩ := ukv_read_eq_loop db txn [place] options values (by simp)
  rw [hans, read_many_loop_ok values _ _ _ hnofail] at h1 h2 h4 h6
  simp only [List.foldl_cons, List.foldl_nil, hview] at h1 h2 h4 h6
  refine ⟨h6, ?_, ?_, ?_⟩
  · rw [h1, enumerator_presences, hempty]; rfl
  · rw [h2, enumerator_lengths]
    simp only [view_length, hempty, Bool.false_eq_true, ↓reduceIte]
    rfl
  · rw [h4]
    cases values
    · rw [enumerator_contents_skip]; rfl
    · rw [enumerator_contents, hbytes]; rfl

/-- For a key the store answers for, `Get` finds what the iterator of the column family
enumerates. -/
theorem Get_eq_iterator (native : rocks_native_t) (collection : Nat) (key : slice_t)
    (hh : native.health collection key = .kOk) :
    native.Get collection key
      = match entries_get key (native.NewIterator collection) with
        | none => (.kNotFound, [])
        | some value => (.kOk, value) := by
  obtain ⟨f, hf⟩ := health_ok_family native collection key hh
  unfold rocks_native_t.Get rocks_native_t.NewIterator
  rw [hh, hf]
  rfl

/-- C12: for every collection of the catalogue (main included) whose entries the store
keeps in comparator order, after `ukv_collection_drop` of its id with the mode vals succeeds the keys of the
collection are exactly the keys before the call, in the same order, every one of them
maps to the empty value (the store answers `ok` with no bytes; a read, which does not tell
an empty value from an absent one, reports presence = false and the missing length), and
the catalogue and the entries of every other collection are unchanged. -/
theorem C12_drop_values (db : rocks_db_t) (id : Nat)
    (hcat : id = ukv_collection_main_k ∨ ∃ h ∈ db.columns, h.address = id)
    (hordered : (db.native.NewIterator (rocks_collection db id)).Pairwise
      (fun a b => key_comparator_t.Compare a.1 b.1 < 0))
    (hok : (ukv_collection_drop
      { db := some db, id := id, mode := .ukv_drop_vals_k }).error = none) :
    ∃ db',
      (ukv_collection_drop
        { db := some db, id := id, mode := .ukv_drop_vals_k }).db = some db' ∧
      db'.native.NewIterator (rocks_collection db' id)
        = (db.native.NewIterator (rocks_collection db id)).map (fun e => (e.1, [])) ∧
      collection_keys db' none id = collection_keys db none id ∧
      (∀ e ∈ db.native.NewIterator (rocks_collection db id),
        db'.native.Get (rocks_collection db' id) e.1 = (.kOk, [])) ∧
      (∀ (key : Int) (options : ukv_options_t) (values : Bool),
        (∃ e ∈ db.native.NewIterator (rocks_collection db id), e.1 = to_slice key) →
        (ukv_read
          { db := some db', transaction := none, places := [{ collection := id, key := key }],
            options := options, values := values, validation := none }).error = none ∧
        (ukv_read
          { db := some db', transaction := none, places := [{ collection := id, key := key }],
            options := options, values := values, validation := none }).presences = [false] ∧
        (ukv_read
          { db := some db', transaction := none, places := [{ collection := id, key := key }],
            options := options, values := values, validation := none }).lengths
          = [ukv_length_missing_k] ∧
        (ukv_read
          { db := some db', transaction := none, places := [{ collection := id, key := key }],
            options := options, values := values, validation := none }).contents = []) ∧
      db'.columns = db.columns ∧
      collections db' = collections db ∧
      db'.native.families.map (fun f => (f.handle, f.name))
        = db.native.families.map (fun f => (f.handle, f.name)) ∧
      (∀ collection, collection ≠ rocks_collection db id →
        db'.native.NewIterator collection = db.native.NewIterator collection) := by
  have hdrop := drop_vals_eq db id hcat
  rw [hdrop] at hok ⊢
  simp only at hok
  have hst := (export_error_none _).mp hok
  obtain ⟨hhealth, hw⟩ := Write_ok _ _ hst
  have hops : ∀ op ∈ (db.native.NewIterator (rocks_collection db id)).map
      (fun e => batch_op_t.Put (rocks_collection db id) e.1 []),
      op.collection = rocks_collection db id := by
    intro op hop
    obtain ⟨e, _, he⟩ := List.mem_map.mp hop
    rw [← he]; rfl
  have hrc := rocks_collection_foldl db
    ((db.native.NewIterator (rocks_collection db id)).map
      (fun e => batch_op_t.Put (rocks_collection db id) e.1 [])) id
  have hord := hordered
  have hblank : (List.foldl rocks_native_t.apply db.native
      ((db.native.NewIterator (rocks_collection db id)).map
        (fun e => batch_op_t.Put (rocks_collection db id) e.1 []))).NewIterator
        (rocks_collection db id)
      = (db.native.NewIterator (rocks_collection db id)).map (fun e => (e.1, [])) := by
    rw [NewIterator_foldl_same _ _ _ hops]
    unfold rocks_native_t.NewIterator at hord ⊢
    cases hf : db.native.family (rocks_collection db id) with
    | none => rfl
    | some f =>
      rw [hf] at hord
      simp only at hord ⊢
      rw [foldl_put_ops, entries_put_all _ hord]
  have hget : ∀ e ∈ db.native.NewIterator (rocks_collection db id),
      (List.foldl rocks_native_t.apply db.native
        ((db.native.NewIterator (rocks_collection db id)).map
          (fun e => batch_op_t.Put (rocks_collection db id) e.1 []))).Get
        (rocks_collection db id) e.1 = (.kOk, []) := by
    intro e he
    have hh : db.native.health (rocks_collection db id) e.1 = .kOk :=
      batch_health_ok _ _ hhealth (batch_op_t.Put (rocks_collection db id) e.1 [])
        (List.mem_map.mpr ⟨e, he, rfl⟩)
    rw [Get_eq_iterator _ _ _ (by rw [health_foldl]; exact hh), hblank,
      entries_get_blank _ _ ⟨e, he, rfl⟩]
  refine ⟨_, rfl, ?_, ?_, ?_, ?_, rfl, rfl, ?_, ?_⟩
  · simp only [hw, hrc, hblank]
  · unfold collection_keys scan_iterator
    simp only [hw, hrc, hblank, List.map_map]
    rfl
  · intro e he
    simp only [hw, hrc]
    exact hget e he
  · intro key options values hkey
    obtain ⟨e, he, hek⟩ := hkey
    have hans : store_answers
        { columns := db.columns
          native := (db.native.Write
            ((db.native.NewIterator (rocks_collection db id)).map
              (fun e => batch_op_t.Put (rocks_collection db id) e.1 []))).2
          mutex := db.mutex } none [{ collection := id, key := key }]
        = [(.kOk, [])] := by
      unfold store_answers
      simp only [List.map_cons, List.map_nil, hw, hrc, ← hek, hget e he]
    exact read_found_empty _ none { collection := id, key := key } options values hans
  · simp only [hw]
    exact families_foldl _ _
  · intro collection hne
    simp only [hw]
    exact NewIterator_foldl_other _ _ _ _ hops hne

/-- C12 on the database that holds the keys -7, 5 and 42 in the main collection: after
the drop of the values of main the keys are the same, the store answers `ok` with no bytes
for the key 42, and a read reports it with presence = false and the missing length. -/
theorem C12_drop_values_witness :
    ∃ db',
      (ukv_collection_drop
        { db := some three_keys_db, id := 0, mode := .ukv_drop_vals_k }).db = some db' ∧
      collection_keys db' none 0 = [-7, 5, 42] ∧
      db'.native.Get (rocks_collection db' 0) (to_slice 42) = (.kOk, []) ∧
      (ukv_read
        { db := some db', transaction := none, places := [{ collection := 0, key := 42 }],
          options := ukv_options_default_k, values := true, validation := none }).presences
        = [false] ∧
      (ukv_read
        { db := some db', transaction := none, places := [{ collection := 0, key := 42 }],
          options := ukv_options_default_k, values := true, validation := none }).lengths
        = [ukv_length_missing_k] :=
  (C12_drop_values three_keys_db 0 (Or.inl rfl) (by decide) (by decide)).imp
    (fun _ h => ⟨h.1, h.2.2.1.trans (by decide),
      h.2.2.2.1 (to_slice 42, hello.bytes) (by decide),
      (h.2.2.2.2.1 42 ukv_options_default_k true (by decide)).2.1,
      (h.2.2.2.2.1 42 ukv_options_default_k true (by decide)).2.2.1⟩)

/-! ## The drop of the handle of the main collection -/

/-- C13: `ukv_collection_drop` of the main collection (id 0) with the mode
keys-values-handle fails with the error kind `args_combo` and the diagnostic "Default
collection can't be invalidated.", and it leaves the database as it was: the catalogue
and the entries of every collection are unchanged. -/
theorem C13_drop_main_handle_fails (db : rocks_db_t) :
    (ukv_collection_drop
      { db := some db, id := ukv_collection_main_k,
        mode := .ukv_drop_keys_vals_handle_k }).error
      = some { message := "Default collection can't be invalidated.",
               code := some .args_combo_k } ∧
    (ukv_collection_drop
      { db := some db, id := ukv_collection_main_k,
        mode := .ukv_drop_keys_vals_handle_k }).db = some db ∧
    (∀ db', (ukv_collection_drop
      { db := some db, id := ukv_collection_main_k,
        mode := .ukv_drop_keys_vals_handle_k }).db = some db' →
      db'.columns = db.columns ∧ collections db' = collections db ∧
      ∀ collection, db'.native.NewIterator collection = db.native.NewIterator collection) := by
  have h : (ukv_collection_drop
      { db := some db, id := ukv_collection_main_k,
        mode := .ukv_drop_keys_vals_handle_k }).db = some db := by
    simp [ukv_collection_drop]
  refine ⟨by simp [ukv_collection_drop, raise_error], h, ?_⟩
  intro db' hdb'
  rw [h] at hdb'
  cases hdb'
  exact ⟨rfl, rfl, fun _ => rfl⟩

/-- C13 on the database that lists `abc` and `xy`. -/
theorem C13_drop_main_handle_fails_witness :
    (ukv_collection_drop
      { db := some two_collections_db, id := 0,
        mode := .ukv_drop_keys_vals_handle_k }).db = some two_collections_db :=
  (C13_drop_main_handle_fails two_collections_db).2.1

/-- C14, the claim as it is written, fails: on a fresh database the drop of the handle
of the main collection is reported with the kind `args_combo`, not `args_wrong`. -/
theorem C14_args_wrong_counterexample :
    ((ukv_collection_drop
      { db := some fresh_db, id := ukv_collection_main_k,
        mode := .ukv_drop_keys_vals_handle_k }).error.bind (fun e => e.code))
      = some .args_combo_k ∧
    ((ukv_collection_drop
      { db := some fresh_db, id := ukv_collection_main_k,
        mode := .ukv_drop_keys_vals_handle_k }).error.bind (fun e => e.code))
      ≠ some .args_wrong_k := by
  decide

/-- C14 as amended: the drop of the handle of the main collection (id = main, mode
keys-values-handle) is reported with the error kind `args_combo` on every database, and
with the kind `args_wrong` on none, a null database handle included. -/
theorem C14_drop_main_handle_kind :
    (∀ db : rocks_db_t,
      ((ukv_collection_drop
        { db := some db, id := ukv_collection_main_k,
          mode := .ukv_drop_keys_vals_handle_k }).error.bind (fun e => e.code))
        = some .args_combo_k) ∧
    (∀ db : Option rocks_db_t,
      ((ukv_collection_drop
        { db := db, id := ukv_collection_main_k,
          mode := .ukv_drop_keys_vals_handle_k }).error.bind (fun e => e.code))
        ≠ some .args_wrong_k) := by
  constructor
  · intro db
    simp [ukv_collection_drop, raise_error]
  · intro db
    cases db <;> simp [ukv_collection_drop, raise_error]

/-! ## The layout of the listing -/

theorem list_fold_offsets (columns : List rocks_collection_t) (out : list_tape_t) :
    (columns.foldl list_step out).offsets
      = out.offsets ++
        (List.range (columns.filter (fun h => !(h.name == kDefaultColumnFamilyName))).length).map
          (fun i => (out.names.length +
            (((columns.filter (fun h => !(h.name == kDefaultColumnFamilyName))).take i).map
              name_entry).flatten.length) % 2 ^ 32) := by
  induction columns generalizing out with
  | nil => simp
  | cons h rest ih =>
    rw [List.foldl_cons, ih (list_step out h)]
    unfold list_step
    cases hd : h.name == kDefaultColumnFamilyName
    · simp only [Bool.false_eq_true, ↓reduceIte, List.filter_cons, hd, Bool.not_false,
        List.length_cons, List.range_succ_eq_map, List.map_cons, List.take_zero, List.map_nil,
        List.flatten_nil, List.length_nil, Nat.add_zero, List.map_map, List.append_assoc,
        List.singleton_append, List.length_append]
      congr 2
      apply List.map_congr_left
      intro i _
      simp only [Function.comp_apply, List.take_succ_cons, List.map_cons, List.flatten_cons,
        List.length_append, name_entry, List.length_singleton]
      congr 1
      omega
    · simp [hd]

theorem name_entry_length (h : rocks_collection_t) :
    (name_entry h).length = h.name.length + 1 := by
  unfold name_entry
  rw [List.length_append]
  rfl

/-- C15: on a database with exactly one handle of the default column family (main) and a
tape of names shorter than 2^32 characters, `ukv_collection_list` reports count = the
number of named collections, writes their ids and their names in catalogue order with
main omitted, ends every name on the tape with a NUL, and writes offsets such that
offsets[i] is the start of name i on the tape and offsets[count] is the total length of
the names written: the sum of the lengths of the names plus one for each name. -/
theorem C15_list_layout (db : rocks_db_t)
    (hdefault : (db.columns.filter (fun h => h.name == kDefaultColumnFamilyName)).length = 1)
    (hsize : db.columns.length < 2 ^ 64)
    (htape : ((named_handles db).map name_entry).flatten.length < 2 ^ 32) :
    (ukv_collection_list { db := some db, count := true, names := true }).error = none ∧
    (ukv_collection_list { db := some db, count := true, names := true }).count
      = some (named_handles db).length ∧
    (ukv_collection_list { db := some db, count := true, names := true }).ids
      = (named_handles db).map (fun h => h.address) ∧
    (ukv_collection_list { db := some db, count := true, names := true }).names
      = ((named_handles db).map name_entry).flatten ∧
    (ukv_collection_list { db := some db, count := true, names := true }).offsets.length
      = (named_handles db).length + 1 ∧
    (∀ i, i ≤ (named_handles db).length →
      (ukv_collection_list { db := some db, count := true, names := true }).offsets[i]?
        = some (((named_handles db).take i).map name_entry).flatten.length) ∧
    (ukv_collection_list { db := some db, count := true, names := true }).offsets[
        (named_handles db).length]?
      = some (((named_handles db).map (fun h => h.name.length + 1)).sum) ∧
    (∀ i h, (named_handles db)[i]? = some h →
      (((ukv_collection_list { db := some db, count := true, names := true }).names).drop
          (((named_handles db).take i).map name_entry).flatten.length).take (h.name.length + 1)
        = h.name.toList ++ [Char.ofNat 0]) := by
  obtain ⟨h1, h2⟩ := list_fold db.columns { ids := [], offsets := [], names := [] }
  have h3 := list_fold_offsets db.columns { ids := [], offsets := [], names := [] }
  have hsplit : db.columns.length
      = (db.columns.filter (fun h => h.name == kDefaultColumnFamilyName)).length
        + (db.columns.filter (fun h => !(h.name == kDefaultColumnFamilyName))).length :=
    List.length_eq_length_filter_add _
  have hcount : (db.columns.length + 2 ^ 64 - 1) % 2 ^ 64 = (named_handles db).length := by
    unfold named_handles
    rw [hdefault] at hsplit
    have : db.columns.length + 2 ^ 64 - 1
        = (db.columns.filter (fun h => !(h.name == kDefaultColumnFamilyName))).length
          + 2 ^ 64 := by omega
    rw [this, Nat.add_mod_right]
    apply Nat.mod_eq_of_lt
    omega
  have hnames : (ukv_collection_list { db := some db, count := true, names := true }).names
      = ((named_handles db).map name_entry).flatten := by
    simp only [ukv_collection_list, Bool.and_self, Bool.not_true, Bool.false_eq_true,
      ↓reduceIte, h2, List.nil_append]
    rfl
  have hoffsets : (ukv_collection_list { db := some db, count := true, names := true }).offsets
      = (List.range (named_handles db).length).map
          (fun i => (((named_handles db).take i).map name_entry).flatten.length % 2 ^ 32)
        ++ [((named_handles db).map name_entry).flatten.length % 2 ^ 32] := by
    simp only [ukv_collection_list, Bool.and_self, Bool.not_true, Bool.false_eq_true,
      ↓reduceIte, h2, h3, List.nil_append, List.length_nil, Nat.zero_add]
    rfl
  have hcell : ∀ i, i ≤ (named_handles db).length →
      (ukv_collection_list { db := some db, count := true, names := true }).offsets[i]?
        = some (((named_handles db).take i).map name_entry).flatten.length := by
    intro i hi
    have hle := flatten_take_le name_entry (named_handles db) i
    have hmod : (((named_handles db).take i).map name_entry).flatten.length % 2 ^ 32
        = (((named_handles db).take i).map name_entry).flatten.length :=
      Nat.mod_eq_of_lt (by omega)
    rw [hoffsets]
    rcases Nat.lt_or_eq_of_le hi with hlt | heq
    · rw [List.getElem?_append_left (by simpa using hlt)]
      rw [List.getElem?_map, List.getElem?_range hlt]
      simp only [Option.map_some', hmod]
    · rw [List.getElem?_append_right (by simp [heq])]
      simp only [List.length_map, List.length_range, heq, Nat.sub_self, List.getElem?_cons_zero,
        List.take_length]
      rw [Nat.mod_eq_of_lt htape]
  refine ⟨by simp [ukv_collection_list], ?_, ?_, hnames, ?_, hcell, ?_, ?_⟩
  · simp only [ukv_collection_list, Bool.and_self, Bool.not_true, Bool.false_eq_true,
      ↓reduceIte, hcount]
  · simp only [ukv_collection_list, Bool.and_self, Bool.not_true, Bool.false_eq_true,
      ↓reduceIte, h1, List.nil_append]
    rfl
  · rw [hoffsets]
    simp
  · rw [hcell _ (Nat.le_refl _), List.take_length, List.length_flatten, List.map_map]
    have hfun : (List.length ∘ name_entry) = (fun h => h.name.length + 1) :=
      funext name_entry_length
    rw [hfun]
  · intro i h hih
    obtain ⟨hil, hget⟩ := List.getElem?_eq_some_iff.mp hih
    rw [hnames]
    have hs := split_at_index (named_handles db) i hil
    rw [hget] at hs
    have := flatten_slice name_entry ((named_handles db).take i) ((named_handles db).drop (i + 1)) h
    rw [← hs, name_entry_length] at this
    exact this

/-- C15 on the database that lists `abc` and `xy`: two names, the tape `abc\0xy\0` of
seven characters, the offsets 0, 4 and 7. -/
theorem C15_list_layout_witness :
    (ukv_collection_list { db := some two_collections_db, count := true, names := true }).count
      = some (named_handles two_collections_db).length ∧
    (ukv_collection_list { db := some two_collections_db, count := true, names := true }).offsets[
        (named_handles two_collections_db).length]?
      = some (((named_handles two_collections_db).map (fun h => h.name.length + 1)).sum) ∧
    (ukv_collection_list { db := some two_collections_db, count := true, names := true }).offsets
      = [0, 4, 7] :=
  ⟨(C15_list_layout two_collections_db (by decide) (by decide) (by decide)).2.1,
   (C15_list_layout two_collections_db (by decide) (by decide) (by decide)).2.2.2.2.2.2.1,
   by decide⟩

/-! ## The search of a name in the listing -/

theorem contains_loop_iff (name : List Char) (names : List (List Char)) :
    contains_loop name names = true ↔ name ∈ names := by
  induction names with
  | nil => simp [contains_loop]
  | cons n rest ih =>
    unfold contains_loop
    by_cases h : n = name
    · simp [h]
    · have h2 : ¬ name = n := fun e => h e.symm
      simp [h, h2, ih]

/-- The listing of a context fails exactly when the context has no database. -/
theorem context_collections_status (self : context_t) :
    (self.collections.status_ = none ↔ self.db_.isSome = true) ∧
    (self.db_ = none →
      self.collections.status_ = raise_error .uninitialized_state_k "DataBase is uninitialized") := by
  unfold context_t.collections ukv_collection_list
  cases self.db_ <;> simp [raise_error]

/-- C16: `context_t::contains(name)` answers true for the empty name without asking for
the listing; for every other name it asks for the listing of `collections()`: when the
listing fails it returns that failure and no boolean, and when the listing succeeds it
returns no failure and the answer true if and only if the name equals one of the names of
the listing. So, on a context whose listing succeeds, the answer is true exactly when the
name is empty or is one of the listed names. -/
theorem C16_contains_searches_listing (self : context_t) (name : List Char) :
    (name = [] → self.contains name = { status_ := none, object_ := true }) ∧
    (name ≠ [] → ∀ failure, self.collections.status_ = some failure →
      self.contains name = { status_ := some failure, object_ := false }) ∧
    (self.collections.status_ = none →
      (self.contains name).status_ = none ∧
      ((self.contains name).object_ = true ↔
        name = [] ∨ name ∈ self.collections.object_.names)) ∧
    ((self.contains name).status_ = none ∧ (self.contains name).object_ = true ↔
      name = [] ∨
        (self.collections.status_ = none ∧ name ∈ self.collections.object_.names)) := by
  have hloop := contains_loop_iff name self.collections.object_.names
  cases name with
  | nil =>
    refine ⟨fun _ => rfl, fun h => absurd rfl h, fun _ => ⟨rfl, ?_⟩, ?_⟩
    · simp [context_t.contains]
    · simp [context_t.contains]
  | cons ch rest =>
    refine ⟨fun h => (by cases h), ?_, ?_, ?_⟩
    · intro _ failure hf
      simp [context_t.contains, expected_gt.to_bool, hf]
    · intro hs
      simp only [context_t.contains, List.isEmpty_cons, Bool.false_eq_true, ↓reduceIte,
        expected_gt.to_bool, hs, Option.isNone_none, Bool.not_true, true_and]
      rw [hloop]
      simp
    · cases hs : self.collections.status_ with
      | none =>
        simp only [context_t.contains, List.isEmpty_cons, Bool.false_eq_true, ↓reduceIte,
          expected_gt.to_bool, hs, Option.isNone_none, Bool.not_true, true_and]
        rw [hloop]
        simp
      | some failure =>
        simp [context_t.contains, expected_gt.to_bool, hs]

/-- C16 on the database that lists `abc` and `xy`: `xy` is found, `x` is not, and on a
context without a database the search of `xy` returns the failure of the listing. -/
theorem C16_contains_searches_listing_witness :
    (({ db_ := some two_collections_db, txn_ := none } : context_t).contains
      [Char.ofNat 120, Char.ofNat 121]).object_ = true ∧
    (({ db_ := some two_collections_db, txn_ := none } : context_t).contains
      [Char.ofNat 120]).object_ = false ∧
    ({ db_ := none, txn_ := none } : context_t).contains [Char.ofNat 120, Char.ofNat 121]
      = { status_ := raise_error .uninitialized_state_k "DataBase is uninitialized",
          object_ := false } :=
  ⟨((C16_contains_searches_listing { db_ := some two_collections_db, txn_ := none }
      [Char.ofNat 120, Char.ofNat 121]).2.2.1 (by decide)).2.mpr (Or.inr (by decide)),
   by decide,
   (C16_contains_searches_listing { db_ := none, txn_ := none }
      [Char.ofNat 120, Char.ofNat 121]).2.1 (by decide) _ rfl⟩

/-! ## The watch flag inside a transaction -/

theorem txn_write_call_op (watch : Bool) (collection : Nat) (key : slice_t)
    (content : value_view_t) :
    (txn_write_call watch collection key content).op.collection = collection ∧
    (txn_write_call watch collection key content).op.key = key ∧
    (txn_write_call watch collection key content).tracks = watch := by
  unfold txn_write_call
  cases watch <;> cases content.to_bool <;> exact ⟨rfl, rfl, rfl⟩

theorem tasks_of_places (places : List place_t) (contents : List value_view_t) :
    (tasks_of places contents).map (fun t => t.1) = places := by
  unfold tasks_of
  rw [List.map_map]
  apply List.ext_getElem
  · simp
  · intro i h1 h2
    simp [place_at, List.getD_eq_getElem?_getD, List.getElem?_eq_getElem h2]

/-- The keys a run of staged writes enrols: none without the watch, and with it the key
of every task up to the first one for which the store fails. -/
theorem write_many_txn_tracked (db : rocks_db_t) (watch : Bool)
    (tasks : List (place_t × value_view_t)) (txn : rocks_txn_t) :
    (write_many_txn db watch tasks txn none).1.tracked
      = if watch then
          txn.tracked ++ (store_keys db (tasks.map (fun t => t.1))).takeWhile
            (fun ck => db.native.health ck.1 ck.2 == .kOk)
        else txn.tracked := by
  induction tasks generalizing txn with
  | nil => cases watch <;> simp [write_many_txn, store_keys]
  | cons t rest ih =>
    obtain ⟨place, content⟩ := t
    obtain ⟨hc, hk, ht⟩ := txn_write_call_op watch (rocks_collection db place.collection)
      (to_slice place.key) content
    by_cases hh : db.native.health (rocks_collection db place.collection)
        (to_slice place.key) = .kOk
    · have hrun : txn.run db.native
          (txn_write_call watch (rocks_collection db place.collection) (to_slice place.key)
            content)
          = (.kOk,
              if watch then
                ({ txn with
                    batch := txn.batch ++ [(txn_write_call watch
                      (rocks_collection db place.collection) (to_slice place.key) content).op]
                  } : rocks_txn_t).track (rocks_collection db place.collection)
                    (to_slice place.key)
              else
                { txn with
                  batch := txn.batch ++ [(txn_write_call watch
                    (rocks_collection db place.collection) (to_slice place.key) content).op] }) := by
        unfold rocks_txn_t.run
        simp only [hc, hk, ht, hh, bne_self_eq_false, Bool.false_eq_true, ↓reduceIte]
      have he : (export_error rocks_status_t.kOk none).2 = none := rfl
      simp only [write_many_txn, hrun, he, Option.isSome_none, Bool.false_eq_true, ↓reduceIte]
      rw [ih]
      cases watch
      · simp
      · simp [store_keys, rocks_txn_t.track, hh]
    · have hrun : txn.run db.native
          (txn_write_call watch (rocks_collection db place.collection) (to_slice place.key)
            content)
          = (db.native.health (rocks_collection db place.collection) (to_slice place.key),
              txn) := by
        unfold rocks_txn_t.run
        simp only [hc, hk, bne_iff_ne, ne_eq, hh, not_false_eq_true, ↓reduceIte]
      have hne : (export_error (db.native.health (rocks_collection db place.collection)
          (to_slice place.key)) none).2 ≠ none := by
        intro hx; exact hh ((export_error_none _).mp hx)
      have hsome : ((export_error (db.native.health (rocks_collection db place.collection)
          (to_slice place.key)) none).2).isSome = true := by
        cases hx : (export_error (db.native.health (rocks_collection db place.collection)
          (to_slice place.key)) none).2 with
        | none => exact absurd hx hne
        | some _ => rfl
      simp only [write_many_txn, hrun, hsome, ↓reduceIte]
      cases watch
      · simp
      · simp [store_keys, hh]

theorem track_fold (native : rocks_native_t) (keys : List (Nat × slice_t)) (txn : rocks_txn_t) :
    keys.foldl
        (fun t ck => if native.health ck.1 ck.2 != .kOk then t else t.track ck.1 ck.2) txn
      = { batch := txn.batch
          tracked := txn.tracked ++ keys.filter (fun ck => native.health ck.1 ck.2 == .kOk) } := by
  induction keys generalizing txn with
  | nil => simp
  | cons ck rest ih =>
    rw [List.foldl_cons, ih]
    by_cases hh : native.health ck.1 ck.2 = .kOk
    · simp [hh, rocks_txn_t.track]
    · simp [hh]

/-- The transaction a read leaves: untouched without the watch, and with it the keys of
the places for which the store answers are enrolled. -/
theorem ukv_read_transaction (db : rocks_db_t) (txn : rocks_txn_t) (places : List place_t)
    (options : ukv_options_t) (values : Bool) :
    (ukv_read
      { db := some db, transaction := some txn, places := places, options := options,
        values := values, validation := none }).transaction
      = some
        (if options.transaction_dont_watch then txn
         else
          { batch := txn.batch
            tracked := txn.tracked ++ (store_keys db places).filter
              (fun ck => db.native.health ck.1 ck.2 == .kOk) }) := by
  match places with
  | [] =>
    cases hw : options.transaction_dont_watch <;>
      simp [ukv_read, read_result_t.untouched, store_keys]
  | [place] =>
    cases hw : options.transaction_dont_watch
    · by_cases hh : db.native.health (rocks_collection db place.collection)
          (to_slice place.key) = .kOk
      · simp [ukv_read, read_one, place_at, hw, rocks_txn_t.GetForUpdate, hh, store_keys,
          rocks_txn_t.track]
      · simp [ukv_read, read_one, place_at, hw, rocks_txn_t.GetForUpdate, hh, store_keys]
    · simp [ukv_read, read_one, hw]
  | p :: q :: rest =>
    cases hw : options.transaction_dont_watch
    · have hzip : List.zip
          ((p :: q :: rest).map (fun place : place_t => rocks_collection db place.collection))
          ((p :: q :: rest).map (fun place : place_t => to_slice place.key))
          = store_keys db (p :: q :: rest) := by
        unfold store_keys
        rw [List.zip_map']
      simp only [ukv_read, List.length_cons, Nat.add_eq_zero, one_ne_zero, and_false,
        ↓reduceIte, Option.isSome_none, Bool.false_eq_true, Nat.add_eq_right, read_many, hw,
        Bool.not_false, rocks_txn_t.MultiGetForUpdate, hzip, track_fold]
    · simp [ukv_read, read_many, hw]

/-- C17: inside a transaction, for every value of the options, `ukv_write` makes the
tracked calls `Put` and `Delete` exactly when the flag transaction-dont-watch is clear and
the untracked calls `PutUntracked` and `DeleteUntracked` when it is set, and `ukv_read`
reads with `GetForUpdate` or `MultiGetForUpdate` exactly when the flag is clear. With the
flag set neither call enrols a key: the conflict set of the transaction is as it was, and
a read leaves the transaction untouched. With the flag clear the key of every place the
store answers for is enrolled: a read enrols each such key, a write each key up to the
first place for which the store fails (where the write stops). -/
theorem C17_watch_flag (db : rocks_db_t) (txn : rocks_txn_t) (places : List place_t)
    (contents : List value_view_t) (options : ukv_options_t) (values : Bool) :
    (∀ collection key content,
      (txn_write_call (!options.transaction_dont_watch) collection key content).tracks
        = !options.transaction_dont_watch) ∧
    (∀ collection key content,
      (txn_write_call true collection key content = .Put collection key (value_to_slice content) ∨
        txn_write_call true collection key content = .Delete collection key) ∧
      (txn_write_call false collection key content
          = .PutUntracked collection key (value_to_slice content) ∨
        txn_write_call false collection key content = .DeleteUntracked collection key)) ∧
    (options.transaction_dont_watch = true →
      (∃ t', (ukv_write
          { db := some db, transaction := some txn, places := places, contents := contents,
            options := options, validation := none }).transaction = some t' ∧
        t'.tracked = txn.tracked) ∧
      (ukv_read
          { db := some db, transaction := some txn, places := places, options := options,
            values := values, validation := none }).transaction = some txn) ∧
    (options.transaction_dont_watch = false →
      (∃ t', (ukv_write
          { db := some db, transaction := some txn, places := places, contents := contents,
            options := options, validation := none }).transaction = some t' ∧
        t'.tracked = txn.tracked ++ (store_keys db places).takeWhile
          (fun ck => db.native.health ck.1 ck.2 == .kOk)) ∧
      (ukv_read
          { db := some db, transaction := some txn, places := places, options := options,
            values := values, validation := none }).transaction
        = some
          { batch := txn.batch
            tracked := txn.tracked ++ (store_keys db places).filter
              (fun ck => db.native.health ck.1 ck.2 == .kOk) } ∧
      (∀ place, places = [place] →
        (ukv_read
          { db := some db, transaction := some txn, places := places, options := options,
            values := values, validation := none }).transaction
          = some (txn.GetForUpdate db.native (rocks_collection db place.collection)
              (to_slice place.key)).2) ∧
      (2 ≤ places.length →
        (ukv_read
          { db := some db, transaction := some txn, places := places, options := options,
            values := values, validation := none }).transaction
          = some (txn.MultiGetForUpdate db.native
              (places.map (fun place => rocks_collection db place.collection))
              (places.map (fun place => to_slice place.key))).2)) := by
  have hread := ukv_read_transaction db txn places options values
  have hwrite : ∃ t', (ukv_write
      { db := some db, transaction := some txn, places := places, contents := contents,
        options := options, validation := none }).transaction = some t' ∧
      t'.tracked = if !options.transaction_dont_watch then
          txn.tracked ++ (store_keys db places).takeWhile
            (fun ck => db.native.health ck.1 ck.2 == .kOk)
        else txn.tracked := by
    by_cases hne : places = []
    · subst hne
      refine ⟨txn, by simp [ukv_write], ?_⟩
      cases options.transaction_dont_watch <;> simp [store_keys]
    · rw [ukv_write_inside db txn places contents options hne]
      refine ⟨_, rfl, ?_⟩
      rw [write_many_txn_tracked, tasks_of_places]
  refine ⟨fun c k v => (txn_write_call_op _ c k v).2.2, ?_, ?_, ?_⟩
  · intro c k content
    unfold txn_write_call
    cases content.to_bool <;> simp
  · intro hw
    rw [hw] at hread
    obtain ⟨t', h1, h2⟩ := hwrite
    rw [hw] at h2
    exact ⟨⟨t', h1, by simpa using h2⟩, by simpa using hread⟩
  · intro hw
    rw [hw] at hread
    obtain ⟨t', h1, h2⟩ := hwrite
    rw [hw] at h2
    refine ⟨⟨t', h1, by simpa using h2⟩, by simpa using hread, ?_, ?_⟩
    · intro place hp
      subst hp
      simp [ukv_read, read_one, place_at, hw]
    · intro hlen
      have h0 : places.length ≠ 0 := by omega
      have h1 : places.length ≠ 1 := by omega
      simp [ukv_read, h0, h1, read_many, hw]

/-- C17 on a fresh database and an empty transaction: a watched read of the key 42 of
main enrols the key, and the same read with the flag set leaves the transaction as it
was. -/
theorem C17_watch_flag_witness :
    (ukv_read
      { db := some fresh_db, transaction := some { batch := [], tracked := [] },
        places := [{ collection := 0, key := 42 }], options := ukv_options_default_k,
        values := true, validation := none }).transaction
      = some { batch := [], tracked := [(1, to_slice 42)] } ∧
    (ukv_read
      { db := some fresh_db, transaction := some { batch := [], tracked := [] },
        places := [{ collection := 0, key := 42 }],
        options := { ukv_options_default_k with transaction_dont_watch := true },
        values := true, validation := none }).transaction
      = some { batch := [], tracked := [] } :=
  ⟨((C17_watch_flag fresh_db { batch := [], tracked := [] } [{ collection := 0, key := 42 }]
      [] ukv_options_default_k true).2.2.2 rfl).2.1.trans (by decide),
   ((C17_watch_flag fresh_db { batch := [], tracked := [] } [{ collection := 0, key := 42 }]
      [] { ukv_options_default_k with transaction_dont_watch := true } true).2.2.1 rfl).2⟩

/-! ## The commit that reports a sequence number -/

theorem transaction_init_message (c : ukv_transaction_init_t)
    (hval : ∀ failure, c.validation = some failure →
      failure.message ≠ "Snapshots not supported!") :
    ∀ failure, (ukv_transaction_init c).error = some failure →
      failure.message ≠ "Snapshots not supported!" := by
  intro failure hf
  unfold ukv_transaction_init at hf
  cases hdb : c.db with
  | none =>
    simp only [hdb, raise_error, Option.some.injEq] at hf
    rw [← hf]
    decide
  | some db =>
    cases hv : c.validation with
    | some e =>
      simp only [hdb, hv, Option.isSome_some, ↓reduceIte, Option.some.injEq] at hf
      rw [← hf]
      exact hval e hv
    | none =>
      simp only [hdb, hv, Option.isSome_none, Bool.false_eq_true, ↓reduceIte] at hf
      split at hf
      · simp only [Option.some.injEq] at hf
        rw [← hf]
        decide
      · cases hf

/-- C19: the engine publishes `ukv_supports_snapshots_k = false`, so
`database_t::transact(true)` and `context_t::reset(true)` fail with the fixed diagnostic
"Snapshots not supported!" before they ask the engine for a transaction: `transact`
returns no transaction and `reset` leaves the context as it was. `transact(false)` and
`reset(false)` never return that diagnostic, as long as the validation helper of
`ukv_transaction_init` (which is not among the sources) does not produce it. -/
theorem C19_snapshots_not_supported (self : database_t) (context : context_t)
    (validation : ukv_error_t)
    (hval : ∀ failure, validation = some failure →
      failure.message ≠ "Snapshots not supported!") :
    ukv_supports_snapshots_k = false ∧
    self.transact true validation
      = { status_ := some { message := "Snapshots not supported!", code := none }
          object_ := { db_ := none, txn_ := none } } ∧
    context.reset true validation
      = (some { message := "Snapshots not supported!", code := none }, context) ∧
    (∀ failure, (self.transact false validation).status_ = some failure →
      failure.message ≠ "Snapshots not supported!") ∧
    (∀ failure, (context.reset false validation).1 = some failure →
      failure.message ≠ "Snapshots not supported!") := by
  refine ⟨rfl, rfl, rfl, ?_, ?_⟩
  · intro failure hf
    have hinit := transaction_init_message
      { db := self.db_, transaction := none, options := ukv_options_default_k,
        validation := validation } hval failure
    apply hinit
    simp only [database_t.transact, Bool.false_and, Bool.false_eq_true, ↓reduceIte] at hf
    split at hf
    · exact hf
    · cases hf
  · intro failure hf
    exact transaction_init_message
      { db := context.db_, transaction := context.txn_, options := ukv_options_default_k,
        validation := validation } hval failure hf

/-- C19 on the fresh database: a snapshot transaction is refused with the diagnostic,
and a plain one starts an empty transaction. -/
theorem C19_snapshots_not_supported_witness :
    ({ db_ := some fresh_db } : database_t).transact true none
      = { status_ := some { message := "Snapshots not supported!", code := none }
          object_ := { db_ := none, txn_ := none } } ∧
    ({ db_ := some fresh_db } : database_t).transact false none
      = { status_ := none
          object_ := { db_ := some fresh_db, txn_ := some { batch := [], tracked := [] } } } :=
  ⟨(C19_snapshots_not_supported { db_ := some fresh_db } { db_ := none, txn_ := none } none
      (fun _ h => by cases h)).2.1,
   by decide⟩

/-! ## The failure mapping -/

/-- C20: `export_error` returns false and leaves the error slot unchanged exactly when
the status of the store is `ok`; for every other status it returns true and sets the slot
to a fixed string: "Failure: DB Corruption" for a corruption, "Failure: IO  Error" for an
I/O error, "Failure: Invalid Argument" for an invalid argument, and "Failure" for any
other status (`not found` included). -/
theorem C20_export_error_strings (status : rocks_status_t) (c_error : ukv_error_t) :
    (((export_error status c_error).1 = false ∧ (export_error status c_error).2 = c_error)
      ↔ status = .kOk) ∧
    ((export_error status c_error).1 = false ↔ status = .kOk) ∧
    (status ≠ .kOk →
      (export_error status c_error).1 = true ∧
      (export_error status c_error).2 = some
        { message :=
            match status with
            | .kCorruption => "Failure: DB Corruption"
            | .kIOError => "Failure: IO  Error"
            | .kInvalidArgument => "Failure: Invalid Argument"
            | _ => "Failure"
          code := none }) := by
  cases status <;>
    simp [export_error, rocks_status_t.ok, rocks_status_t.IsCorruption,
      rocks_status_t.IsIOError, rocks_status_t.IsInvalidArgument]

/-- C20 on an I/O error met with an empty slot and on `ok` met with a full one. -/
theorem C20_export_error_strings_witness :
    export_error .kIOError none = (true, some { message := "Failure: IO  Error", code := none }) ∧
    export_error .kOk (some { message := "Failure", code := none })
      = (false, some { message := "Failure", code := none }) := by
  have h := C20_export_error_strings .kIOError none
  exact ⟨Prod.ext (h.2.2 (by decide)).1 (h.2.2 (by decide)).2, rfl⟩

/-! ## The drop of an identifier that is not in the catalogue -/

/-- The lookup of an identifier that no handle of the database has ends on the last
handle. -/
theorem drop_lookup_missing (id : Nat) (columns : List rocks_collection_t) (current : Nat)
    (h : ∀ x ∈ columns, x.address ≠ id) :
    drop_lookup id columns current = (columns.getLast?.map (fun x => x.address)).getD current := by
  induction columns generalizing current with
  | nil => rfl
  | cons c rest ih =>
    unfold drop_lookup
    have hc : ¬ c.address = id := h c (List.mem_cons_self _ _)
    simp only [hc, ↓reduceIte]
    rw [ih c.address (fun x hx => h x (List.mem_cons_of_mem _ hx))]
    cases rest with
    | nil => rfl
    | cons d rest2 =>
      have hl := List.getLast?_eq_getLast (d :: rest2) (by simp)
      rw [List.getLast?_cons_cons, hl]
      rfl

/-- A drop of an identifier that is neither main nor in the catalogue is the drop of the
collection whose handle is the last of the database. -/
theorem drop_unknown_eq_drop_last (db : rocks_db_t) (id : Nat) (mode : ukv_drop_mode_t)
    (last : rocks_collection_t)
    (hmain : id ≠ ukv_collection_main_k) (hmiss : ∀ x ∈ db.columns, x.address ≠ id)
    (hlast : db.columns.getLast? = some last) (hlive : last.address ≠ ukv_collection_main_k) :
    ukv_collection_drop { db := some db, id := id, mode := mode }
      = ukv_collection_drop { db := some db, id := last.address, mode := mode } := by
  have h1 : drop_lookup id db.columns 0 = last.address := by
    rw [drop_lookup_missing id db.columns 0 hmiss, hlast]
    rfl
  have h2 : drop_lookup last.address db.columns 0 = last.address :=
    drop_lookup_found _ _ _ ⟨last, List.mem_of_getLast?_eq_some hlast, rfl⟩
  have hm1 : (id != ukv_collection_main_k) = true := by simpa using hmain
  have hm2 : (last.address != ukv_collection_main_k) = true := by simpa using hlive
  unfold ukv_collection_drop
  simp only [hm1, hm2, Bool.true_or, Bool.not_true, Bool.false_eq_true, ↓reduceIte, hmain, hlive,
    h1, h2]

/-- C25 (the code at a failing input): on the database that lists `abc` (id 2) and `xy`
(id 3, with the key 7), the identifier 99 is neither main nor in the catalogue, and yet
`ukv_collection_drop` of 99 acts on `xy`, the collection created last: the mode
keys-values-handle removes it from the listing, the mode keys-values deletes its key and
the mode vals empties the value of its key. -/
theorem C25_unknown_id_failing_input :
    (99 : Nat) ≠ ukv_collection_main_k ∧
    (∀ h ∈ xy_db.columns, h.address ≠ 99) ∧
    (collections xy_db).map (fun p => p.1) = [2, 3] ∧
    collection_keys xy_db none 3 = [7] ∧
    (ukv_collection_drop
      { db := some xy_db, id := 99, mode := .ukv_drop_keys_vals_handle_k }).error = none ∧
    ((ukv_collection_drop
      { db := some xy_db, id := 99, mode := .ukv_drop_keys_vals_handle_k }).db.map
        (fun db => (collections db).map (fun p => p.1))) = some [2] ∧
    (ukv_collection_drop
      { db := some xy_db, id := 99, mode := .ukv_drop_keys_vals_k }).error = none ∧
    ((ukv_collection_drop
      { db := some xy_db, id := 99, mode := .ukv_drop_keys_vals_k }).db.map
        (fun db => collection_keys db none 3)) = some [] ∧
    (ukv_collection_drop
      { db := some xy_db, id := 99, mode := .ukv_drop_vals_k }).error = none ∧
    ((ukv_collection_drop
      { db := some xy_db, id := 99, mode := .ukv_drop_vals_k }).db.map
        (fun db => db.native.Get 3 (to_slice 7))) = some (.kOk, []) ∧
    xy_db.native.Get 3 (to_slice 7) = (.kOk, hello.bytes) := by
  decide

/-! ## Clearing a database -/

/-- The handle mode of a drop, for the identifier of a handle of the database other than
main: the store drops the column family and the handle leaves the database, or the store
fails and the database is as it was. -/
theorem drop_handle_eq (db : rocks_db_t) (id : Nat)
    (hmain : id ≠ ukv_collection_main_k) (hmem : ∃ h ∈ db.columns, h.address = id) :
    ukv_collection_drop { db := some db, id := id, mode := .ukv_drop_keys_vals_handle_k }
      = if (export_error (db.native.DropColumnFamily id).1 none).1 then
          { db := some db, error := (export_error (db.native.DropColumnFamily id).1 none).2 }
        else
          { db := some
              { columns := erase_handle id db.columns
                native := (db.native.DropColumnFamily id).2
                mutex := db.mutex }
            error := none } := by
  have hlook : drop_lookup id db.columns 0 = id := drop_lookup_found id db.columns 0 hmem
  have hany : db.columns.any (fun x => id == x.address) = true := by
    obtain ⟨h, hh, hha⟩ := hmem
    rw [List.any_eq_true]
    exact ⟨h, hh, by simp [hha]⟩
  have hm : (id != ukv_collection_main_k) = true := by simpa using hmain
  simp only [ukv_collection_drop, hm, Bool.true_or, Bool.not_true, Bool.false_eq_true,
    ↓reduceIte, hmain, hlook, hany]

theorem find?_filter_of_imp {α : Type} (p q : α → Bool) (l : List α)
    (h : ∀ x ∈ l, p x = true → q x = true) :
    (l.filter q).find? p = l.find? p := by
  induction l with
  | nil => rfl
  | cons x rest ih =>
    have ih' := ih (fun y hy => h y (List.mem_cons_of_mem _ hy))
    rw [List.filter_cons, List.find?_cons]
    cases hp : p x
    · cases hq : q x
      · simpa using ih'
      · simp only [↓reduceIte, List.find?_cons, hp]
        exact ih'
    · have hq := h x (List.mem_cons_self _ _) hp
      simp [hq, hp]

/-- A column family the store dropped: the status is `ok`, the family had another name
than the default one, and the families left are those of the other handles. -/
theorem DropColumnFamily_ok (native : rocks_native_t) (id : Nat)
    (h : (native.DropColumnFamily id).1 = .kOk) :
    (native.DropColumnFamily id).2
      = { native with families := native.families.filter (fun g => g.handle != id) } ∧
    ∃ f, native.family id = some f ∧ (f.name == kDefaultColumnFamilyName) = false := by
  unfold rocks_native_t.DropColumnFamily at h ⊢
  by_cases hm : native.manifest = .kOk
  · simp only [hm, bne_self_eq_false, Bool.false_eq_true, ↓reduceIte] at h ⊢
    cases hf : native.family id with
    | none => simp [hf] at h
    | some f =>
      simp only [hf] at h ⊢
      cases hn : f.name == kDefaultColumnFamilyName
      · have hn2 : ¬ f.name = kDefaultColumnFamilyName := by simpa using hn
        simp [hn2, hm]
      · simp [hn] at h
  · simp only [bne_iff_ne, ne_eq, hm, not_false_eq_true, ↓reduceIte] at h

/-- The drop of a column family leaves the other handles as they were: their families,
and the answers of the store for their keys. -/
theorem DropColumnFamily_other (native : rocks_native_t) (id c : Nat) (hne : c ≠ id)
    (h : (native.DropColumnFamily id).1 = .kOk) :
    (native.DropColumnFamily id).2.family c = native.family c ∧
    (∀ key, (native.DropColumnFamily id).2.health c key = native.health c key) := by
  obtain ⟨heq, _⟩ := DropColumnFamily_ok native id h
  have hfam : (native.DropColumnFamily id).2.family c = native.family c := by
    rw [heq]
    unfold rocks_native_t.family
    apply find?_filter_of_imp
    intro x _ hx
    have hxc : x.handle = c := by simpa using hx
    simpa [hxc] using hne
  refine ⟨hfam, ?_⟩
  intro key
  unfold rocks_native_t.health
  rw [hfam, heq]

/-- The drop of a column family with another handle than the default one leaves the
default column family where it was. -/
theorem DropColumnFamily_default (native : rocks_native_t) (id : Nat)
    (hne : native.DefaultColumnFamily ≠ id)
    (h : (native.DropColumnFamily id).1 = .kOk) :
    (native.DropColumnFamily id).2.DefaultColumnFamily = native.DefaultColumnFamily := by
  obtain ⟨heq, _⟩ := DropColumnFamily_ok native id h
  rw [heq]
  unfold rocks_native_t.DefaultColumnFamily at hne ⊢
  simp only
  cases hf : native.families.find? (fun f => f.name == kDefaultColumnFamilyName) with
  | none =>
    have : (native.families.filter (fun g => g.handle != id)).find?
        (fun f => f.name == kDefaultColumnFamilyName) = none := by
      rw [List.find?_eq_none] at hf ⊢
      intro x hx
      exact hf x (List.mem_filter.mp hx).1
    rw [this]
  | some f0 =>
    rw [hf] at hne
    simp only at hne
    have : (native.families.filter (fun g => g.handle != id)).find?
        (fun f => f.name == kDefaultColumnFamilyName) = some f0 := by
      generalize native.families = l at hf
      induction l with
      | nil => simp at hf
      | cons x rest ih =>
        rw [List.find?_cons] at hf
        cases hx : x.name == kDefaultColumnFamilyName
        · rw [hx] at hf
          simp only at hf
          rw [List.filter_cons]
          split
          · rw [List.find?_cons, hx]
            exact ih hf
          · exact ih hf
        · rw [hx] at hf
          simp only [Option.some.injEq] at hf
          subst hf
          have hkeep : (x.handle != id) = true := by simpa using hne
          rw [List.filter_cons, hkeep]
          simp [hx]
    rw [this]

theorem export_error_flag (status : rocks_status_t) :
    ((export_error status none).1 = false → status = .kOk) ∧
    ((export_error status none).1 = true → (export_error status none).2.isSome = true) := by
  cases status <;> simp [export_error, rocks_status_t.ok, rocks_status_t.IsCorruption,
    rocks_status_t.IsIOError, rocks_status_t.IsInvalidArgument]

/-- The loop of `clear` that ends without an error has dropped the handle of every
identifier it was given, and has left the default column family of the store, and the
answers of the store for its keys, as they were. -/
theorem clear_loop_ok (ids : List Nat) (db db' : rocks_db_t)
    (hnodup : (db.columns.map (fun h => h.address)).Nodup) (hids : ids.Nodup)
    (hmem : ∀ id ∈ ids, id ≠ ukv_collection_main_k ∧ ∃ h ∈ db.columns, h.address = id)
    (hdefault : db.native.DefaultColumnFamily ∉ ids)
    (hok : clear_loop ids db = (none, db')) :
    db'.columns = db.columns.filter (fun h => !(ids.contains h.address)) ∧
    db'.native.DefaultColumnFamily = db.native.DefaultColumnFamily ∧
    (∀ key, db'.native.health db.native.DefaultColumnFamily key
      = db.native.health db.native.DefaultColumnFamily key) := by
  induction ids generalizing db with
  | nil =>
    simp only [clear_loop, Prod.mk.injEq, true_and] at hok
    subst hok
    simp
  | cons id rest ih =>
    obtain ⟨hidmain, hidmem⟩ := hmem id (List.mem_cons_self _ _)
    have hdrop := drop_handle_eq db id hidmain hidmem
    rw [List.nodup_cons] at hids
    have hDid : db.native.DefaultColumnFamily ≠ id := by
      intro h; exact hdefault (h ▸ List.mem_cons_self _ _)
    unfold clear_loop at hok
    rw [hdrop] at hok
    cases hflag : (export_error (db.native.DropColumnFamily id).1 none).1
    · have hst := (export_error_flag _).1 hflag
      simp only [hflag, Bool.false_eq_true, ↓reduceIte, Option.isSome_none,
        Option.getD_some] at hok
      have herase := erase_handle_eq_filter id db.columns hnodup
      have hnodup1 : ((erase_handle id db.columns).map (fun h => h.address)).Nodup := by
        rw [herase]
        exact hnodup.sublist ((List.filter_sublist _).map _)
      obtain ⟨h1, h2, h3⟩ := ih
        { columns := erase_handle id db.columns
          native := (db.native.DropColumnFamily id).2
          mutex := db.mutex } hnodup1 hids.2
        (by
          intro id' hid'
          obtain ⟨hm', h, hh, hha⟩ := hmem id' (List.mem_cons_of_mem _ hid')
          refine ⟨hm', h, ?_, hha⟩
          simp only [herase]
          rw [List.mem_filter]
          refine ⟨hh, ?_⟩
          simp only [bne_iff_ne, ne_eq, hha]
          intro heq
          exact hids.1 (heq ▸ hid'))
        (by
          simp only [DropColumnFamily_default db.native id hDid hst]
          intro hin
          exact hdefault (List.mem_cons_of_mem _ hin))
        hok
      simp only at h1 h2 h3
      rw [DropColumnFamily_default db.native id hDid hst] at h2 h3
      refine ⟨?_, h2, ?_⟩
      · rw [h1, herase, List.filter_filter]
        apply List.filter_congr
        intro x _
        by_cases hx : x.address = id
        · simp [hx]
        · have hx2 : ¬ id = x.address := fun e => hx e.symm
          simp [hx, hx2, List.contains_cons, Bool.and_comm]
      · intro key
        rw [h3 key]
        exact (DropColumnFamily_other db.native id _ hDid hst).2 key
    · have hsome := (export_error_flag _).2 hflag
      simp only [hflag, ↓reduceIte, hsome, Prod.mk.injEq] at hok
      rw [hok.1] at hsome
      cases hsome

/-- The count and the identifiers of a listing of a database with exactly one handle of
the default column family. -/
theorem list_count_ids (db : rocks_db_t)
    (hdefault : (db.columns.filter (fun h => h.name == kDefaultColumnFamilyName)).length = 1)
    (hsize : db.columns.length < 2 ^ 64) :
    (ukv_collection_list { db := some db, count := true, names := true }).error = none ∧
    (ukv_collection_list { db := some db, count := true, names := true }).count
      = some (named_handles db).length ∧
    (ukv_collection_list { db := some db, count := true, names := true }).ids
      = (named_handles db).map (fun h => h.address) := by
  obtain ⟨h1, _⟩ := list_fold db.columns { ids := [], offsets := [], names := [] }
  have hsplit : db.columns.length
      = (db.columns.filter (fun h => h.name == kDefaultColumnFamilyName)).length
        + (db.columns.filter (fun h => !(h.name == kDefaultColumnFamilyName))).length :=
    List.length_eq_length_filter_add _
  have hcount : (db.columns.length + 2 ^ 64 - 1) % 2 ^ 64 = (named_handles db).length := by
    unfold named_handles
    rw [hdefault] at hsplit
    have : db.columns.length + 2 ^ 64 - 1
        = (db.columns.filter (fun h => !(h.name == kDefaultColumnFamilyName))).length
          + 2 ^ 64 := by omega
    rw [this, Nat.add_mod_right]
    apply Nat.mod_eq_of_lt
    omega
  refine ⟨by simp [ukv_collection_list], ?_, ?_⟩
  · simp only [ukv_collection_list, Bool.and_self, Bool.not_true, Bool.false_eq_true,
      ↓reduceIte, hcount]
  · simp only [ukv_collection_list, Bool.and_self, Bool.not_true, Bool.false_eq_true,
      ↓reduceIte, h1, List.nil_append]
    rfl

/-- The drop of the entries of a collection of the catalogue that leaves the error slot
empty: the database after it, and the iterator of the collection, which has no entry. -/
theorem drop_keys_vals_ok (db : rocks_db_t) (id : Nat)
    (hcat : id = ukv_collection_main_k ∨ ∃ h ∈ db.columns, h.address = id)
    (hok : (ukv_collection_drop
      { db := some db, id := id, mode := .ukv_drop_keys_vals_k }).error = none) :
    ∃ ops : List batch_op_t,
      (ukv_collection_drop { db := some db, id := id, mode := .ukv_drop_keys_vals_k }).db
        = some { columns := db.columns, native := ops.foldl rocks_native_t.apply db.native,
                 mutex := db.mutex } ∧
      (ops.foldl rocks_native_t.apply db.native).NewIterator (rocks_collection db id) = [] := by
  have hdrop := drop_keys_vals_eq db id hcat
  rw [hdrop] at hok ⊢
  simp only at hok
  have hst := (export_error_none _).mp hok
  obtain ⟨_, hw⟩ := Write_ok _ _ hst
  have hops : ∀ op ∈ (db.native.NewIterator (rocks_collection db id)).map
      (fun e => batch_op_t.Delete (rocks_collection db id) e.1),
      op.collection = rocks_collection db id := by
    intro op hop
    obtain ⟨e, _, he⟩ := List.mem_map.mp hop
    rw [← he]; rfl
  refine ⟨(db.native.NewIterator (rocks_collection db id)).map
      (fun e => batch_op_t.Delete (rocks_collection db id) e.1), by simp only [hw], ?_⟩
  rw [NewIterator_foldl_same _ _ _ hops]
  unfold rocks_native_t.NewIterator
  cases hf : db.native.family (rocks_collection db id) with
  | none => rfl
  | some f =>
    simp only
    rw [foldl_delete_ops, entries_delete_all]

theorem contains_iff_mem_nat (l : List Nat) (a : Nat) : l.contains a = true ↔ a ∈ l := by
  rw [List.contains_eq_any_beq, List.any_eq_true]
  constructor
  · rintro ⟨x, hx, hxa⟩
    have : a = x := by simpa using hxa
    rw [this]; exact hx
  · intro h
    exact ⟨a, h, by simp⟩

/-- C23: on a well-formed database whose default handle is the handle of the default
column family of the store, after `database_t::clear()` returns success
`ukv_collection_list` reports zero named collections, the main collection holds no key,
and the handle of main is still there, the only handle left: a later write of a non-empty
value at a key of main for which the store answered before the call succeeds, and a read
of the place returns the value. -/
theorem C23_clear_empties (db : rocks_db_t) (hwf : db.wf)
    (hmain : ∃ h ∈ db.columns, (h.name == kDefaultColumnFamilyName) = true ∧
      h.address = db.native.DefaultColumnFamily)
    (hok : (database_t.clear { db_ := some db }).1 = none) :
    ∃ db',
      (database_t.clear { db_ := some db }).2 = { db_ := some db' } ∧
      (ukv_collection_list { db := some db', count := true, names := true }).error = none ∧
      (ukv_collection_list { db := some db', count := true, names := true }).count = some 0 ∧
      (ukv_collection_list { db := some db', count := true, names := true }).ids = [] ∧
      collections db' = [] ∧
      collection_keys db' none ukv_collection_main_k = [] ∧
      (∃ h, db'.columns = [h] ∧ h ∈ db.columns ∧ (h.name == kDefaultColumnFamilyName) = true ∧
        h.address = db'.native.DefaultColumnFamily) ∧
      (∀ (key : Int) (content : value_view_t) (w_options r_options : ukv_options_t)
          (values : Bool),
        content.to_bool = true → content.length_ < 2 ^ 32 →
        db.native.health (rocks_collection db ukv_collection_main_k) (to_slice key) = .kOk →
        (ukv_write
          { db := some db', transaction := none,
            places := [{ collection := ukv_collection_main_k, key := key }],
            contents := [content], options := w_options, validation := none }).error = none ∧
        (ukv_read
          { db := (ukv_write
              { db := some db', transaction := none,
                places := [{ collection := ukv_collection_main_k, key := key }],
                contents := [content], options := w_options, validation := none }).db
            transaction := none,
            places := [{ collection := ukv_collection_main_k, key := key }],
            options := r_options, values := values, validation := none }).error = none ∧
        (ukv_read
          { db := (ukv_write
              { db := some db', transaction := none,
                places := [{ collection := ukv_collection_main_k, key := key }],
                contents := [content], options := w_options, validation := none }).db
            transaction := none,
            places := [{ collection := ukv_collection_main_k, key := key }],
            options := r_options, values := values, validation := none }).presences = [true] ∧
        (ukv_read
          { db := (ukv_write
              { db := some db', transaction := none,
                places := [{ collection := ukv_collection_main_k, key := key }],
                contents := [content], options := w_options, validation := none }).db
            transaction := none,
            places := [{ collection := ukv_collection_main_k, key := key }],
            options := r_options, values := values, validation := none }).lengths
          = [content.bytes.length] ∧
        (values = true →
          (ukv_read
            { db := (ukv_write
                { db := some db', transaction := none,
                  places := [{ collection := ukv_collection_main_k, key := key }],
                  contents := [content], options := w_options, validation := none }).db
              transaction := none,
              places := [{ collection := ukv_collection_main_k, key := key }],
              options := r_options, values := values, validation := none }).contents
            = content.bytes)) := by
  obtain ⟨hdefault, hnodup, haddr, hnames, hsize, _⟩ := hwf
  obtain ⟨h0, hh0, hh0name, hh0addr⟩ := hmain
  obtain ⟨l1, l2, l3⟩ := list_count_ids db hdefault hsize
  -- the identifiers the loop is given
  have hids : ({ db_ := some db, txn_ := none } : context_t).collections.object_.ids
      = (named_handles db).map (fun h => h.address) := by
    simp only [context_t.collections, l2, l3, Option.getD_some]
    rw [List.take_of_length_le (by simp)]
  have hstatus : ({ db_ := some db, txn_ := none } : context_t).collections.status_ = none := by
    simp only [context_t.collections, l1]
  have hidsnodup : ((named_handles db).map (fun h => h.address)).Nodup :=
    hnodup.sublist ((List.filter_sublist _).map _)
  have hidsmem : ∀ id ∈ (named_handles db).map (fun h => h.address),
      id ≠ ukv_collection_main_k ∧ ∃ h ∈ db.columns, h.address = id := by
    intro id hid
    obtain ⟨h, hh, hha⟩ := List.mem_map.mp hid
    have hhc := (List.mem_filter.mp hh).1
    exact ⟨hha ▸ haddr h hhc, h, hhc, hha⟩
  have hnamed : ∀ h ∈ db.columns,
      (((named_handles db).map (fun h => h.address)).contains h.address = true
        ↔ (h.name == kDefaultColumnFamilyName) = false) := by
    intro h hh
    rw [contains_iff_mem_nat]
    constructor
    · intro hin
      obtain ⟨g, hg, hga⟩ := List.mem_map.mp hin
      obtain ⟨hgc, hgn⟩ := List.mem_filter.mp hg
      have : g = h := List.inj_on_of_nodup_map hnodup hgc hh hga
      rw [← this]
      simpa using hgn
    · intro hn
      exact List.mem_map.mpr ⟨h, List.mem_filter.mpr ⟨hh, by simp [hn]⟩, rfl⟩
  have hDnot : db.native.DefaultColumnFamily ∉ (named_handles db).map (fun h => h.address) := by
    intro hin
    rw [← hh0addr, ← contains_iff_mem_nat, hnamed h0 hh0, hh0name] at hin
    cases hin
  -- the loop
  cases hloop : clear_loop ((named_handles db).map (fun h => h.address)) db with
  | mk e db1 =>
    have hclear : database_t.clear { db_ := some db }
        = if e.isSome then (e, { db_ := some db1 })
          else
            ((ukv_collection_drop
              { db := some db1, id := ukv_collection_main_k,
                mode := .ukv_drop_keys_vals_k }).error,
             { db_ := some ((ukv_collection_drop
              { db := some db1, id := ukv_collection_main_k,
                mode := .ukv_drop_keys_vals_k }).db.getD db1) }) := by
      simp only [database_t.clear, expected_gt.to_bool, hstatus, Option.isNone_none, Bool.not_true,
        Bool.false_eq_true, ↓reduceIte, hids, hloop]
    rw [hclear] at hok ⊢
    cases e with
    | some failure => simp at hok
    | none =>
      simp only [Option.isSome_none, Bool.false_eq_true, ↓reduceIte] at hok ⊢
      obtain ⟨c1, c2, c3⟩ := clear_loop_ok _ db db1 hnodup hidsnodup hidsmem hDnot hloop
      obtain ⟨ops, hdb, hiter⟩ := drop_keys_vals_ok db1 ukv_collection_main_k (Or.inl rfl) hok
      rw [hdb]
      simp only [Option.getD_some]
      -- the handles left
      have hcols : db1.columns = db.columns.filter (fun h => h.name == kDefaultColumnFamilyName) := by
        rw [c1]
        apply List.filter_congr
        intro x hx
        cases hn : x.name == kDefaultColumnFamilyName
        · rw [(hnamed x hx).mpr hn]; rfl
        · cases hc : ((named_handles db).map (fun h => h.address)).contains x.address
          · rfl
          · rw [(hnamed x hx).mp hc] at hn
            cases hn
      have hone : db1.columns = [h0] := by
        rw [hcols]
        obtain ⟨a, ha⟩ := List.length_eq_one.mp hdefault
        have hin : h0 ∈ db.columns.filter (fun h => h.name == kDefaultColumnFamilyName) :=
          List.mem_filter.mpr ⟨hh0, hh0name⟩
        rw [ha] at hin ⊢
        rw [List.mem_singleton] at hin
        rw [hin]
      have hD : (ops.foldl rocks_native_t.apply db1.native).DefaultColumnFamily
          = db.native.DefaultColumnFamily := by
        rw [DefaultColumnFamily_foldl, c2]
      have hrc := rocks_collection_foldl db1 ops ukv_collection_main_k
      have hdef' : (([h0] : List rocks_collection_t).filter
          (fun h => h.name == kDefaultColumnFamilyName)).length = 1 := by
        simp [hh0name]
      obtain ⟨m1, m2, m3⟩ := list_count_ids
        { columns := db1.columns, native := ops.foldl rocks_native_t.apply db1.native,
          mutex := db1.mutex }
        (by simp only [hone]; exact hdef') (by simp [hone])
      have hnamed0 : named_handles
          { columns := db1.columns, native := ops.foldl rocks_native_t.apply db1.native,
            mutex := db1.mutex } = [] := by
        simp [named_handles, hone, hh0name]
      refine ⟨_, rfl, m1, ?_, ?_, ?_, ?_, ⟨h0, hone, hh0, hh0name, ?_⟩, ?_⟩
      · rw [m2, hnamed0]; rfl
      · rw [m3, hnamed0]; rfl
      · rw [collections_eq _ (by simp only [hone]; exact hdef')
          (by
            intro h hh
            simp only [hone, List.mem_singleton] at hh
            rw [hh]
            exact hnames h0 hh0)
          (by simp [hone])]
        simp [hone, hh0name]
      · unfold collection_keys scan_iterator
        simp only [hrc, hiter, List.map_nil]
      · simp only [hD, hh0addr]
      · intro key content w_options r_options values hp hl hhealth
        apply write_then_read_outside _ { collection := ukv_collection_main_k, key := key }
          content w_options r_options values hp hl
        simp only [hrc]
        rw [health_foldl]
        have hrc1 : rocks_collection db1 ukv_collection_main_k
            = db.native.DefaultColumnFamily := by
          simp [rocks_collection, c2]
        have hrc0 : rocks_collection db ukv_collection_main_k
            = db.native.DefaultColumnFamily := by
          simp [rocks_collection]
        rw [hrc1, c3]
        rw [hrc0] at hhealth
        exact hhealth

/-- C23 on the database with the named collections `abc` and `xy` and the key 42 in
main: after `clear()` the listing is empty and main holds no key. -/
theorem C23_clear_empties_witness :
    (collections full_db).map (fun p => p.1) = [2, 3] ∧
    collection_keys full_db none 0 = [42] ∧
    ∃ db',
      (database_t.clear { db_ := some full_db }).2 = { db_ := some db' } ∧
      (ukv_collection_list { db := some db', count := true, names := true }).count = some 0 ∧
      collections db' = [] ∧
      collection_keys db' none ukv_collection_main_k = [] :=
  ⟨by decide, by decide,
   (C23_clear_empties full_db (by decide)
      ⟨{ address := 1, name := kDefaultColumnFamilyName }, by decide, by decide, by decide⟩
      (by decide)).imp
     (fun _ h => ⟨h.1, h.2.2.1, h.2.2.2.2.1, h.2.2.2.2.2.1⟩)⟩

/-! ## The doubling of quotes for CSV -/

theorem find_first_none (ch : Char) (s : List Char) (h : find_first ch s = none) : ch ∉ s := by
  induction s with
  | nil => simp
  | cons c rest ih =>
    unfold find_first at h
    by_cases hc : c = ch
    · simp [hc] at h
    · simp only [hc, ↓reduceIte, Option.map_eq_none'] at h
      intro hm
      rcases List.mem_cons.mp hm with h1 | h1
      · exact hc h1.symm
      · exact ih h h1

theorem find_first_some (ch : Char) (s : List Char) (i : Nat) (h : find_first ch s = some i) :
    ch ∉ s.take i ∧ s = s.take i ++ ch :: s.drop (i + 1) ∧ i < s.length := by
  induction s generalizing i with
  | nil => simp [find_first] at h
  | cons c rest ih =>
    unfold find_first at h
    by_cases hc : c = ch
    · simp only [hc, ↓reduceIte, Option.some.injEq] at h
      subst h
      simp [hc]
    · simp only [hc, ↓reduceIte, Option.map_eq_some'] at h
      obtain ⟨j, hj, hji⟩ := h
      subst hji
      obtain ⟨h1, h2, h3⟩ := ih j hj
      refine ⟨?_, ?_, ?_⟩
      · simp only [List.take_succ_cons, List.mem_cons, not_or]
        exact ⟨fun e => hc e.symm, h1⟩
      · simp only [List.take_succ_cons, List.drop_succ_cons, List.cons_append]
        rw [← h2]
      · simp only [List.length_cons]; omega

theorem csv_double_of_not_mem (s : List Char) (h : quote ∉ s) : csv_double s = s := by
  induction s with
  | nil => rfl
  | cons c rest ih =>
    have hc : ¬ c = quote := fun e => h (e ▸ List.mem_cons_self _ _)
    have hrest : quote ∉ rest := fun hm => h (List.mem_cons_of_mem _ hm)
    unfold csv_double at ih ⊢
    simp only [List.flatMap_cons, hc, ↓reduceIte, List.singleton_append, ih hrest]

theorem csv_double_append (s t : List Char) :
    csv_double (s ++ t) = csv_double s ++ csv_double t := by
  unfold csv_double
  simp [List.flatMap_append]

theorem csv_double_quote (t : List Char) :
    csv_double (quote :: t) = quote :: quote :: csv_double t := by
  unfold csv_double
  simp

theorem string_find_append (pre t : List Char) (ch : Char) :
    string_find (pre ++ t) ch pre.length = (find_first ch t).map (fun i => i + pre.length) := by
  unfold string_find
  rw [List.drop_left]

/-- The loop, started at the first quote of the part of the string that is still to be
looked at, doubles every quote of that part. -/
theorem prepare_loop_spec (fuel : Nat) (pre t : List Char) (hfuel : t.length < fuel) :
    prepare_loop fuel (pre ++ t) (string_find (pre ++ t) quote pre.length)
      = some (pre ++ csv_double t) := by
  induction fuel generalizing pre t with
  | zero => omega
  | succ fuel ih =>
    rw [string_find_append]
    cases hf : find_first quote t with
    | none =>
      simp only [Option.map_none', prepare_loop]
      rw [csv_double_of_not_mem t (find_first_none quote t hf)]
    | some i =>
      obtain ⟨h1, h2, h3⟩ := find_first_some quote t i hf
      simp only [Option.map_some', prepare_loop]
      have hins : string_insert (pre ++ t) (i + pre.length) 1 quote
          = (pre ++ t.take i ++ [quote, quote]) ++ t.drop (i + 1) := by
        unfold string_insert
        have htake : (pre ++ t).take (i + pre.length) = pre ++ t.take i := by
          rw [Nat.add_comm, List.take_append]
        have hdrop : (pre ++ t).drop (i + pre.length) = quote :: t.drop (i + 1) := by
          rw [Nat.add_comm, List.drop_append]
          conv_lhs => rw [h2]
          rw [List.drop_left' (by simp; omega)]
        rw [htake, hdrop]
        simp
      have hpos : i + pre.length + 2 = (pre ++ t.take i ++ [quote, quote]).length := by
        simp only [List.length_append, List.length_take, List.length_cons, List.length_nil]
        omega
      rw [hins, hpos, ih _ _ (by simp only [List.length_drop]; omega)]
      conv_rhs => rw [h2]
      rw [csv_double_append, csv_double_quote, csv_double_of_not_mem _ h1]
      simp

theorem csv_collapse_double (t : List Char) : csv_collapse (csv_double t) = t := by
  induction t with
  | nil => rfl
  | cons c rest ih =>
    by_cases hc : c = quote
    · subst hc
      rw [csv_double_quote]
      simp only [csv_collapse, and_self, ↓reduceIte, ih]
    · have hcons : csv_double (c :: rest) = c :: csv_double rest := by
        unfold csv_double
        simp [hc]
      rw [hcons]
      cases hd : csv_double rest with
      | nil =>
        rw [hd] at ih
        simp only [csv_collapse] at ih ⊢
        rw [← ih]
      | cons d rest2 =>
        rw [hd] at ih
        simp only [csv_collapse, hc, false_and, ↓reduceIte, ih]

theorem csv_double_length (t : List Char) :
    (csv_double t).length = t.length + t.count quote := by
  induction t with
  | nil => rfl
  | cons c rest ih =>
    by_cases hc : c = quote
    · subst hc
      rw [csv_double_quote]
      simp only [List.length_cons, ih, List.count_cons_self]
      omega
    · have hcons : csv_double (c :: rest) = c :: csv_double rest := by
        unfold csv_double
        simp [hc]
      have hne : quote ≠ c := fun h => hc h.symm
      rw [hcons, List.length_cons, ih, List.length_cons, List.count_cons_of_ne hne]
      omega

/-- C30: for every string and every start position, `prepare_for_csv` ends, and it
leaves the string with every double quote at an index at or after `pos` replaced by two
double quotes and every other character (the first `pos` ones included) as it was and in
order. The result is longer than the string by the number of those quotes, and the
collapse of the doubled quotes of the part after `pos` gives the string back. -/
theorem C30_prepare_for_csv (s : List Char) (pos : Nat) :
    prepare_for_csv s pos = some (s.take pos ++ csv_double (s.drop pos)) ∧
    (s.take pos ++ csv_double (s.drop pos)).length = s.length + (s.drop pos).count quote ∧
    (s.take pos ++ csv_double (s.drop pos)).take pos = s.take pos ∧
    s.take pos ++ csv_collapse ((s.take pos ++ csv_double (s.drop pos)).drop pos) = s ∧
    (∀ r, prepare_for_csv s pos = some r →
      r.length = s.length + (s.drop pos).count quote ∧
      s.take pos ++ csv_collapse (r.drop pos) = s) := by
  have hmain : prepare_for_csv s pos = some (s.take pos ++ csv_double (s.drop pos)) := by
    unfold prepare_for_csv
    by_cases hp : pos ≤ s.length
    · have hlen : (s.take pos).length = pos := by simp [hp]
      have h := prepare_loop_spec (s.length + 1) (s.take pos) (s.drop pos)
        (by simp only [List.length_drop]; omega)
      rw [List.take_append_drop, hlen] at h
      exact h
    · have hdrop : s.drop pos = [] := List.drop_eq_nil_of_le (by omega)
      simp only [string_find, hdrop, find_first, Option.map_none', prepare_loop, csv_double,
        List.flatMap_nil, List.append_nil]
      rw [List.take_of_length_le (by omega)]
  have hlength : (s.take pos ++ csv_double (s.drop pos)).length
      = s.length + (s.drop pos).count quote := by
    rw [List.length_append, csv_double_length]
    have := congrArg List.length (List.take_append_drop pos s)
    rw [List.length_append] at this
    omega
  have hcollapse : s.take pos ++ csv_collapse ((s.take pos ++ csv_double (s.drop pos)).drop pos)
      = s := by
    by_cases hp : pos ≤ s.length
    · have hlen : (s.take pos).length = pos := by simp [hp]
      rw [List.drop_left' hlen, csv_collapse_double, List.take_append_drop]
    · have hdrop : s.drop pos = [] := List.drop_eq_nil_of_le (by omega)
      have htake : s.take pos = s := List.take_of_length_le (by omega)
      rw [hdrop, htake]
      have : (s ++ csv_double []).drop pos = [] := by
        apply List.drop_eq_nil_of_le
        simp [csv_double]; omega
      rw [this]
      simp [csv_collapse]
  refine ⟨hmain, hlength, ?_, hcollapse, ?_⟩
  · by_cases hp : pos ≤ s.length
    · have hlen : (s.take pos).length = pos := by simp [hp]
      rw [List.take_left' hlen]
    · have hdrop : s.drop pos = [] := List.drop_eq_nil_of_le (by omega)
      rw [hdrop]
      simp [csv_double]
  · intro r hr
    rw [hmain] at hr
    cases hr
    exact ⟨hlength, hcollapse⟩

/-- C30 on the string `a"b"` from position 0 and from position 2: every quote is
doubled, and from position 2 only the last one. -/
theorem C30_prepare_for_csv_witness :
    prepare_for_csv [Char.ofNat 97, quote, Char.ofNat 98, quote] 0
      = some [Char.ofNat 97, quote, quote, Char.ofNat 98, quote, quote] ∧
    prepare_for_csv [Char.ofNat 97, quote, Char.ofNat 98, quote] 2
      = some [Char.ofNat 97, quote, Char.ofNat 98, quote, quote] :=
  ⟨(C30_prepare_for_csv [Char.ofNat 97, quote, Char.ofNat 98, quote] 0).1.trans (by decide),
   (C30_prepare_for_csv [Char.ofNat 97, quote, Char.ofNat 98, quote] 2).1.trans (by decide)⟩

/-! ## Compaction of a gathered table -/

theorem contents_length_fold (cells : List (Nat × Nat)) (acc : Nat)
    (h : acc + cells_total cells < 2 ^ 32) :
    cells.foldl (fun acc cell => (acc + cell.2) % 2 ^ 32) acc = acc + cells_total cells := by
  induction cells generalizing acc with
  | nil => simp [cells_total]
  | cons cell rest ih =>
    simp only [cells_total, List.map_cons, List.sum_cons] at h
    simp only [List.foldl_cons, cells_total, List.map_cons, List.sum_cons]
    rw [Nat.mod_eq_of_lt (by omega)]
    have := ih (acc + cell.2) (by simp only [cells_total]; omega)
    simp only [cells_total] at this
    rw [this]
    omega

theorem contents_length_of_eq (cells : List (Nat × Nat)) (h : cells_total cells < 2 ^ 32) :
    contents_length_of cells = cells_total cells := by
  unfold contents_length_of
  rw [contents_length_fold cells 0 (by omega)]
  omega

theorem cells_total_append (a b : List (Nat × Nat)) :
    cells_total (a ++ b) = cells_total a + cells_total b := by
  simp [cells_total]

theorem cells_total_cons (cell : Nat × Nat) (rest : List (Nat × Nat)) :
    cells_total (cell :: rest) = cell.2 + cells_total rest := by
  simp [cells_total]

theorem cell_bytes_length (contents : List byte_t) (cell : Nat × Nat)
    (h : cell.2 = 0 ∨ cell.1 + cell.2 ≤ contents.length) :
    (cell_bytes contents cell).length = cell.2 := by
  unfold cell_bytes
  simp only [List.length_take, List.length_drop]
  omega

theorem memory_copy_spec (dst src : List byte_t) (pos start len : Nat)
    (hsrc : len = 0 ∨ start + len ≤ src.length) (hdst : pos + len ≤ dst.length) :
    memory_copy dst pos src start len
      = some (dst.take pos ++ cell_bytes src (start, len) ++ dst.drop (pos + len)) := by
  unfold memory_copy cell_bytes
  by_cases h0 : len = 0
  · subst h0
    simp
  · have hs : start + len ≤ src.length := by omega
    simp [h0, hs, hdst]

/-- The loop of `correct_table` over the cells: the new offsets are the running sums of
the lengths and the buffer gets the bytes of the cells one after the other. -/
theorem compact_loop_spec (contents : List byte_t) (cells : List (Nat × Nat)) :
    ∀ (offset : Nat) (buffer : List byte_t),
      (∀ cell ∈ cells, cell.2 = 0 ∨ cell.1 + cell.2 ≤ contents.length) →
      offset + cells_total cells ≤ buffer.length →
      offset + cells_total cells < 2 ^ 32 →
      compact_loop contents cells offset buffer
        = some (prefix_offsets offset cells,
            buffer.take offset ++ cells.flatMap (cell_bytes contents)
              ++ buffer.drop (offset + cells_total cells)) := by
  induction cells with
  | nil =>
    intro offset buffer _ _ _
    simp [compact_loop, prefix_offsets, cells_total]
  | cons cell rest ih =>
    intro offset buffer hin hlen hlt
    rw [cells_total_cons] at hlen hlt
    have hcell := hin cell (List.mem_cons_self _ _)
    have hb := cell_bytes_length contents cell hcell
    simp only [compact_loop]
    rw [memory_copy_spec buffer contents offset cell.1 cell.2 hcell (by omega)]
    simp only []
    rw [Nat.mod_eq_of_lt (by omega)]
    have htake : (buffer.take offset).length = offset := by
      rw [List.length_take]; omega
    have hlen2 : (buffer.take offset ++ cell_bytes contents (cell.1, cell.2)
        ++ buffer.drop (offset + cell.2)).length = buffer.length := by
      simp only [List.length_append, htake, List.length_drop]
      have : (cell_bytes contents (cell.1, cell.2)).length = cell.2 := hb
      omega
    rw [ih (offset + cell.2) _ (fun c hc => hin c (List.mem_cons_of_mem _ hc))
      (by rw [hlen2]; omega) (by omega)]
    have hpre : (buffer.take offset ++ cell_bytes contents (cell.1, cell.2)).length
        = offset + cell.2 := by
      rw [List.length_append, htake]
      have : (cell_bytes contents (cell.1, cell.2)).length = cell.2 := hb
      omega
    have h1 : (buffer.take offset ++ cell_bytes contents (cell.1, cell.2)
        ++ buffer.drop (offset + cell.2)).take (offset + cell.2)
        = buffer.take offset ++ cell_bytes contents (cell.1, cell.2) :=
      List.take_left' hpre
    have h2 : (buffer.take offset ++ cell_bytes contents (cell.1, cell.2)
        ++ buffer.drop (offset + cell.2)).drop (offset + cell.2 + cells_total rest)
        = buffer.drop (offset + (cell.2 + cells_total rest)) := by
      rw [← List.drop_drop, List.drop_left' hpre, List.drop_drop]
      congr 1
      omega
    rw [h1, h2]
    simp [prefix_offsets, cells_total_cons]

theorem sentinel_cells_length (rows : Nat) (column : column_view_t)
    (h : rows < column.offsets.length ∧ rows ≤ column.lengths.length) :
    (sentinel_cells rows column).length = rows + 1 := by
  unfold sentinel_cells column_cells
  simp only [List.length_append, List.length_take, List.length_zip, List.length_cons,
    List.length_nil]
  omega

theorem cells_total_sentinel (rows : Nat) (column : column_view_t) :
    cells_total (sentinel_cells rows column) = cells_total (column_cells rows column) := by
  unfold sentinel_cells
  rw [cells_total_append]
  simp [cells_total]

theorem collect_columns_eq (rows : Nat) (columns : List column_view_t)
    (h : ∀ column ∈ columns, column.is_binary = true →
      rows < column.offsets.length ∧ rows ≤ column.lengths.length) :
    collect_columns rows columns = some (all_cells rows columns) := by
  induction columns with
  | nil => rfl
  | cons column rest ih =>
    have ihr := ih (fun c hc => h c (List.mem_cons_of_mem _ hc))
    by_cases hb : column.is_binary = true
    · have hs := h column (List.mem_cons_self _ _) hb
      simp only [collect_columns, hb, ↓reduceIte, collect_column, hs, and_self, ihr,
        all_cells, List.filter_cons_of_pos, List.flatMap_cons, sentinel_cells, column_cells]
    · simp only [collect_columns, hb, Bool.false_eq_true, ↓reduceIte, ihr, all_cells]
      rw [List.filter_cons_of_neg hb]

theorem all_cells_total (rows : Nat) (columns : List column_view_t) :
    cells_total (all_cells rows columns)
      = cells_total ((columns.filter column_view_t.is_binary).flatMap (column_cells rows)) := by
  unfold all_cells
  induction columns.filter column_view_t.is_binary with
  | nil => rfl
  | cons column rest ih =>
    simp only [List.flatMap_cons, cells_total_append, cells_total_sentinel, ih]

theorem all_cells_bytes (contents : List byte_t) (rows : Nat) (columns : List column_view_t) :
    (all_cells rows columns).flatMap (cell_bytes contents)
      = columns_bytes contents rows columns := by
  unfold all_cells columns_bytes
  induction columns.filter column_view_t.is_binary with
  | nil => rfl
  | cons column rest ih =>
    simp only [List.flatMap_cons, List.flatMap_append, ih, sentinel_cells, column_bytes]
    simp [cell_bytes]

theorem prefix_offsets_append (offset : Nat) (a b : List (Nat × Nat)) :
    prefix_offsets offset (a ++ b)
      = prefix_offsets offset a ++ prefix_offsets (offset + cells_total a) b := by
  induction a generalizing offset with
  | nil => simp [prefix_offsets, cells_total]
  | cons cell rest ih =>
    rw [List.cons_append, prefix_offsets, prefix_offsets, ih, cells_total_cons,
      List.cons_append, Nat.add_assoc]

theorem prefix_offsets_length (offset : Nat) (cells : List (Nat × Nat)) :
    (prefix_offsets offset cells).length = cells.length := by
  induction cells generalizing offset with
  | nil => rfl
  | cons cell rest ih => simp [prefix_offsets, ih]

theorem write_offsets_eq (rows : Nat) (columns : List column_view_t) :
    ∀ (offset : Nat),
      (∀ column ∈ columns, column.is_binary = true →
        rows < column.offsets.length ∧ rows ≤ column.lengths.length) →
      write_offsets rows columns (prefix_offsets offset (all_cells rows columns))
        = compacted_columns rows offset columns := by
  induction columns with
  | nil => intro _ _; rfl
  | cons column rest ih =>
    intro offset h
    have ihr := fun o => ih o (fun c hc => h c (List.mem_cons_of_mem _ hc))
    by_cases hb : column.is_binary = true
    · have hs := h column (List.mem_cons_self _ _) hb
      have hlen : (prefix_offsets offset (sentinel_cells rows column)).length = rows + 1 := by
        rw [prefix_offsets_length, sentinel_cells_length rows column hs]
      have hall : all_cells rows (column :: rest)
          = sentinel_cells rows column ++ all_cells rows rest := by
        simp only [all_cells, List.filter_cons_of_pos hb, List.flatMap_cons]
      rw [hall, prefix_offsets_append]
      simp only [write_offsets, compacted_columns, hb, ↓reduceIte]
      rw [List.take_left' hlen, List.drop_left' hlen, cells_total_sentinel, ihr]
    · have hall : all_cells rows (column :: rest) = all_cells rows rest := by
        simp only [all_cells, List.filter_cons_of_neg hb]
      rw [hall]
      simp only [write_offsets, compacted_columns, hb, Bool.false_eq_true, ↓reduceIte, ihr]

theorem binary_indexes_length (columns : List column_view_t) (idx : Nat) :
    (binary_indexes_from idx columns).length
      = (columns.filter column_view_t.is_binary).length := by
  induction columns generalizing idx with
  | nil => rfl
  | cons column rest ih =>
    by_cases hb : column.is_binary = true
    · simp only [binary_indexes_from, hb, ↓reduceIte, List.length_cons, ih,
        List.filter_cons_of_pos]
    · simp only [binary_indexes_from, hb, Bool.false_eq_true, ↓reduceIte, ih]
      rw [List.filter_cons_of_neg hb]

theorem total_length_eq (table : docs_table_t) :
    table.total_length = cells_total (all_cells table.rows table.columns) := by
  rw [all_cells_total]
  rfl

theorem cells_bytes_length (contents : List byte_t) (cells : List (Nat × Nat))
    (h : ∀ cell ∈ cells, cell.2 = 0 ∨ cell.1 + cell.2 ≤ contents.length) :
    (cells.flatMap (cell_bytes contents)).length = cells_total cells := by
  induction cells with
  | nil => rfl
  | cons cell more ih =>
    rw [List.flatMap_cons, List.length_append, cells_total_cons,
      ih (fun c hc => h c (List.mem_cons_of_mem _ hc)),
      cell_bytes_length _ _ (h cell (List.mem_cons_self _ _))]

theorem columns_bytes_length_aux (contents : List byte_t) (rows : Nat)
    (columns : List column_view_t)
    (h : ∀ column ∈ columns, ∀ cell ∈ column_cells rows column,
      cell.2 = 0 ∨ cell.1 + cell.2 ≤ contents.length) :
    (columns.flatMap (column_bytes contents rows)).length
      = cells_total (columns.flatMap (column_cells rows)) := by
  induction columns with
  | nil => rfl
  | cons column rest ih =>
    rw [List.flatMap_cons, List.flatMap_cons, List.length_append, cells_total_append,
      ih (fun c hc => h c (List.mem_cons_of_mem _ hc))]
    unfold column_bytes
    rw [cells_bytes_length _ _ (h column (List.mem_cons_self _ _))]

theorem columns_bytes_length (table : docs_table_t) (hin : table.readable) :
    (columns_bytes table.contents table.rows table.columns).length = table.total_length := by
  unfold columns_bytes docs_table_t.total_length
  apply columns_bytes_length_aux
  intro c hc
  rw [List.mem_filter] at hc
  exact hin c hc.1 hc.2

/-- What `correct_table` leaves of a table with two or more string and binary columns
whose cells lie in the pool and fit it: the pool starts with the bytes of the cells one
after the other, and the offsets are the running sums of the lengths. -/
theorem correct_table_spec (table : docs_table_t)
    (hsized : table.sized) (hin : table.readable) (hfits : table.fits)
    (htwo : 2 ≤ (binary_column_indexes table).length) :
    correct_table table = some
      { rows := table.rows
        columns := compacted_columns table.rows 0 table.columns
        contents := columns_bytes table.contents table.rows table.columns
          ++ table.contents.drop table.total_length } := by
  have htotal := total_length_eq table
  have hcl : contents_length_of (all_cells table.rows table.columns) = table.total_length := by
    rw [contents_length_of_eq _ (by rw [← htotal]; exact hfits.2), htotal]
  have hcells : ∀ cell ∈ all_cells table.rows table.columns,
      cell.2 = 0 ∨ cell.1 + cell.2 ≤ table.contents.length := by
    intro cell hc
    simp only [all_cells, List.mem_flatMap, List.mem_filter, sentinel_cells,
      List.mem_append, List.mem_singleton] at hc
    obtain ⟨column, ⟨hmem, hb⟩, hcell⟩ := hc
    rcases hcell with hcell | hcell
    · exact hin column hmem hb cell hcell
    · left; rw [hcell]
  unfold correct_table
  rw [if_neg (by omega), collect_columns_eq _ _ hsized]
  simp only [hcl]
  rw [compact_loop_spec _ _ 0 _ hcells (by simp [← htotal]) (by rw [← htotal]; simpa using hfits.2)]
  simp only [all_cells_bytes, ← htotal]
  have hlen := columns_bytes_length table hin
  have hbuf : List.take 0 (List.replicate table.total_length (0 : byte_t))
      ++ columns_bytes table.contents table.rows table.columns
      ++ List.drop (0 + table.total_length) (List.replicate table.total_length (0 : byte_t))
      = columns_bytes table.contents table.rows table.columns := by
    simp
  rw [hbuf, memory_copy_spec _ _ 0 0 _ (Or.inr (by omega)) (by have := hfits.1; omega)]
  simp only [write_offsets_eq _ _ 0 hsized, cell_bytes, List.drop_zero, List.take_zero,
    List.nil_append, Nat.zero_add]
  rw [← hlen, List.take_length]

theorem prefix_offsets_get (cells : List (Nat × Nat)) :
    ∀ (offset n : Nat), n < cells.length →
      (prefix_offsets offset cells)[n]? = some (offset + cells_total (cells.take n)) := by
  induction cells with
  | nil => intro _ n h; simp at h
  | cons cell rest ih =>
    intro offset n h
    cases n with
    | zero => simp [prefix_offsets, cells_total]
    | succ n =>
      simp only [List.length_cons] at h
      simp only [prefix_offsets, List.getElem?_cons_succ, List.take_succ_cons, cells_total_cons]
      rw [ih (offset + cell.2) n (by omega), Nat.add_assoc]

theorem cells_total_take_succ (cells : List (Nat × Nat)) :
    ∀ (i : Nat) (cell : Nat × Nat), cells[i]? = some cell →
      cells_total (cells.take (i + 1)) = cells_total (cells.take i) + cell.2 := by
  induction cells with
  | nil => intro i cell h; simp at h
  | cons c rest ih =>
    intro i cell h
    cases i with
    | zero =>
      simp only [List.getElem?_cons_zero, Option.some.injEq] at h
      subst h
      simp [cells_total]
    | succ i =>
      simp only [List.getElem?_cons_succ] at h
      simp only [List.take_succ_cons, cells_total_cons, ih i cell h]
      omega

theorem sentinel_cells_get (rows : Nat) (column : column_view_t)
    (hs : rows < column.offsets.length ∧ rows ≤ column.lengths.length) (i : Nat)
    (hi : i < rows) :
    ∃ off len, column.offsets[i]? = some off ∧ column.lengths[i]? = some len ∧
      (sentinel_cells rows column)[i]? = some (off, len) ∧
      (column_cells rows column)[i]? = some (off, len) := by
  have h1 : i < column.offsets.length := by omega
  have h2 : i < column.lengths.length := by omega
  have hcell : (column_cells rows column)[i]? = some (column.offsets[i], column.lengths[i]) := by
    unfold column_cells
    rw [List.getElem?_take_of_lt hi, List.getElem?_eq_getElem (by simp; omega)]
    simp
  refine ⟨column.offsets[i], column.lengths[i], List.getElem?_eq_getElem h1,
    List.getElem?_eq_getElem h2, ?_, hcell⟩
  unfold sentinel_cells
  rw [List.getElem?_append_left (by simp [column_cells]; omega)]
  exact hcell

theorem column_cells_length (rows : Nat) (column : column_view_t)
    (hs : rows < column.offsets.length ∧ rows ≤ column.lengths.length) :
    (column_cells rows column).length = rows := by
  simp only [column_cells, List.length_take, List.length_zip]
  omega

theorem sentinel_cells_take (rows : Nat) (column : column_view_t)
    (hs : rows < column.offsets.length ∧ rows ≤ column.lengths.length) (i : Nat)
    (hi : i ≤ rows) :
    (sentinel_cells rows column).take i = column_cells i column := by
  unfold sentinel_cells
  rw [List.take_append_of_le_length (by rw [column_cells_length rows column hs]; exact hi)]
  unfold column_cells
  rw [List.take_take, Nat.min_eq_left hi]

/-- In a column whose offsets are the running sums of its lengths, each offset of a row
and the length of the row add up to the next offset, and the offset after the last row
is the first offset and the sum of all the lengths. -/
theorem running_offsets_rows (rows offset : Nat) (column : column_view_t)
    (hs : rows < column.offsets.length ∧ rows ≤ column.lengths.length) (tail : List Nat) :
    (∀ i, i ≤ rows →
      (prefix_offsets offset (sentinel_cells rows column) ++ tail)[i]?
        = some (offset + cells_total (column_cells i column))) ∧
    (∀ i, i < rows → ∃ len, column.lengths[i]? = some len ∧
      cells_total (column_cells (i + 1) column) = cells_total (column_cells i column) + len) := by
  constructor
  · intro i hi
    have hlen := sentinel_cells_length rows column hs
    rw [List.getElem?_append_left (by rw [prefix_offsets_length, hlen]; omega),
      prefix_offsets_get _ _ _ (by rw [hlen]; omega), sentinel_cells_take rows column hs i hi]
  · intro i hi
    obtain ⟨off, len, _, h2, h3, _⟩ := sentinel_cells_get rows column hs i hi
    refine ⟨len, h2, ?_⟩
    have := cells_total_take_succ (sentinel_cells rows column) i (off, len) h3
    rw [sentinel_cells_take rows column hs (i + 1) (by omega),
      sentinel_cells_take rows column hs i (by omega)] at this
    exact this

theorem compacted_columns_length (rows : Nat) (columns : List column_view_t) :
    ∀ offset, (compacted_columns rows offset columns).length = columns.length := by
  induction columns with
  | nil => intro _; rfl
  | cons column rest ih =>
    intro offset
    by_cases hb : column.is_binary = true
    · simp only [compacted_columns, hb, ↓reduceIte, List.length_cons, ih]
    · simp only [compacted_columns, hb, Bool.false_eq_true, ↓reduceIte, List.length_cons, ih]

/-- The column at an index after the compaction: a column that is neither string nor
binary is as it was, and a string or binary column has the running sums for offsets,
from the sum of the lengths of the cells of the columns before it on. -/
theorem compacted_columns_get (rows : Nat) (columns : List column_view_t) :
    ∀ (offset c : Nat) (column : column_view_t), columns[c]? = some column →
      (compacted_columns rows offset columns)[c]? = some
        (if column.is_binary then
          { column with
            offsets := prefix_offsets
                (offset + cells_total (all_cells rows (columns.take c)))
                (sentinel_cells rows column)
              ++ column.offsets.drop (rows + 1) }
         else column) := by
  induction columns with
  | nil => intro _ c column h; simp at h
  | cons first rest ih =>
    intro offset c column h
    cases c with
    | zero =>
      simp only [List.getElem?_cons_zero, Option.some.injEq] at h
      subst h
      by_cases hb : first.is_binary = true
      · simp [compacted_columns, hb, all_cells, cells_total]
      · simp [compacted_columns, hb]
    | succ c =>
      simp only [List.getElem?_cons_succ] at h
      by_cases hb : first.is_binary = true
      · have hall : all_cells rows (first :: rest.take c)
            = sentinel_cells rows first ++ all_cells rows (rest.take c) := by
          simp only [all_cells, List.filter_cons_of_pos hb, List.flatMap_cons]
        simp only [compacted_columns, hb, ↓reduceIte, List.getElem?_cons_succ,
          List.take_succ_cons, hall, cells_total_append, cells_total_sentinel]
        rw [ih _ c column h, Nat.add_assoc]
      · have hall : all_cells rows (first :: rest.take c) = all_cells rows (rest.take c) := by
          simp only [all_cells, List.filter_cons_of_neg hb]
        simp only [compacted_columns, hb, Bool.false_eq_true, ↓reduceIte,
          List.getElem?_cons_succ, List.take_succ_cons, hall]
        rw [ih _ c column h]

theorem compacted_columns_filter (rows : Nat) (columns : List column_view_t) :
    ∀ offset, (compacted_columns rows offset columns).filter column_view_t.is_binary
      = compacted_columns rows offset (columns.filter column_view_t.is_binary) := by
  induction columns with
  | nil => intro _; rfl
  | cons column rest ih =>
    intro offset
    by_cases hb : column.is_binary = true
    · have hb2 : column_view_t.is_binary
          { column with
            offsets := prefix_offsets offset (sentinel_cells rows column)
              ++ column.offsets.drop (rows + 1) } = true := hb
      simp only [compacted_columns, hb, ↓reduceIte, List.filter_cons_of_pos hb2,
        List.filter_cons_of_pos, ih]
    · rw [List.filter_cons_of_neg hb]
      simp only [compacted_columns, hb, Bool.false_eq_true, ↓reduceIte]
      rw [List.filter_cons_of_neg hb, ih]

/-- After the compaction, each string or binary column but the last ends where the next
one starts. -/
theorem compacted_columns_chain (rows : Nat) (columns : List column_view_t) :
    ∀ (offset j : Nat),
      (∀ column ∈ columns, column.is_binary = true ∧
        rows < column.offsets.length ∧ rows ≤ column.lengths.length) →
      j + 1 < columns.length →
      ∃ a b x, (compacted_columns rows offset columns)[j]? = some a ∧
        (compacted_columns rows offset columns)[j + 1]? = some b ∧
        a.offsets[rows]? = some x ∧ b.offsets[0]? = some x := by
  induction columns with
  | nil => intro _ j _ h; simp at h
  | cons first rest ih =>
    intro offset j hall hj
    have hfirst := hall first (List.mem_cons_self _ _)
    cases j with
    | succ j =>
      simp only [List.length_cons] at hj
      obtain ⟨a, b, x, h1, h2, h3, h4⟩ :=
        ih (offset + cells_total (column_cells rows first)) j
          (fun c hc => hall c (List.mem_cons_of_mem _ hc)) (by omega)
      refine ⟨a, b, x, ?_, ?_, h3, h4⟩
      · simp only [compacted_columns, hfirst.1, ↓reduceIte, List.getElem?_cons_succ]
        exact h1
      · simp only [compacted_columns, hfirst.1, ↓reduceIte, List.getElem?_cons_succ]
        exact h2
    | zero =>
      cases rest with
      | nil => simp at hj
      | cons second more =>
        have hsecond := hall second (List.mem_cons_of_mem _ (List.mem_cons_self _ _))
        refine ⟨{ first with
            offsets := prefix_offsets offset (sentinel_cells rows first)
              ++ first.offsets.drop (rows + 1) },
          { second with
            offsets := prefix_offsets (offset + cells_total (column_cells rows first))
                (sentinel_cells rows second)
              ++ second.offsets.drop (rows + 1) },
          offset + cells_total (column_cells rows first), ?_, ?_, ?_, ?_⟩
        · simp only [compacted_columns, hfirst.1, ↓reduceIte, List.getElem?_cons_zero]
        · simp only [compacted_columns, hfirst.1, hsecond.1, ↓reduceIte,
            List.getElem?_cons_succ, List.getElem?_cons_zero]
        · exact (running_offsets_rows rows offset first hfirst.2 _).1 rows (Nat.le_refl _)
        · have := (running_offsets_rows rows
            (offset + cells_total (column_cells rows first)) second hsecond.2
            (second.offsets.drop (rows + 1))).1 0 (Nat.zero_le _)
          simpa [column_cells, cells_total] using this

/-- A string or binary column of the compacted columns comes from a column of the table
with the same lengths, and its offsets are running sums of these lengths. -/
theorem compacted_columns_mem (rows : Nat) (columns : List column_view_t) :
    ∀ (offset : Nat) (column' : column_view_t),
      column' ∈ compacted_columns rows offset columns → column'.is_binary = true →
      ∃ column ∈ columns, ∃ start, column.is_binary = true ∧
        column'.lengths = column.lengths ∧
        column'.offsets = prefix_offsets start (sentinel_cells rows column)
          ++ column.offsets.drop (rows + 1) := by
  induction columns with
  | nil => intro _ c h; simp [compacted_columns] at h
  | cons first rest ih =>
    intro offset column' hmem hbin
    by_cases hb : first.is_binary = true
    · simp only [compacted_columns, hb, ↓reduceIte, List.mem_cons] at hmem
      rcases hmem with hmem | hmem
      · exact ⟨first, List.mem_cons_self _ _, offset, hb, by rw [hmem], by rw [hmem]⟩
      · obtain ⟨c, hc, s, h1, h2, h3⟩ := ih _ column' hmem hbin
        exact ⟨c, List.mem_cons_of_mem _ hc, s, h1, h2, h3⟩
    · simp only [compacted_columns, hb, Bool.false_eq_true, ↓reduceIte, List.mem_cons] at hmem
      rcases hmem with hmem | hmem
      · rw [hmem] at hbin; exact absurd hbin hb
      · obtain ⟨c, hc, s, h1, h2, h3⟩ := ih _ column' hmem hbin
        exact ⟨c, List.mem_cons_of_mem _ hc, s, h1, h2, h3⟩

/-- The step of a row in a compacted string or binary column: the offset of the row and
its length give the next offset. -/
theorem compacted_row_step (rows : Nat) (columns : List column_view_t) (offset : Nat)
    (hsized : ∀ column ∈ columns, column.is_binary = true →
      rows < column.offsets.length ∧ rows ≤ column.lengths.length)
    (column' : column_view_t) (hmem : column' ∈ compacted_columns rows offset columns)
    (hbin : column'.is_binary = true) (i : Nat) (hi : i < rows) :
    ∃ off len, column'.offsets[i]? = some off ∧ column'.lengths[i]? = some len ∧
      column'.offsets[i + 1]? = some (off + len) := by
  obtain ⟨column, hc, start, hb, hl, ho⟩ := compacted_columns_mem rows columns offset column' hmem hbin
  have hs := hsized column hc hb
  obtain ⟨hget, hstep⟩ := running_offsets_rows rows start column hs (column.offsets.drop (rows + 1))
  obtain ⟨len, hlen, htot⟩ := hstep i hi
  refine ⟨start + cells_total (column_cells i column), len, ?_, ?_, ?_⟩
  · rw [ho]; exact hget i (by omega)
  · rw [hl]; exact hlen
  · rw [ho, hget (i + 1) (by omega), htot, Nat.add_assoc]

theorem contents_length_fold_mod (cells : List (Nat × Nat)) (acc : Nat) (h : acc < 2 ^ 32) :
    cells.foldl (fun acc cell => (acc + cell.2) % 2 ^ 32) acc
      = (acc + cells_total cells) % 2 ^ 32 := by
  induction cells generalizing acc with
  | nil =>
    simp only [List.foldl_nil, cells_total, List.map_nil, List.sum_nil, Nat.add_zero]
    exact (Nat.mod_eq_of_lt h).symm
  | cons cell rest ih =>
    rw [List.foldl_cons, ih _ (Nat.mod_lt _ (by decide)), cells_total_cons, Nat.mod_add_mod,
      Nat.add_assoc]

theorem contents_length_of_mod (cells : List (Nat × Nat)) :
    contents_length_of cells = cells_total cells % 2 ^ 32 := by
  unfold contents_length_of
  rw [contents_length_fold_mod cells 0 (by decide), Nat.zero_add]

theorem collect_columns_some (rows : Nat) (columns : List column_view_t) :
    ∀ cells, collect_columns rows columns = some cells →
      (∀ column ∈ columns, column.is_binary = true →
        rows < column.offsets.length ∧ rows ≤ column.lengths.length) ∧
      cells = all_cells rows columns := by
  induction columns with
  | nil =>
    intro cells h
    simp only [collect_columns, Option.some.injEq] at h
    exact ⟨fun c hc => by simp at hc, by rw [← h]; rfl⟩
  | cons column rest ih =>
    intro cells h
    by_cases hb : column.is_binary = true
    · simp only [collect_columns, hb, ↓reduceIte] at h
      by_cases hs : rows < column.offsets.length ∧ rows ≤ column.lengths.length
      · cases hr : collect_columns rows rest with
        | none => simp [hr, collect_column, hs] at h
        | some more =>
          obtain ⟨h1, h2⟩ := ih more hr
          have hsized : ∀ c ∈ column :: rest, c.is_binary = true →
              rows < c.offsets.length ∧ rows ≤ c.lengths.length := by
            intro c hc hcb
            rcases List.mem_cons.mp hc with hc | hc
            · rw [hc]; exact hs
            · exact h1 c hc hcb
          refine ⟨hsized, ?_⟩
          have := collect_columns_eq rows (column :: rest) hsized
          simp only [collect_columns, hb, ↓reduceIte] at this
          rw [this] at h
          exact (Option.some.inj h).symm
      · simp [collect_column, hs] at h
    · simp only [collect_columns, hb, Bool.false_eq_true, ↓reduceIte] at h
      obtain ⟨h1, h2⟩ := ih cells h
      refine ⟨?_, ?_⟩
      · intro c hc hcb
        rcases List.mem_cons.mp hc with hc | hc
        · rw [hc] at hcb; exact absurd hcb hb
        · exact h1 c hc hcb
      · rw [h2]
        simp only [all_cells, List.filter_cons_of_neg hb]

theorem memory_copy_some (dst src : List byte_t) (pos start len : Nat) (out : List byte_t)
    (h : memory_copy dst pos src start len = some out) :
    (len = 0 ∨ (start + len ≤ src.length ∧ pos + len ≤ dst.length)) ∧
    out.length = dst.length := by
  unfold memory_copy at h
  by_cases h0 : len = 0
  · simp only [h0, ↓reduceIte, Option.some.injEq] at h
    exact ⟨Or.inl h0, by rw [h]⟩
  · by_cases hb : start + len ≤ src.length ∧ pos + len ≤ dst.length
    · simp only [h0, ↓reduceIte, hb, and_self, Option.some.injEq] at h
      refine ⟨Or.inr hb, ?_⟩
      rw [← h]
      simp only [List.length_append, List.length_take, List.length_drop]
      omega
    · simp [h0, hb] at h

/-- A run of the loop of `correct_table` over the cells that has a result reads every cell
inside the pool and keeps the offset, without a wrap, inside the buffer. -/
theorem compact_loop_some (contents : List byte_t) (cells : List (Nat × Nat)) :
    ∀ (offset : Nat) (buffer : List byte_t) (done : List Nat × List byte_t),
      buffer.length < 2 ^ 32 → offset ≤ buffer.length →
      compact_loop contents cells offset buffer = some done →
      (∀ cell ∈ cells, cell.2 = 0 ∨ cell.1 + cell.2 ≤ contents.length) ∧
      offset + cells_total cells ≤ buffer.length := by
  induction cells with
  | nil =>
    intro offset buffer done _ ho _
    exact ⟨fun c hc => by simp at hc, by simpa [cells_total] using ho⟩
  | cons cell rest ih =>
    intro offset buffer done hb ho h
    simp only [compact_loop] at h
    cases hc : memory_copy buffer offset contents cell.1 cell.2 with
    | none => simp [hc] at h
    | some copied =>
      obtain ⟨hcell, hlen⟩ := memory_copy_some _ _ _ _ _ _ hc
      have hstep : offset + cell.2 ≤ buffer.length := by
        rcases hcell with h0 | h1
        · omega
        · exact h1.2
      cases hr : compact_loop contents rest ((offset + cell.2) % 2 ^ 32) copied with
      | none =>
        rw [hc] at h
        dsimp only at h
        rw [hr] at h
        exact absurd h (by simp)
      | some more =>
        rw [Nat.mod_eq_of_lt (by omega)] at hr
        obtain ⟨h1, h2⟩ := ih (offset + cell.2) copied more (by omega) (by omega) hr
        refine ⟨?_, ?_⟩
        · intro c hcm
          rcases List.mem_cons.mp hcm with hcm | hcm
          · rw [hcm]
            rcases hcell with h0 | h3
            · exact Or.inl h0
            · exact Or.inr h3.1
          · exact h1 c hcm
        · rw [cells_total_cons]; omega

/-- Every cell of every string or binary column that has bytes addresses a range inside
the pool. -/
theorem readable_of_in_bounds (table : docs_table_t) (hin : table.in_bounds) :
    ∀ column ∈ table.columns, column.is_binary = true →
      ∀ cell ∈ column_cells table.rows column,
        cell.2 = 0 ∨ cell.1 + cell.2 ≤ table.contents.length :=
  fun column hc hb cell hcell => Or.inr (hin column hc hb cell hcell)

/-- A call of `correct_table` on a table with two or more string and binary columns that
has a result was given arrays that hold the rows, cells that lie in the pool, and lengths
that sum to at most the size of the pool and to less than `2 ^ 32`. -/
theorem correct_table_some (table table' : docs_table_t)
    (htwo : 2 ≤ (binary_column_indexes table).length)
    (h : correct_table table = some table') :
    table.sized ∧ table.readable ∧ table.fits := by
  unfold correct_table at h
  rw [if_neg (by omega)] at h
  cases hc : collect_columns table.rows table.columns with
  | none => simp [hc] at h
  | some cells =>
    obtain ⟨hsized, hcells⟩ := collect_columns_some _ _ cells hc
    subst hcells
    simp only [hc] at h
    have hmod := contents_length_of_mod (all_cells table.rows table.columns)
    have hlt : contents_length_of (all_cells table.rows table.columns) < 2 ^ 32 := by
      rw [hmod]; exact Nat.mod_lt _ (by decide)
    cases hl : compact_loop table.contents (all_cells table.rows table.columns) 0
        (List.replicate (contents_length_of (all_cells table.rows table.columns)) 0) with
    | none => simp [hl] at h
    | some done =>
      obtain ⟨hread, htot⟩ := compact_loop_some _ _ 0 _ done
        (by simpa using hlt) (Nat.zero_le _) hl
      simp only [List.length_replicate, Nat.zero_add] at htot
      have htotal := total_length_eq table
      have heq : contents_length_of (all_cells table.rows table.columns)
          = cells_total (all_cells table.rows table.columns) := by
        rw [hmod] at htot ⊢
        have := Nat.mod_le (cells_total (all_cells table.rows table.columns)) (2 ^ 32)
        have hle : cells_total (all_cells table.rows table.columns)
            = cells_total (all_cells table.rows table.columns) % 2 ^ 32 := by omega
        exact hle.symm
      simp only [hl] at h
      cases hm : memory_copy table.contents 0 done.2 0
          (contents_length_of (all_cells table.rows table.columns)) with
      | none => simp [hm] at h
      | some contents =>
        obtain ⟨hfit, _⟩ := memory_copy_some _ _ _ _ _ _ hm
        refine ⟨hsized, ?_, ?_, ?_⟩
        · intro column hmem hb cell hcell
          apply hread cell
          simp only [all_cells, List.mem_flatMap, List.mem_filter, sentinel_cells,
            List.mem_append]
          exact ⟨column, ⟨hmem, hb⟩, Or.inl hcell⟩
        · rw [htotal, ← heq]
          rcases hfit with h0 | h1
          · omega
          · omega
        · rw [htotal, ← heq]; exact hlt

/-- The table a call of `correct_table` on a table with two or more string and binary
columns gives, when it gives one. -/
theorem correct_table_result (table table' : docs_table_t)
    (htwo : 2 ≤ (binary_column_indexes table).length)
    (h : correct_table table = some table') :
    table' =
      { rows := table.rows
        columns := compacted_columns table.rows 0 table.columns
        contents := columns_bytes table.contents table.rows table.columns
          ++ table.contents.drop table.total_length } := by
  obtain ⟨hsized, hread, hfits⟩ := correct_table_some table table' htwo h
  rw [correct_table_spec table hsized hread hfits htwo] at h
  exact (Option.some.inj h).symm

theorem getElem?_split {α : Type} (l : List α) :
    ∀ (i : Nat) (x : α), l[i]? = some x → l = l.take i ++ x :: l.drop (i + 1) := by
  induction l with
  | nil => intro i x h; simp at h
  | cons a rest ih =>
    intro i x h
    cases i with
    | zero =>
      simp only [List.getElem?_cons_zero, Option.some.injEq] at h
      subst h
      simp
    | succ i =>
      simp only [List.getElem?_cons_succ] at h
      simp only [List.take_succ_cons, List.drop_succ_cons, List.cons_append]
      rw [← ih i x h]

theorem mem_of_getElem?_some {α : Type} (l : List α) (i : Nat) (x : α)
    (h : l[i]? = some x) : x ∈ l := by
  obtain ⟨hlt, heq⟩ := List.getElem?_eq_some.mp h
  rw [← heq]
  exact List.getElem_mem hlt

theorem column_cells_take (rows : Nat) (column : column_view_t) (i : Nat) (hi : i ≤ rows) :
    (column_cells rows column).take i = column_cells i column := by
  unfold column_cells
  rw [List.take_take, Nat.min_eq_left hi]

/-- The bytes of the pool a compacted table holds from the place of a cell on: the place
is the length of the bytes of the columns and rows before the cell, and the bytes of the
cell lie there. -/
theorem compacted_cell_bytes (contents : List byte_t) (rows : Nat)
    (columns : List column_view_t) (rest : List byte_t) (c : Nat) (column : column_view_t)
    (hc : columns[c]? = some column) (hb : column.is_binary = true)
    (i : Nat) (cell : Nat × Nat) (hcell : (column_cells rows column)[i]? = some cell)
    (hi : i ≤ rows) (hin : cell.1 + cell.2 ≤ contents.length) :
    cell_bytes (columns_bytes contents rows columns ++ rest)
      ((columns_bytes contents rows (columns.take c) ++ column_bytes contents i column).length,
        cell.2)
      = cell_bytes contents cell := by
  have hcols := getElem?_split columns c column hc
  have hcells := getElem?_split (column_cells rows column) i cell hcell
  rw [column_cells_take rows column i hi] at hcells
  have h1 : columns_bytes contents rows columns
      = (columns_bytes contents rows (columns.take c) ++ column_bytes contents i column)
        ++ (cell_bytes contents cell
          ++ (((column_cells rows column).drop (i + 1)).flatMap (cell_bytes contents)
            ++ columns_bytes contents rows (columns.drop (c + 1)))) := by
    conv_lhs => rw [hcols]
    unfold columns_bytes
    rw [List.filter_append, List.filter_cons_of_pos hb, List.flatMap_append, List.flatMap_cons]
    conv_lhs => rw [column_bytes, hcells]
    rw [List.flatMap_append, List.flatMap_cons]
    simp only [column_bytes, List.append_assoc]
  rw [h1]
  unfold cell_bytes
  simp only [List.append_assoc]
  rw [← List.append_assoc, List.drop_left' rfl]
  have hlen : (List.take cell.2 (List.drop cell.1 contents)).length = cell.2 := by
    simp only [List.length_take, List.length_drop]; omega
  rw [List.take_left' hlen]

/-- C21 (amended): `correct_table` leaves a table with fewer than two string and binary
columns as it was. For a table with two or more of them the call has a result when the
arrays hold the rows and the cells lie in the pool and fit it, and in every table the call
gives, for every string or binary column and every row `i`,
`offsets[i+1] = offsets[i] + lengths[i]`. -/
theorem C21_offsets_follow_lengths (table : docs_table_t) :
    ((binary_column_indexes table).length < 2 → correct_table table = some table) ∧
    (2 ≤ (binary_column_indexes table).length →
      (table.sized → table.in_bounds → table.fits → (correct_table table).isSome = true) ∧
      ∀ table', correct_table table = some table' →
        ∀ column ∈ table'.columns, column.is_binary = true → ∀ i, i < table.rows →
          ∃ off len, column.offsets[i]? = some off ∧ column.lengths[i]? = some len ∧
            column.offsets[i + 1]? = some (off + len)) := by
  constructor
  · intro h
    unfold correct_table
    rw [if_pos h]
  · intro htwo
    constructor
    · intro hsized hin hfits
      rw [correct_table_spec table hsized (readable_of_in_bounds table hin) hfits htwo]
      rfl
    · intro table' h column hmem hbin i hi
      obtain ⟨hsized, _, _⟩ := correct_table_some table table' htwo h
      rw [correct_table_result table table' htwo h] at hmem
      exact compacted_row_step table.rows table.columns 0 hsized column hmem hbin i hi

/-- C21 on a table of two rows with a string column, an integer column and a binary
column. -/
theorem C21_offsets_follow_lengths_witness :
    ∃ table', correct_table names_table = some table' ∧
      ∀ column ∈ table'.columns, column.is_binary = true → ∀ i, i < names_table.rows →
        ∃ off len, column.offsets[i]? = some off ∧ column.lengths[i]? = some len ∧
          column.offsets[i + 1]? = some (off + len) := by
  have h := (C21_offsets_follow_lengths names_table).2 (by decide)
  obtain ⟨table', ht⟩ := Option.isSome_iff_exists.mp (h.1 (by decide) (by decide) (by decide))
  exact ⟨table', ht, h.2 table' ht⟩

/-- C21 fails as stated: a table with one string column, offsets 0 and 3 and length 2
(the bytes `ab` and a NUL after them), is left as it was, and 3 - 0 is not 2. -/
theorem C21_single_column_counterexample :
    (binary_column_indexes single_table).length = 1 ∧
    (correct_table single_table).map
        (fun table => table.columns.map (fun column => (column.is_binary, column.offsets, column.lengths)))
      = some [(true, [0, 3], [2])] := by
  decide

/-- C22 (amended): `correct_table` leaves a table with fewer than two string and binary
columns as it was. For a table with two or more of them the call has a result when the
arrays hold the rows and the cells lie in the pool and fit it, and in every table the call
gives the first string or binary column starts at offset 0 and, for every two consecutive
string or binary columns, the first offset of the second is the offset `offsets[rows]` of
the first, which is the offset of its last cell and the length of that cell. -/
theorem C22_columns_follow_each_other (table : docs_table_t) :
    ((binary_column_indexes table).length < 2 → correct_table table = some table) ∧
    (2 ≤ (binary_column_indexes table).length →
      (table.sized → table.in_bounds → table.fits → (correct_table table).isSome = true) ∧
      ∀ table', correct_table table = some table' →
        (∃ first, (table'.columns.filter column_view_t.is_binary)[0]? = some first ∧
          first.offsets[0]? = some 0) ∧
        ∀ j, j + 1 < (table'.columns.filter column_view_t.is_binary).length →
          ∃ a b x, (table'.columns.filter column_view_t.is_binary)[j]? = some a ∧
            (table'.columns.filter column_view_t.is_binary)[j + 1]? = some b ∧
            a.offsets[table.rows]? = some x ∧ b.offsets[0]? = some x ∧
            ∀ last, table.rows = last + 1 →
              ∃ off len, a.offsets[last]? = some off ∧ a.lengths[last]? = some len ∧
                x = off + len) := by
  constructor
  · intro h
    unfold correct_table
    rw [if_pos h]
  · intro htwo
    constructor
    · intro hsized hin hfits
      rw [correct_table_spec table hsized (readable_of_in_bounds table hin) hfits htwo]
      rfl
    intro table' h
    obtain ⟨hsized, _, _⟩ := correct_table_some table table' htwo h
    rw [correct_table_result table table' htwo h]
    refine ⟨?_, ?_⟩
    · simp only [compacted_columns_filter]
      have hlen : 2 ≤ (table.columns.filter column_view_t.is_binary).length := by
        rw [← binary_indexes_length table.columns 0]; exact htwo
      have hall : ∀ column ∈ table.columns.filter column_view_t.is_binary,
          column.is_binary = true ∧
            table.rows < column.offsets.length ∧ table.rows ≤ column.lengths.length := by
        intro c hc
        rw [List.mem_filter] at hc
        exact ⟨hc.2, hsized c hc.1 hc.2⟩
      cases hf : table.columns.filter column_view_t.is_binary with
      | nil => rw [hf] at hlen; simp at hlen
      | cons first rest =>
        rw [hf] at hall
        have hfirst := hall first (List.mem_cons_self _ _)
        refine ⟨{ first with
            offsets := prefix_offsets 0 (sentinel_cells table.rows first)
              ++ first.offsets.drop (table.rows + 1) }, ?_, ?_⟩
        · simp only [compacted_columns, hfirst.1, ↓reduceIte, List.getElem?_cons_zero]
        · have := (running_offsets_rows table.rows 0 first hfirst.2
            (first.offsets.drop (table.rows + 1))).1 0 (Nat.zero_le _)
          simpa [column_cells, cells_total] using this
    · intro j hj
      simp only [compacted_columns_filter] at hj ⊢
      rw [compacted_columns_length] at hj
      have hall : ∀ column ∈ table.columns.filter column_view_t.is_binary,
          column.is_binary = true ∧
            table.rows < column.offsets.length ∧ table.rows ≤ column.lengths.length := by
        intro c hc
        rw [List.mem_filter] at hc
        exact ⟨hc.2, hsized c hc.1 hc.2⟩
      obtain ⟨a, b, x, h1, h2, h3, h4⟩ :=
        compacted_columns_chain table.rows _ 0 j hall hj
      refine ⟨a, b, x, h1, h2, h3, h4, ?_⟩
      intro last hlast
      have hmem : a ∈ compacted_columns table.rows 0
          (table.columns.filter column_view_t.is_binary) := mem_of_getElem?_some _ _ _ h1
      have hbin : a.is_binary = true := by
        rw [← compacted_columns_filter] at hmem
        exact (List.mem_filter.mp hmem).2
      obtain ⟨off, len, ho, hl, hn⟩ := compacted_row_step table.rows _ 0
        (fun c hc hb => (hall c hc).2) a hmem hbin last (by omega)
      refine ⟨off, len, ho, hl, ?_⟩
      rw [← hlast, h3] at hn
      exact Option.some.inj hn

/-- C22 on a table of two rows with a string column, an integer column and a binary
column: the string column starts at 0 and the binary column where the string column
ends. -/
theorem C22_columns_follow_each_other_witness :
    ∃ table', correct_table names_table = some table' ∧
      (∃ first, (table'.columns.filter column_view_t.is_binary)[0]? = some first ∧
        first.offsets[0]? = some 0) ∧
      ∀ j, j + 1 < (table'.columns.filter column_view_t.is_binary).length →
        ∃ a b x, (table'.columns.filter column_view_t.is_binary)[j]? = some a ∧
          (table'.columns.filter column_view_t.is_binary)[j + 1]? = some b ∧
          a.offsets[names_table.rows]? = some x ∧ b.offsets[0]? = some x := by
  have h := (C22_columns_follow_each_other names_table).2 (by decide)
  obtain ⟨table', ht⟩ := Option.isSome_iff_exists.mp (h.1 (by decide) (by decide) (by decide))
  refine ⟨table', ht, (h.2 table' ht).1, ?_⟩
  intro j hj
  obtain ⟨a, b, x, h1, h2, h3, h4, _⟩ := (h.2 table' ht).2 j hj
  exact ⟨a, b, x, h1, h2, h3, h4⟩

/-- C22 fails as stated: a table with one string column whose cell lies at offset 1 of the
pool (offsets 1 and 3, length 2; the array holds the row, the cell lies in the pool and
fits it) is left as it was, and its first string column starts at offset 1, not 0. -/
theorem C22_single_column_counterexample :
    (binary_column_indexes shifted_table).length = 1 ∧
    shifted_table.sized ∧ shifted_table.in_bounds ∧ shifted_table.fits ∧
    correct_table shifted_table = some shifted_table ∧
    (correct_table shifted_table).map
        (fun table => (table.columns.filter column_view_t.is_binary).map
          (fun column => column.offsets[0]?))
      = some [some 1] := by
  decide

/-- C24 fails as stated: two string columns of one row whose cells both address the two
bytes of the pool `ab` are in bounds, the bytes of the cells one after the other are four,
and the copy of them over the pool of two bytes leaves the pool: the call has no defined
result. -/
theorem C24_overlapping_cells_counterexample :
    2 ≤ (binary_column_indexes overlap_table).length ∧
    overlap_table.sized ∧ overlap_table.in_bounds ∧
    columns_bytes overlap_table.contents overlap_table.rows overlap_table.columns
      = [97, 98, 97, 98] ∧
    overlap_table.contents.length = 2 ∧
    correct_table overlap_table = none := by
  decide

/-- C24 (amended): for a table with two or more string and binary columns whose cells all
lie in the pool, `correct_table` has a result exactly when the arrays hold the rows and
the lengths sum to at most the size of the pool and to less than `2 ^ 32`. The table it
gives has a pool that starts with the bytes the cells addressed before the call, column
by column and row by row; every column keeps its kind, its validities and its lengths, a
column that is neither string nor binary is as it was, and the new offset of each cell is
the place of its bytes in that run of bytes, so the cell reads the bytes it read
before. -/
theorem C24_compaction (table : docs_table_t)
    (htwo : 2 ≤ (binary_column_indexes table).length) (hin : table.in_bounds) :
    ((correct_table table).isSome = true ↔ table.sized ∧ table.fits) ∧
    ∀ table', correct_table table = some table' →
      table'.rows = table.rows ∧
      table'.contents = columns_bytes table.contents table.rows table.columns
        ++ table.contents.drop table.total_length ∧
      (columns_bytes table.contents table.rows table.columns).length = table.total_length ∧
      table'.columns.length = table.columns.length ∧
      ∀ c column, table.columns[c]? = some column →
        ∃ column', table'.columns[c]? = some column' ∧
          column'.type_ = column.type_ ∧ column'.validities = column.validities ∧
          column'.lengths = column.lengths ∧
          (column.is_binary = false → column' = column) ∧
          (column.is_binary = true → ∀ i, i < table.rows →
            ∃ off len, column.offsets[i]? = some off ∧ column.lengths[i]? = some len ∧
              column'.offsets[i]? = some
                (columns_bytes table.contents table.rows (table.columns.take c)
                  ++ column_bytes table.contents i column).length ∧
              cell_bytes table'.contents
                  ((columns_bytes table.contents table.rows (table.columns.take c)
                    ++ column_bytes table.contents i column).length, len)
                = cell_bytes table.contents (off, len)) := by
  have hread := readable_of_in_bounds table hin
  constructor
  · constructor
    · intro h
      obtain ⟨table', ht⟩ := Option.isSome_iff_exists.mp h
      obtain ⟨hsized, _, hfits⟩ := correct_table_some table table' htwo ht
      exact ⟨hsized, hfits⟩
    · intro h
      rw [correct_table_spec table h.1 hread h.2 htwo]
      rfl
  intro table' h
  obtain ⟨hsized, _, hfits⟩ := correct_table_some table table' htwo h
  rw [correct_table_result table table' htwo h]
  refine ⟨rfl, rfl, columns_bytes_length table hread, compacted_columns_length _ _ _, ?_⟩
  intro c column hc
  have hget := compacted_columns_get table.rows table.columns 0 c column hc
  have hmem : column ∈ table.columns := mem_of_getElem?_some _ _ _ hc
  by_cases hb : column.is_binary = true
  · rw [if_pos hb] at hget
    refine ⟨_, hget, rfl, rfl, rfl, (fun h => by rw [hb] at h; cases h), ?_⟩
    intro _ i hi
    have hs := hsized column hmem hb
    obtain ⟨off, len, ho, hl, _, hcell⟩ := sentinel_cells_get table.rows column hs i hi
    have hplace : (columns_bytes table.contents table.rows (table.columns.take c)
        ++ column_bytes table.contents i column).length
        = 0 + cells_total (all_cells table.rows (table.columns.take c))
          + cells_total (column_cells i column) := by
      have h1 : (columns_bytes table.contents table.rows (table.columns.take c)).length
          = cells_total (((table.columns.take c).filter column_view_t.is_binary).flatMap
              (column_cells table.rows)) := by
        unfold columns_bytes
        apply columns_bytes_length_aux
        intro c2 hc2 cell hcm
        rw [List.mem_filter] at hc2
        exact hread c2 (List.mem_of_mem_take hc2.1) hc2.2 cell hcm
      have h2 : (column_bytes table.contents i column).length
          = cells_total (column_cells i column) := by
        unfold column_bytes
        apply cells_bytes_length
        intro cell hcm
        rw [← column_cells_take table.rows column i (by omega)] at hcm
        exact hread column hmem hb cell (List.mem_of_mem_take hcm)
      rw [List.length_append, all_cells_total, h1, h2]
      omega
    refine ⟨off, len, ho, hl, ?_, ?_⟩
    · rw [hplace]
      exact (running_offsets_rows table.rows _ column hs _).1 i (by omega)
    · exact compacted_cell_bytes table.contents table.rows table.columns _ c column hc hb i
        (off, len) hcell (by omega)
        (hin column hmem hb (off, len) (mem_of_getElem?_some _ _ _ hcell))
  · rw [if_neg hb] at hget
    exact ⟨column, hget, rfl, rfl, rfl, (fun _ => rfl), (fun h => absurd h hb)⟩

/-- C24 on a table of two rows with a string column, an integer column and a binary
column over the pool `xcdeab`: the pool becomes `abcdex`. -/
theorem C24_compaction_witness :
    ∃ table', correct_table names_table = some table' ∧
      table'.contents = [97, 98, 99, 100, 101, 120] := by
  have h := C24_compaction names_table (by decide) (by decide)
  obtain ⟨table', ht⟩ := Option.isSome_iff_exists.mp (h.1.mpr (by decide))
  exact ⟨table', ht, (h.2 table' ht).2.1.trans (by decide)⟩

/-! ## The rows of a table, the export of a graph and the fields of a document -/

/-- The pointers `keys_begin` and `keys_end` of `materialize` bound the window the limits
select. -/
theorem slice_bounds_window (df : py_table_collection_t) :
    (df.rows_keys.drop (slice_bounds df).1).take ((slice_bounds df).2 - (slice_bounds df).1)
      = selected_window df := by
  unfold slice_bounds selected_window
  by_cases hlast : df.head_was_defined_last = true
  · simp only [hlast, ↓reduceIte, Nat.zero_add]
    by_cases ht : df.rows_keys.length > df.tail
    · simp only [ht, ↓reduceIte]
      by_cases hh : df.rows_keys.length - (df.rows_keys.length - df.tail) > df.head
      · simp only [hh, ↓reduceIte]
        congr 1
        omega
      · simp only [hh, ↓reduceIte]
        rw [List.take_of_length_le (by simp only [List.length_drop]; omega),
          List.take_of_length_le (by simp only [List.length_drop]; omega)]
    · simp only [ht, ↓reduceIte, Nat.sub_zero, List.drop_zero]
      have h0 : df.rows_keys.length - df.tail = 0 := by omega
      rw [h0, List.drop_zero]
      by_cases hh : df.rows_keys.length > df.head
      · simp only [hh, ↓reduceIte]
        congr 1
        omega
      · simp only [hh, ↓reduceIte]
        rw [List.take_of_length_le (by omega), List.take_of_length_le (by omega)]
  · simp only [hlast, Bool.false_eq_true, ↓reduceIte, Nat.zero_add, Nat.sub_zero]
    by_cases hh : df.rows_keys.length > df.head
    · simp only [hh, ↓reduceIte]
      have he : df.rows_keys.length - (df.rows_keys.length - df.head) = df.head := by omega
      have hl : (df.rows_keys.take df.head).length = df.head := by
        rw [List.length_take]; omega
      rw [he, hl]
      by_cases ht : df.head > df.tail
      · simp only [ht, ↓reduceIte]
        rw [List.drop_take]
      · simp only [ht, ↓reduceIte, List.drop_zero, Nat.sub_zero]
        have h0 : df.head - df.tail = 0 := by omega
        rw [h0, List.drop_zero]
    · simp only [hh, ↓reduceIte]
      have hl : (df.rows_keys.take df.head).length = df.rows_keys.length := by
        rw [List.length_take]; omega
      rw [hl, List.take_of_length_le (by omega : df.rows_keys.length ≤ df.head)]
      by_cases ht : df.rows_keys.length > df.tail
      · simp only [ht, ↓reduceIte]
        rw [List.take_of_length_le (by simp only [List.length_drop]; omega)]
      · simp only [ht, ↓reduceIte, List.drop_zero, Nat.sub_zero]
        have h0 : df.rows_keys.length - df.tail = 0 := by omega
        rw [h0, List.drop_zero, List.take_of_length_le (by omega)]

theorem slice_bounds_le (df : py_table_collection_t) :
    (slice_bounds df).2 ≤ df.rows_keys.length := by
  unfold slice_bounds
  by_cases hlast : df.head_was_defined_last = true
  · simp only [hlast, ↓reduceIte]
    split <;> split <;> omega
  · simp only [hlast, Bool.false_eq_true, ↓reduceIte]
    split <;> omega

/-- The vector `materialize` keeps has the length of the window the limits select, the
least of the number of keys, `head` and `tail`. -/
theorem materialize_keys_length (df : py_table_collection_t) :
    (materialize_keys df).length = (selected_window df).length ∧
    (selected_window df).length = min df.rows_keys.length (min df.head df.tail) := by
  have hw := congrArg List.length (slice_bounds_window df)
  have hle := slice_bounds_le df
  have hsel : (selected_window df).length = min df.rows_keys.length (min df.head df.tail) := by
    unfold selected_window
    by_cases hlast : df.head_was_defined_last = true
    · simp only [hlast, ↓reduceIte, List.length_take, List.length_drop]
      omega
    · simp only [hlast, Bool.false_eq_true, ↓reduceIte, List.length_take, List.length_drop]
      omega
  refine ⟨?_, hsel⟩
  simp only [List.length_take, List.length_drop] at hw
  unfold materialize_keys
  by_cases hc : ((slice_bounds df).2 - (slice_bounds df).1 != df.rows_keys.length) = true
  · simp only [hc, ↓reduceIte, bytes_keys, List.length_map, List.length_range]
    omega
  · simp only [hc, Bool.false_eq_true, ↓reduceIte]
    have : (slice_bounds df).2 - (slice_bounds df).1 = df.rows_keys.length := by
      simpa using hc
    omega

theorem c_str_of_no_nul (chars : List Char) (h : nul ∉ chars) : c_str chars = chars := by
  unfold c_str
  rw [List.takeWhile_eq_self_iff]
  intro ch hch
  have : ch ≠ nul := fun heq => h (heq ▸ hch)
  simpa using this

theorem c_str_append_nul (chars rest : List Char) (h : nul ∉ chars) :
    c_str (chars ++ nul :: rest) = chars := by
  unfold c_str
  induction chars with
  | nil => simp [List.takeWhile]
  | cons ch more ih =>
    have hne : ch ≠ nul := fun heq => h (heq ▸ List.mem_cons_self _ _)
    have hmore : nul ∉ more := fun hm => h (List.mem_cons_of_mem _ hm)
    simp only [List.cons_append, List.takeWhile_cons, bne_iff_ne, ne_eq, hne, not_false_eq_true,
      decide_True, ↓reduceIte, ih hmore]

theorem strlen_of_no_nul (chars : List Char) (h : nul ∉ chars) : strlen chars = chars.length := by
  unfold strlen
  rw [c_str_of_no_nul chars h]

/-- The characters `strncpy` writes for the entry of a field whose name holds no NUL are
the entry: the name in quotes, the colon and the NUL. -/
theorem strncpy_format_field (name : List Char) (h : nul ∉ name) :
    strncpy (format_field name) (format_field name).length = format_field name := by
  have hsplit : format_field name = ([quote] ++ name ++ [quote, colon]) ++ nul :: [] := by
    simp [format_field]
  have hno : nul ∉ [quote] ++ name ++ [quote, colon] := by
    simp only [List.mem_append, List.mem_singleton, List.mem_cons, List.mem_nil_iff, or_false,
      not_or]
    exact ⟨⟨by decide, h⟩, by decide, by decide⟩
  have hc : c_str (format_field name) = [quote] ++ name ++ [quote, colon] := by
    rw [hsplit, c_str_append_nul _ _ hno]
  unfold strncpy
  rw [hc]
  have hlen : (format_field name).length = ([quote] ++ name ++ [quote, colon]).length + 1 := by
    rw [hsplit, List.length_append]
    rfl
  rw [hlen, List.take_of_length_le (by omega)]
  have : ([quote] ++ name ++ [quote, colon]).length + 1
      - ([quote] ++ name ++ [quote, colon]).length = 1 := by omega
  rw [this, hsplit]
  rfl

theorem format_field_length (name : List Char) :
    (format_field name).length = name.length + symbols_count_k := by
  simp [format_field, symbols_count_k]

/-- The loop of `fields_parser` over fields that are all flat names: each adds its entry
to the tape and its length and four to the offset. -/
theorem fields_loop_flat (done : List (List Char)) :
    ∀ (rest : List (List Char)) (fuel : Nat) (s : parser_state_t),
      (∀ field ∈ rest, is_ptr field = false ∧ nul ∉ field) →
      s.idx = done.length → rest.length ≤ fuel →
      fields_loop (done ++ rest) (done ++ rest).length fuel s
        = some { s with
            tape := s.tape ++ (rest.map format_field).flatten
            offset := s.offset + ((rest.map List.length).sum + rest.length * symbols_count_k)
            idx := (done ++ rest).length } := by
  intro rest
  induction rest generalizing done with
  | nil =>
    intro fuel s _ hidx _
    have hnot : ¬ s.idx < (done ++ []).length := by simp [hidx]
    have hs : s = { s with
        tape := s.tape ++ (([] : List (List Char)).map format_field).flatten
        offset := s.offset + ((([] : List (List Char)).map List.length).sum
          + ([] : List (List Char)).length * symbols_count_k)
        idx := (done ++ []).length } := by
      cases s
      simp only [List.append_nil] at hidx ⊢
      simp [hidx]
    cases fuel with
    | zero =>
      simp only [fields_loop, hnot, ↓reduceIte]
      exact congrArg some hs
    | succ fuel =>
      simp only [fields_loop, hnot, ↓reduceIte]
      exact congrArg some hs
  | cons field more ih =>
    intro fuel s hflat hidx hfuel
    cases fuel with
    | zero => simp at hfuel
    | succ fuel =>
      have hf := hflat field (List.mem_cons_self _ _)
      have hlt : s.idx < (done ++ field :: more).length := by simp [hidx]
      have hget : (done ++ field :: more)[s.idx]? = some field := by
        rw [hidx, List.getElem?_append_right (Nat.le_refl _), Nat.sub_self]
        exact List.getElem?_cons_zero
      simp only [fields_loop, hlt, ↓reduceIte, hget, hf.1, Bool.false_eq_true]
      have hassoc : done ++ field :: more = (done ++ [field]) ++ more := by simp
      rw [hassoc, ih (done ++ [field]) fuel _
        (fun f hfm => hflat f (List.mem_cons_of_mem _ hfm))
        (by simp [parser_state_t.write, hidx]) (by simpa using hfuel)]
      simp only [parser_state_t.write, strncpy_format_field field hf.2]
      simp only [format_field_length, List.map_cons, List.flatten_cons, List.sum_cons,
        List.length_cons, List.append_assoc]
      congr 2
      rw [Nat.add_mul]
      omega

/-- For fields that are all flat names without a NUL, `fields_parser` writes the entry of
each field, one after the other, and ends with the offset at the size of the tape its
callers allocate. -/
theorem parse_fields_flat (fields : List (List Char))
    (hflat : ∀ field ∈ fields, is_ptr field = false ∧ nul ∉ field) :
    parse_fields fields fields.length = some
      { prefixes := [], counts := [], pre_idx := 0
        offset := tape_max_size fields fields.length
        pos := some 0
        tape := (flat_entries fields).flatten
        idx := fields.length } := by
  unfold parse_fields
  rw [if_neg (by omega), List.take_length]
  have hmap : fields.map c_str = fields := by
    conv_rhs => rw [← List.map_id fields]
    apply List.map_congr_left
    intro f hf
    exact c_str_of_no_nul f (hflat f hf).2
  rw [hmap]
  have h := fields_loop_flat [] fields (fields.length + 1)
    { prefixes := [], counts := [], pre_idx := 0, offset := 0, pos := some 0, tape := [],
      idx := 0 } hflat rfl (by omega)
  simp only [List.nil_append] at h
  rw [h]
  have hentries : flat_entries fields = fields.map format_field := by
    unfold flat_entries
    apply List.map_congr_left
    intro f hf
    simp [(hflat f hf).1]
  have hsize : tape_max_size fields fields.length
      = (fields.map List.length).sum + fields.length * symbols_count_k := by
    unfold tape_max_size
    rw [List.take_length]
    have : fields.map strlen = fields.map List.length := by
      apply List.map_congr_left
      intro f hf
      exact strlen_of_no_nul f (hflat f hf).2
    rw [this]
    omega
  rw [hentries, hsize]
  simp

/-- C26 (the code at a failing input): with the keys 10, 20, 30, 40, no `head` below
their number and `tail` 2 set last, the window the limits select is 30, 40, of length
min(4, 100, 2) = 2; `materialize` moves 2 bytes where the 2 keys take 16, and its vector
holds 30, 20. -/
theorem C26_slicing_failing_input :
    selected_window
      { rows_keys := [10, 20, 30, 40], head := 100, tail := 2, head_was_defined_last := false }
        = [30, 40] ∧
    slice_bounds
      { rows_keys := [10, 20, 30, 40], head := 100, tail := 2, head_was_defined_last := false }
        = (2, 4) ∧
    materialize_keys
      { rows_keys := [10, 20, 30, 40], head := 100, tail := 2, head_was_defined_last := false }
        = [30, 20] := by
  decide

/-- C27 (the code at a failing input): for the two batches with the edges (1, 2, 3) and
(4, 5, 6) the columns of the components are 1, 4 and 2, 5 and 3, 6; `export_csv_graph`
writes every batch from the first cell on, and its columns are 4, 0 and 5, 0 and
6, 0. -/
theorem C27_csv_columns_failing_input :
    edge_components
      [{ first := [1, 2, 3], second := 3 }, { first := [4, 5, 6], second := 3 }] 0 = [1, 4] ∧
    edge_components
      [{ first := [1, 2, 3], second := 3 }, { first := [4, 5, 6], second := 3 }] 1 = [2, 5] ∧
    edge_components
      [{ first := [1, 2, 3], second := 3 }, { first := [4, 5, 6], second := 3 }] 2 = [3, 6] ∧
    export_csv_graph { edge_id_field := "id" }
      [{ first := [1, 2, 3], second := 3 }, { first := [4, 5, 6], second := 3 }] 6
        = some [[4, 0], [5, 0], [6, 0]] := by
  decide

/-- C28 (the code at a failing input): for the fields `/a` and `b`, a pointer of one step
and a flat name, the entries of the claim are two, for `a` and for `b`; `fields_parser`
leaves its loop after the first, with one entry on the tape, the offset 5 and `idx` still
at the first field. -/
theorem C28_pointer_of_one_step_failing_input :
    flat_entries ["/a".toList, "b".toList] = [format_field "a".toList, format_field "b".toList] ∧
    (parse_fields ["/a".toList, "b".toList] 2).map
      (fun s => (tape_entries s.tape [], s.offset, s.idx))
        = some ([format_field "a".toList], 5, 0) := by
  decide

/-- C29 (the code at a failing input): for the one field `/a/b` the callers allocate a tape
of 4 * 1 + 4 = 8 characters; `fields_parser` writes the entry that opens `a`, the entry of
`b` and the closing brace, 13 characters, and ends with the offset 13. -/
theorem C29_nested_pointer_failing_input :
    tape_max_size ["/a/b".toList] 1 = 8 ∧
    (parse_fields ["/a/b".toList] 1).map
      (fun s => (tape_entries s.tape [], s.tape.length, s.offset))
        = some ([format_object "a".toList, format_field "b".toList, [brace_close, nul]],
            13, 13) := by
  decide

end ukv
